import Mathlib

/-!
# Othello engine (`Tactic_Table/Othello.cpp`): shallow embedding and verification

The C++ classes `Board`, `HumanPlayer`, `AIPlayer` and `Game` are embedded as
pure functions on explicit state.  A member function that mutates the board
returns the new board (paired with its C++ return value when it has one).
C++ `int` coordinates are `Int`; all values that occur stay far from the
32-bit range, so no wrap-around is modelled.  `INT_MIN` / `INT_MAX` are the
32-bit constants.
-/

namespace Othello

/-! ## Data model -/

/-- The C++ enum `Cell { EMPTY, Black_Disc, White_Disc }`. -/
inductive Cell where
  | EMPTY
  | Black_Disc
  | White_Disc
  deriving DecidableEq, Repr, Inhabited

/-- The C++ enum `GameResult { NONE, BLACK_WINS, WHITE_WINS, DRAW }`. -/
inductive GameResult where
  | NONE
  | BLACK_WINS
  | WHITE_WINS
  | DRAW
  deriving DecidableEq, Repr

open Cell GameResult

/-- The constant `const int BOARD_SIZE = 8;`. -/
def BOARD_SIZE : Int := 8

/-- The class `Board`: `Cell board[8][8]` (indexed `board[row][col]`, that is
`board[y][x]`) and `Cell currentPlayer`. -/
structure Board where
  board : Fin 8 → Fin 8 → Cell
  currentPlayer : Cell
  deriving DecidableEq

/-- The method `Board::Is_Within_Boundaries`. -/
def Is_Within_Boundaries (x y : Int) : Bool :=
  decide (x ≥ 0) && decide (x < BOARD_SIZE) && decide (y ≥ 0) && decide (y < BOARD_SIZE)

/-- The read `board[y][x]` for C++ `int` indices.  An index outside the array
(undefined behaviour in C++) reads as `EMPTY`; every read the engine makes
with computed indices is guarded by `Is_Within_Boundaries`. -/
def cellAt (b : Board) (x y : Int) : Cell :=
  if h : Is_Within_Boundaries x y = true then
    b.board ⟨y.toNat, by simp [Is_Within_Boundaries, BOARD_SIZE] at h; omega⟩
            ⟨x.toNat, by simp [Is_Within_Boundaries, BOARD_SIZE] at h; omega⟩
  else EMPTY

/-- The write `board[y][x] = v` for C++ `int` indices (a write outside the
array, undefined behaviour in C++, is modelled as no write). -/
def setCell (b : Board) (x y : Int) (v : Cell) : Board :=
  if Is_Within_Boundaries x y = true then
    { b with board := fun r c => if r.val = y.toNat ∧ c.val = x.toNat then v else b.board r c }
  else b

/-- The expression `(currentPlayer == Black_Disc ? White_Disc : Black_Disc)`. -/
def opponentOf (p : Cell) : Cell :=
  if p = Black_Disc then White_Disc else Black_Disc

/-- The method `Board::Initialize_Board` on a board whose `currentPlayer` is `p`. -/
def Initialize_Board (p : Cell) : Board :=
  let cleared : Board := { board := fun _ _ => EMPTY, currentPlayer := p }
  setCell (setCell (setCell (setCell cleared 3 3 White_Disc) 4 3 Black_Disc) 3 4 Black_Disc)
    4 4 White_Disc

/-- The constructor `Board::Board()`. -/
def Board.new : Board := Initialize_Board Black_Disc

/-! ## Capture scan, legality, move application -/

/-- The `while` loop of `Board::TryFlip`.  `fuel` bounds the number of
iterations; the result is the final `(cx, cy, count)`. -/
def scanLoop (b : Board) (dx dy : Int) : Nat → Int → Int → Nat → Int × Int × Nat
  | 0, cx, cy, count => (cx, cy, count)
  | fuel + 1, cx, cy, count =>
    if Is_Within_Boundaries cx cy && decide (cellAt b cx cy = opponentOf b.currentPlayer) then
      scanLoop b dx dy fuel (cx + dx) (cy + dy) (count + 1)
    else (cx, cy, count)

/-- The flip loop `for (int i = 1; i <= count; i++) board[y+i*dy][x+i*dx] = currentPlayer;`
run for `i = 1 .. count`. -/
def flipLoop (b : Board) (x y dx dy : Int) : Nat → Board
  | 0 => b
  | count + 1 =>
    let b1 := flipLoop b x y dx dy count
    setCell b1 (x + ((count + 1 : Nat) : Int) * dx) (y + ((count + 1 : Nat) : Int) * dy)
      b1.currentPlayer

/-- The method `Board::TryFlip`: the returned flag and the board after the call.  The scan
is given 8 iterations, which is all it can use in any direction other than
`(0,0)` (see `scanLoop_fuel`). -/
def TryFlip (b : Board) (x y dx dy : Int) (flip : Bool) : Bool × Board :=
  let r := scanLoop b dx dy 8 (x + dx) (y + dy) 0
  let cx := r.1
  let cy := r.2.1
  let count := r.2.2
  if decide (count > 0) && Is_Within_Boundaries cx cy
      && decide (cellAt b cx cy = b.currentPlayer) then
    if flip then (true, flipLoop b x y dx dy count) else (true, b)
  else (false, b)

/-- Body of the two direction loops of `Board::CanPlace`, for one `(dx, dy)`:
`if (!(dx == 0 && dy == 0)) valid |= TryFlip(x, y, dx, dy, flip);`. -/
def canPlaceStep (x y : Int) (flip : Bool) (dy : Int) (acc : Bool × Board) (dx : Int) :
    Bool × Board :=
  if !(decide (dx = 0) && decide (dy = 0)) then
    let r := TryFlip acc.2 x y dx dy flip
    (acc.1 || r.1, r.2)
  else acc

/-- The method `Board::CanPlace`: the returned flag and the board after the call. -/
def CanPlace (b : Board) (x y : Int) (flip : Bool) : Bool × Board :=
  if cellAt b x y ≠ EMPTY then (false, b)
  else
    ([-1, 0, 1] : List Int).foldl
      (fun acc dy => ([-1, 0, 1] : List Int).foldl (canPlaceStep x y flip dy) acc)
      (false, b)

/-- The method `Board::PlacePiece`. -/
def PlacePiece (b : Board) (x y : Int) : Board :=
  let r := CanPlace b x y true
  if r.1 then
    let b1 := setCell r.2 x y r.2.currentPlayer
    { b1 with currentPlayer := opponentOf b1.currentPlayer }
  else r.2

/-- The method `Board::Clone`, as a value: a fresh `Board` whose 64 cells and `currentPlayer`
are then overwritten with those of `b`.  The copy as an object of its own in memory is
`HClone`, which `HClone_spec` relates to this value. -/
def Clone (b : Board) : Board :=
  { board := fun r c => b.board r c, currentPlayer := b.currentPlayer }

/-! ## Disc counters -/

/-- The disc counters loop of `Game::Draw` (the same two counters are kept by
`Game::CheckGameOver`): `(blackCount, whiteCount)`. -/
def countDiscs (b : Board) : Nat × Nat :=
  (List.range 8).foldl
    (fun (acc : Nat × Nat) (y : Nat) => (List.range 8).foldl
      (fun (acc : Nat × Nat) (x : Nat) =>
        if cellAt b x y = Black_Disc then (acc.1 + 1, acc.2)
        else if cellAt b x y = White_Disc then (acc.1, acc.2 + 1)
        else acc) acc)
    (0, 0)

/-- Number of discs of colour `c` (`blackCount` for Black, else `whiteCount`). -/
def discsOf (b : Board) (c : Cell) : Nat :=
  if c = Black_Disc then (countDiscs b).1 else (countDiscs b).2

/-! ## Human player -/

/-- The method `HumanPlayer::MakeMove`.  The input `click` is `none` when the mouse button
is not pressed, and otherwise the target cell `(x, y)` computed from the mouse
position. -/
def HumanMakeMove (b : Board) (click : Option (Int × Int)) : Board :=
  match click with
  | none => b
  | some (x, y) =>
    if Is_Within_Boundaries x y then
      let r := CanPlace b x y false
      if r.1 then PlacePiece r.2 x y else r.2
    else b

/-! ## Computer player -/

/-- The constant `INT_MIN` of `<climits>` for a 32-bit `int`. -/
def INT_MIN : Int := -2147483648

/-- The constant `INT_MAX` of `<climits>` for a 32-bit `int`. -/
def INT_MAX : Int := 2147483647

/-- The table `weight[8][8]` of `AIPlayer::EvaluateBoard`. -/
def weight : List (List Int) :=
  [[100, -20, 10, 5, 5, 10, -20, 100],
   [-20, -50, -2, -2, -2, -2, -50, -20],
   [10, -2, 0, 0, 0, 0, -2, 10],
   [5, -2, 0, 0, 0, 0, -2, 5],
   [5, -2, 0, 0, 0, 0, -2, 5],
   [10, -2, 0, 0, 0, 0, -2, 10],
   [-20, -50, -2, -2, -2, -2, -50, -20],
   [100, -20, 10, 5, 5, 10, -20, 100]]

/-- The read `weight[y][x]`. -/
def weightAt (y x : Nat) : Int := (weight.getD y []).getD x 0

/-- The method `AIPlayer::EvaluateBoard`. -/
def EvaluateBoard (b : Board) : Int :=
  let s := (List.range 8).foldl
    (fun (acc : Int × Int) (y : Nat) => (List.range 8).foldl
      (fun (acc : Int × Int) (x : Nat) =>
        if cellAt b x y = Black_Disc then (acc.1 + weightAt y x, acc.2)
        else if cellAt b x y = White_Disc then (acc.1, acc.2 + weightAt y x)
        else acc) acc)
    ((0 : Int), (0 : Int))
  s.1 - s.2

/-- The read-only legality test `board.board[y][x] == EMPTY && board.CanPlace(x, y, false)`
of the search loops.  The call leaves the board as it was (`CanPlace_query_board`),
so only its flag is kept. -/
def isLegal (b : Board) (x y : Int) : Bool :=
  decide (cellAt b x y = EMPTY) && (CanPlace b x y false).1

/-- The variables of `AIPlayer::Minimax` that its loops update. -/
structure SearchState where
  bestScore : Int
  moveFound : Bool
  alpha : Int
  beta : Int
  deriving DecidableEq, Repr

/-- Body of the `if` of the loops of `AIPlayer::Minimax` for a legal cell, up to
(not including) the pruning test; `score` is the value returned by the recursive call. -/
def searchUpdate (isMaximizingPlayer : Bool) (st : SearchState) (score : Int) : SearchState :=
  if isMaximizingPlayer then
    { bestScore := max st.bestScore score, moveFound := true,
      alpha := max st.alpha (max st.bestScore score), beta := st.beta }
  else
    { bestScore := min st.bestScore score, moveFound := true,
      alpha := st.alpha, beta := min st.beta (min st.bestScore score) }

/-- The inner loop `for (x ...)` of `AIPlayer::Minimax` on row `y`, for the
columns still to visit.  `rec` is `Minimax` at `depth - 1`.  The `break` leaves
this loop only. -/
def minimaxRow (rec : Board → Bool → Int → Int → Int) (b : Board) (isMaximizingPlayer : Bool)
    (y : Nat) : List Nat → SearchState → SearchState
  | [], st => st
  | x :: xs, st =>
    if isLegal b x y then
      let simulatedBoard := PlacePiece (Clone b) x y
      let score := rec simulatedBoard (!isMaximizingPlayer) st.alpha st.beta
      let st1 := searchUpdate isMaximizingPlayer st score
      if st1.beta ≤ st1.alpha then st1
      else minimaxRow rec b isMaximizingPlayer y xs st1
    else minimaxRow rec b isMaximizingPlayer y xs st

/-- The method `AIPlayer::Minimax`, by recursion on `depth ≥ 0`. -/
def Minimax : Nat → Board → Bool → Int → Int → Int
  | 0, b, _, _, _ => EvaluateBoard b
  | depth + 1, b, isMaximizingPlayer, alpha, beta =>
    let st := (List.range 8).foldl
      (fun (st : SearchState) (y : Nat) =>
        minimaxRow (Minimax depth) b isMaximizingPlayer y (List.range 8) st)
      { bestScore := if isMaximizingPlayer then INT_MIN else INT_MAX, moveFound := false,
        alpha := alpha, beta := beta }
    if !st.moveFound then EvaluateBoard b else st.bestScore

/-- The variables of `AIPlayer::MakeMove` that its loops update. -/
structure MoveState where
  bestScore : Int
  bestX : Int
  bestY : Int
  moveFound : Bool
  deriving DecidableEq, Repr

/-- Body of the loops of `AIPlayer::MakeMove` for the cell `(x, y)`. -/
def makeMoveStep (b : Board) (y : Nat) (st : MoveState) (x : Nat) : MoveState :=
  if isLegal b x y then
    let simulatedBoard := PlacePiece (Clone b) x y
    let score := Minimax 3 simulatedBoard false INT_MIN INT_MAX
    if score > st.bestScore then
      { bestScore := score, bestX := x, bestY := y, moveFound := true }
    else { st with moveFound := true }
  else st

/-- The two scoring loops of `AIPlayer::MakeMove`. -/
def makeMoveScan (b : Board) : MoveState :=
  (List.range 8).foldl
    (fun (st : MoveState) (y : Nat) => (List.range 8).foldl (makeMoveStep b y) st)
    { bestScore := INT_MIN, bestX := -1, bestY := -1, moveFound := false }

/-- The method `AIPlayer::MakeMove`: the board after the call. -/
def AIMakeMove (b : Board) : Board :=
  let st := makeMoveScan b
  if st.moveFound && st.bestX != -1 && st.bestY != -1 then PlacePiece b st.bestX st.bestY
  else b

/-! ## Mobility query -/

/-- The 64 cells `(x, y)` in the order of the loops `for (y ...) for (x ...)`. -/
def allCells : List (Nat × Nat) :=
  (List.range 8).flatMap (fun y => (List.range 8).map (fun x => (x, y)))

/-- The loops of `Board::HasValidMove` over the cells still to visit, with the
`return true` on the first hit. -/
def hasValidMoveLoop (isWhite : Bool) : List (Nat × Nat) → Board → Bool × Board
  | [], b => (false, b)
  | (x, y) :: rest, b =>
    if cellAt b x y = EMPTY then
      let r := CanPlace b x y isWhite
      if r.1 then (true, r.2) else hasValidMoveLoop isWhite rest r.2
    else hasValidMoveLoop isWhite rest b

/-- The method `Board::HasValidMove`: the returned flag and the board after the call.  The
argument `isWhite` is what the source passes to `CanPlace` as its third argument. -/
def HasValidMove (b : Board) (isWhite : Bool) : Bool × Board :=
  hasValidMoveLoop isWhite allCells b

/-! ## Game -/

/-- The class `Game`: the fields the engine reads and writes.  The two player
objects are determined by `vsAI` (`InitPlayers`: Black is a `HumanPlayer`, White
is an `AIPlayer` when `vsAI`, else a `HumanPlayer`). -/
structure Game where
  board : Board
  vsAI : Bool
  gameOver : Bool
  result : GameResult
  deriving DecidableEq

/-- The local variables of `Game::CheckGameOver`, with the board they probe. -/
structure CheckState where
  board : Board
  blackCount : Nat
  whiteCount : Nat
  blackCanMove : Bool
  whiteCanMove : Bool
  deriving DecidableEq

/-- The probe `temp = currentPlayer; currentPlayer = c; CanPlace(x, y, false); currentPlayer = temp`
of `Game::CheckGameOver`: the flag and the board after the probe. -/
def probe (b : Board) (c : Cell) (x y : Int) : Bool × Board :=
  let temp := b.currentPlayer
  let r := CanPlace { b with currentPlayer := c } x y false
  (r.1, { r.2 with currentPlayer := temp })

/-- Body of the loops of `Game::CheckGameOver` for the cell `(x, y)`. -/
def checkCell (y : Nat) (st : CheckState) (x : Nat) : CheckState :=
  let st1 :=
    if cellAt st.board x y = Black_Disc then { st with blackCount := st.blackCount + 1 }
    else if cellAt st.board x y = White_Disc then { st with whiteCount := st.whiteCount + 1 }
    else st
  if cellAt st1.board x y = EMPTY then
    let st2 :=
      if !st1.blackCanMove then
        let r := probe st1.board Black_Disc x y
        { st1 with board := r.2, blackCanMove := if r.1 then true else st1.blackCanMove }
      else st1
    if !st2.whiteCanMove then
      let r := probe st2.board White_Disc x y
      { st2 with board := r.2, whiteCanMove := if r.1 then true else st2.whiteCanMove }
    else st2
  else st1

/-- The two loops of `Game::CheckGameOver`. -/
def checkScan (b : Board) : CheckState :=
  (List.range 8).foldl
    (fun (st : CheckState) (y : Nat) => (List.range 8).foldl (checkCell y) st)
    { board := b, blackCount := 0, whiteCount := 0, blackCanMove := false, whiteCanMove := false }

/-- The method `Game::CheckGameOver`. -/
def CheckGameOver (g : Game) : Game :=
  let st := checkScan g.board
  if !st.blackCanMove && !st.whiteCanMove then
    { g with
      board := st.board
      gameOver := true
      result :=
        if st.blackCount > st.whiteCount then BLACK_WINS
        else if st.whiteCount > st.blackCount then WHITE_WINS
        else DRAW }
  else if (decide (st.board.currentPlayer = Black_Disc) && !st.blackCanMove) ||
      (decide (st.board.currentPlayer = White_Disc) && !st.whiteCanMove) then
    { g with board := { st.board with currentPlayer := opponentOf st.board.currentPlayer } }
  else { g with board := st.board }

/-! ## Specification vocabulary -/

/-- The eight unit directions: `dx, dy ∈ {-1, 0, 1}`, not both zero. -/
def Dir (dx dy : Int) : Prop :=
  (dx = -1 ∨ dx = 0 ∨ dx = 1) ∧ (dy = -1 ∨ dy = 0 ∨ dy = 1) ∧ ¬ (dx = 0 ∧ dy = 0)

/-- The `k` cells `(x + i*dx, y + i*dy)`, `1 ≤ i ≤ k`, are all on the board and
hold the colour opposite to `currentPlayer`. -/
def OppRun (b : Board) (x y dx dy : Int) (k : Nat) : Prop :=
  ∀ i : Nat, 1 ≤ i → i ≤ k →
    Is_Within_Boundaries (x + i * dx) (y + i * dy) = true ∧
    cellAt b (x + i * dx) (y + i * dy) = opponentOf b.currentPlayer

/-- A valid capture line of length `k` from `(x, y)` in direction `(dx, dy)`:
`k ≥ 1` opponent cells followed by a cell on the board holding `currentPlayer`. -/
def CaptureLine (b : Board) (x y dx dy : Int) (k : Nat) : Prop :=
  1 ≤ k ∧ OppRun b x y dx dy k ∧
    Is_Within_Boundaries (x + ((k + 1 : Nat) : Int) * dx) (y + ((k + 1 : Nat) : Int) * dy) = true ∧
    cellAt b (x + ((k + 1 : Nat) : Int) * dx) (y + ((k + 1 : Nat) : Int) * dy) = b.currentPlayer

/-- The cell `(cx, cy)` is one of the opponent cells of a valid capture line
from `(x, y)` in direction `(dx, dy)`. -/
def OnLine (b : Board) (x y dx dy cx cy : Int) : Prop :=
  ∃ k i : Nat, CaptureLine b x y dx dy k ∧ 1 ≤ i ∧ i ≤ k ∧ cx = x + i * dx ∧ cy = y + i * dy

/-- The cell `(cx, cy)` is captured by a move at `(x, y)`: it lies on a valid
capture line in one of the eight directions. -/
def Captured (b : Board) (x y cx cy : Int) : Prop :=
  ∃ dx dy : Int, Dir dx dy ∧ OnLine b x y dx dy cx cy

/-- The eight `(dx, dy)` for which the loops of `Board::CanPlace` call
`TryFlip`, in the order of the loops (`dy` outer, `dx` inner, `(0,0)` skipped). -/
def dirList : List (Int × Int) :=
  [(-1, -1), (0, -1), (1, -1), (-1, 0), (1, 0), (-1, 1), (0, 1), (1, 1)]

/-- One `valid |= TryFlip(x, y, dx, dy, flip)` of `Board::CanPlace`. -/
def dirStep (x y : Int) (flip : Bool) (acc : Bool × Board) (d : Int × Int) : Bool × Board :=
  ((acc.1 || (TryFlip acc.2 x y d.1 d.2 flip).1), (TryFlip acc.2 x y d.1 d.2 flip).2)

/-- State of the direction loops of `CanPlace(x, y, true)` after the directions
`done` have been processed, described on the board `b` the call started from. -/
def FlipInv (b : Board) (x y : Int) (done : List (Int × Int)) (acc : Bool × Board) : Prop :=
  acc.2.currentPlayer = b.currentPlayer ∧
  (acc.1 = true ↔ ∃ d ∈ done, ∃ k, CaptureLine b x y d.1 d.2 k) ∧
  ∀ cx cy : Int,
    ((∃ d ∈ done, OnLine b x y d.1 d.2 cx cy) → cellAt acc.2 cx cy = b.currentPlayer) ∧
    ((¬ ∃ d ∈ done, OnLine b x y d.1 d.2 cx cy) → cellAt acc.2 cx cy = cellAt b cx cy)

/-- Sum of `f x y` over the 64 cells of the board. -/
def cellSum (f : Int → Int → Nat) : Nat :=
  (allCells.map (fun c => f c.1 c.2)).sum

/-- Number of non-`EMPTY` cells. -/
def occupied (b : Board) : Nat :=
  cellSum (fun x y => if cellAt b x y ≠ EMPTY then 1 else 0)

/-- Number of flipped discs between `b` and a later board `b'`: cells that hold
the opponent of `b.currentPlayer` in `b` and hold `b.currentPlayer` in `b'`. -/
def flippedCount (b b' : Board) : Nat :=
  cellSum (fun x y =>
    if cellAt b x y = opponentOf b.currentPlayer ∧ cellAt b' x y = b.currentPlayer then 1 else 0)

/-! ## Unpruned search (reference for the pruned one) -/

/-- Body of the loops of the unpruned minimax for the cell `(x, y)`: the body of
the loops of `AIPlayer::Minimax` without `alpha`, `beta` and the pruning test.
The state is `(bestScore, moveFound)`; `full` is the unpruned minimax one ply
less deep. -/
def fullStep (full : Board → Bool → Int) (b : Board) (isMaximizingPlayer : Bool) (y : Nat)
    (st : Int × Bool) (x : Nat) : Int × Bool :=
  if isLegal b x y then
    let score := full (PlacePiece (Clone b) x y) (!isMaximizingPlayer)
    (if isMaximizingPlayer then max st.1 score else min st.1 score, true)
  else st

/-- Unpruned full-width minimax of depth `depth`: same evaluator, same row-major
scan of the legal cells, same depth-0 base case and same "no legal move returns
`EvaluateBoard`" rule as `AIPlayer::Minimax`, but every legal move is searched
and no window is kept. -/
def MinimaxFull : Nat → Board → Bool → Int
  | 0, b, _ => EvaluateBoard b
  | depth + 1, b, isMaximizingPlayer =>
    let st := (List.range 8).foldl
      (fun (st : Int × Bool) (y : Nat) =>
        (List.range 8).foldl (fullStep (MinimaxFull depth) b isMaximizingPlayer y) st)
      (if isMaximizingPlayer then INT_MIN else INT_MAX, false)
    if !st.2 then EvaluateBoard b else st.1

/-- What a search with window `(a, b)` owes about its result `r` when the true
(unpruned) value is `v`: exact inside the window, on the same side outside. -/
def WindowSound (r v a b : Int) : Prop :=
  (a < v ∧ v < b → r = v) ∧ (v ≤ a → r ≤ a) ∧ (b ≤ v → b ≤ r)

/-- Loop relation at a maximizing node entered with window `(a, b)`, between the
state `st` of the pruned loops and the state `fs` of the unpruned loops: either
the window is still open and `st` tracks `fs`, or a cut-off has happened and
both running maxima are at least `b`. -/
def RelMax (a b : Int) (st : SearchState) (fs : Int × Bool) : Prop :=
  st.moveFound = fs.2 ∧ st.beta = b ∧
  ((st.alpha = max a st.bestScore ∧ st.alpha < b ∧
      (fs.1 ≤ a → st.bestScore ≤ a) ∧ (a < fs.1 → st.bestScore = fs.1)) ∨
   (st.moveFound = true ∧ b ≤ st.bestScore ∧ b ≤ fs.1))

/-- Loop relation at a minimizing node entered with window `(a, b)` (mirror image
of `RelMax`). -/
def RelMin (a b : Int) (st : SearchState) (fs : Int × Bool) : Prop :=
  st.moveFound = fs.2 ∧ st.alpha = a ∧
  ((st.beta = min b st.bestScore ∧ a < st.beta ∧
      (b ≤ fs.1 → b ≤ st.bestScore) ∧ (fs.1 < b → st.bestScore = fs.1)) ∨
   (st.moveFound = true ∧ st.bestScore ≤ a ∧ fs.1 ≤ a))

/-- The score `AIPlayer::MakeMove` gives to the cell `(x, y)`:
`Minimax(simulatedBoard, 3, false, INT_MIN, INT_MAX)` on the clone with the move applied. -/
def moveScore (b : Board) (x y : Int) : Int :=
  Minimax 3 (PlacePiece (Clone b) x y) false INT_MIN INT_MAX

/-- Row-major scan order of the loops `for (y ...) for (x ...)`: the cell `c`
is visited no later than the cell `c'` (cells are pairs `(x, y)`). -/
def scanLe (c c' : Nat × Nat) : Prop :=
  c.2 < c'.2 ∨ (c.2 = c'.2 ∧ c.1 ≤ c'.1)

instance (c c' : Nat × Nat) : Decidable (scanLe c c') := by
  unfold scanLe; exact inferInstance

/-- State of the loops of `AIPlayer::MakeMove` after the cells `done` have been
visited: nothing found yet and the initial values, or the best legal cell so far. -/
def MoveInv (b : Board) (done : List (Nat × Nat)) (st : MoveState) : Prop :=
  ((∀ c ∈ done, isLegal b c.1 c.2 = false) ∧
    st = { bestScore := INT_MIN, bestX := -1, bestY := -1, moveFound := false }) ∨
  (st.moveFound = true ∧
    ∃ best ∈ done, isLegal b best.1 best.2 = true ∧
      st.bestX = best.1 ∧ st.bestY = best.2 ∧ st.bestScore = moveScore b best.1 best.2 ∧
      ∀ c ∈ done, isLegal b c.1 c.2 = true →
        moveScore b c.1 c.2 ≤ moveScore b best.1 best.2 ∧
        (moveScore b c.1 c.2 = moveScore b best.1 best.2 → scanLe best c))

/-- The cell `(x, y)` is a legal placement for colour `c` on the board `b`:
`CanPlace(x, y, false)` with `currentPlayer` bound to `c`. -/
def legalFor (b : Board) (c : Cell) (x y : Int) : Bool :=
  (CanPlace { b with currentPlayer := c } x y false).1

/-- State of the loops of `Game::CheckGameOver` after the cells `done` have been
visited, on the board `b` the call started from. -/
def CheckInv (b : Board) (done : List (Nat × Nat)) (st : CheckState) : Prop :=
  st.board = b ∧
  st.blackCount = (done.map (fun c => if cellAt b c.1 c.2 = Black_Disc then 1 else 0)).sum ∧
  st.whiteCount = (done.map (fun c => if cellAt b c.1 c.2 = White_Disc then 1 else 0)).sum ∧
  (st.blackCanMove = true ↔ ∃ c ∈ done, legalFor b Black_Disc c.1 c.2 = true) ∧
  (st.whiteCanMove = true ↔ ∃ c ∈ done, legalFor b White_Disc c.1 c.2 = true)

/-- A full board: the first `n` cells in row-major order hold Black, the other
cells hold White; Black to move. -/
def fullBoard (n : Nat) : Board :=
  { board := fun r c => if r.val * 8 + c.val < n then Black_Disc else White_Disc
    currentPlayer := Black_Disc }

/-- A board with a Black disc on `(0, 0)` and a White disc on `(1, 0)` only,
colour `p` to move: Black can play `(2, 0)`, White has no legal move. -/
def passBoard (p : Cell) : Board :=
  setCell (setCell { board := fun _ _ => EMPTY, currentPlayer := p } 0 0 Black_Disc)
    1 0 White_Disc



/-- Sum of the weights `weight[y][x]` over the cells that hold colour `c`. -/
def weightedSum (b : Board) (c : Cell) : Int :=
  (allCells.map (fun p => if cellAt b p.1 p.2 = c then weightAt p.2 p.1 else 0)).sum

/-- The weight table in words: 100 on the four corners, -20 on the edge cells
orthogonally next to a corner, -50 on the diagonal neighbours of a corner, 10
and 5 on the remaining edge cells (10 two steps from a corner, 5 on the two
middle cells), -2 on the remaining cells of the second ring, 0 on the inner 4x4. -/
def weightSpec (y x : Nat) : Int :=
  let edge (n : Nat) : Bool := n == 0 || n == 7
  let second (n : Nat) : Bool := n == 1 || n == 6
  let third (n : Nat) : Bool := n == 2 || n == 5
  if edge y && edge x then 100
  else if (edge y && second x) || (second y && edge x) then -20
  else if second y && second x then -50
  else if (edge y && third x) || (third y && edge x) then 10
  else if edge y || edge x then 5
  else if second y || second x then -2
  else 0

/-! ## Game lifecycle -/

/-- The C++ enum `GameState { MENU, MODE_SELECTION, GAMEPLAY }`. -/
inductive GameState where
  | MENU
  | MODE_SELECTION
  | GAMEPLAY
  deriving DecidableEq, Repr

/-- The constructor `Game::Game() : board() {}` with the default member
initialisers `vsAI = false`, `gameOver = false`, `result = NONE`. -/
def Game.new : Game :=
  { board := Board.new, vsAI := false, gameOver := false, result := NONE }

/-- The method `Game::InitPlayers`: records the mode; Black becomes a
`HumanPlayer`, White an `AIPlayer` when `vsAI_mode`, else a `HumanPlayer`. -/
def InitPlayers (g : Game) (vsAI_mode : Bool) : Game :=
  { g with vsAI := vsAI_mode }

/-- The method `Game::ResetToMenu`: the game after the call and the value it
writes to its `gameState` reference. -/
def ResetToMenu (g : Game) : Game × GameState :=
  ({ g with board := Board.new, gameOver := false, result := NONE }, GameState.MENU)

/-- The method `Game::HandleInput`.  The player object is `blackPlayer` (a
`HumanPlayer`) when Black is to move, else `whitePlayer` (an `AIPlayer` when
`vsAI`, else a `HumanPlayer`); `click` is the mouse input a `HumanPlayer` reads. -/
def HandleInput (g : Game) (click : Option (Int × Int)) : Game :=
  if g.gameOver then g
  else
    let moved : Board :=
      if g.board.currentPlayer = Black_Disc then HumanMakeMove g.board click
      else if g.vsAI then AIMakeMove g.board
      else HumanMakeMove g.board click
    CheckGameOver { g with board := moved }

/-! ## The search with its `Board&` argument threaded -/

/-- Inner loop of `AIPlayer::Minimax` on row `y` with the board passed by
reference made explicit: the state carries the board `board` as the calls
`board.CanPlace(x, y, false)` leave it.  `simulatedBoard` is a separate local
object; what the recursive call does to it is dropped when it goes out of scope. -/
def minimaxRowRef (rec : Board → Bool → Int → Int → Int × Board) (isMaximizingPlayer : Bool)
    (y : Nat) : List Nat → SearchState × Board → SearchState × Board
  | [], s => s
  | x :: xs, s =>
    if cellAt s.2 x y = EMPTY then
      if (CanPlace s.2 x y false).1 then
        let board := (CanPlace s.2 x y false).2
        let simulatedBoard := PlacePiece (Clone board) x y
        let score := (rec simulatedBoard (!isMaximizingPlayer) s.1.alpha s.1.beta).1
        let st1 := searchUpdate isMaximizingPlayer s.1 score
        if st1.beta ≤ st1.alpha then (st1, board)
        else minimaxRowRef rec isMaximizingPlayer y xs (st1, board)
      else minimaxRowRef rec isMaximizingPlayer y xs (s.1, (CanPlace s.2 x y false).2)
    else minimaxRowRef rec isMaximizingPlayer y xs s

/-- The method `AIPlayer::Minimax` with the board passed by reference made
explicit: the score and the board as the call leaves it. -/
def MinimaxRef : Nat → Board → Bool → Int → Int → Int × Board
  | 0, b, _, _, _ => (EvaluateBoard b, b)
  | depth + 1, b, isMaximizingPlayer, alpha, beta =>
    let s := (List.range 8).foldl
      (fun (s : SearchState × Board) (y : Nat) =>
        minimaxRowRef (MinimaxRef depth) isMaximizingPlayer y (List.range 8) s)
      ({ bestScore := if isMaximizingPlayer then INT_MIN else INT_MAX, moveFound := false,
         alpha := alpha, beta := beta }, b)
    if !s.1.moveFound then (EvaluateBoard s.2, s.2) else (s.1.bestScore, s.2)

/-- Body of the loops of `AIPlayer::MakeMove` for the cell `(x, y)`, with the
board passed by reference made explicit. -/
def makeMoveStepRef (y : Nat) (s : MoveState × Board) (x : Nat) : MoveState × Board :=
  if cellAt s.2 x y = EMPTY then
    if (CanPlace s.2 x y false).1 then
      let board := (CanPlace s.2 x y false).2
      let simulatedBoard := PlacePiece (Clone board) x y
      let score := (MinimaxRef 3 simulatedBoard false INT_MIN INT_MAX).1
      if score > s.1.bestScore then
        ({ bestScore := score, bestX := x, bestY := y, moveFound := true }, board)
      else ({ s.1 with moveFound := true }, board)
    else (s.1, (CanPlace s.2 x y false).2)
  else s

/-- The two scoring loops of `AIPlayer::MakeMove`, with the board passed by
reference made explicit. -/
def makeMoveScanRef (b : Board) : MoveState × Board :=
  (List.range 8).foldl
    (fun (s : MoveState × Board) (y : Nat) => (List.range 8).foldl (makeMoveStepRef y) s)
    ({ bestScore := INT_MIN, bestX := -1, bestY := -1, moveFound := false }, b)

/-- The disc-count classification of a finished game: more Black discs gives
`BLACK_WINS`, more White discs `WHITE_WINS`, equal counts `DRAW`. -/
def classify (b : Board) : GameResult :=
  if (countDiscs b).1 > (countDiscs b).2 then BLACK_WINS
  else if (countDiscs b).2 > (countDiscs b).1 then WHITE_WINS
  else DRAW

/-- The states of a `Game` reachable from a freshly constructed one by
`InitPlayers`, by `HandleInput` (with any mouse input for a human player, or the
computer's move, followed by `CheckGameOver`) and by `ResetToMenu`. -/
inductive Reachable : Game → Prop
  | init : Reachable Game.new
  | initPlayers (g : Game) (vsAI_mode : Bool) : Reachable g → Reachable (InitPlayers g vsAI_mode)
  | handleInput (g : Game) (click : Option (Int × Int)) :
      Reachable g → Reachable (HandleInput g click)
  | resetToMenu (g : Game) : Reachable g → Reachable (ResetToMenu g).1

/-- The game-result invariant: `result` is set exactly when `gameOver` is, and
then neither colour has a legal move and `result` is the classification of the board. -/
def GameInv (g : Game) : Prop :=
  (g.result ≠ NONE ↔ g.gameOver = true) ∧
  (g.gameOver = true →
    (∀ x y : Int, Is_Within_Boundaries x y = true →
      legalFor g.board Black_Disc x y = false ∧ legalFor g.board White_Disc x y = false) ∧
    g.result = classify g.board)

/-- A White-to-move board with exactly two legal moves, after each of which the
game has no further legal move: White discs on `(7,0)` and `(7,4)`, Black discs
on `(6,0)` and `(6,4)`; White can play `(5,0)` or `(5,4)`. -/
def sideBoard : Board :=
  setCell (setCell (setCell (setCell { board := fun _ _ => EMPTY, currentPlayer := White_Disc }
    7 0 White_Disc) 6 0 Black_Disc) 6 4 Black_Disc) 7 4 White_Disc

/-! ## Bounds-checked grid accesses -/

/-- The read `board[y][x]` with its indices checked: `none` when the row `y` or
the column `x` is outside `0..7`. -/
def readCell (b : Board) (x y : Int) : Option Cell :=
  if Is_Within_Boundaries x y then some (cellAt b x y) else none

/-- The write `board[y][x] = v` with its indices checked: `none` when the row
`y` or the column `x` is outside `0..7`. -/
def writeCell (b : Board) (x y : Int) (v : Cell) : Option Board :=
  if Is_Within_Boundaries x y then some (setCell b x y v) else none

/-- The `while` loop of `Board::TryFlip` with checked reads.  `fuel` bounds the
number of times the loop condition is tested; the result is `none` when a read
is out of range or when the loop has not stopped by then. -/
def scanLoopC (b : Board) (dx dy : Int) : Nat → Int → Int → Nat → Option (Int × Int × Nat)
  | 0, _, _, _ => none
  | fuel + 1, cx, cy, count =>
    if Is_Within_Boundaries cx cy then
      (readCell b cx cy).bind (fun v =>
        if v = opponentOf b.currentPlayer then
          scanLoopC b dx dy fuel (cx + dx) (cy + dy) (count + 1)
        else some (cx, cy, count))
    else some (cx, cy, count)

/-- The flip loop of `Board::TryFlip` with checked writes. -/
def flipLoopC (b : Board) (x y dx dy : Int) : Nat → Option Board
  | 0 => some b
  | count + 1 =>
    (flipLoopC b x y dx dy count).bind (fun b1 =>
      writeCell b1 (x + ((count + 1 : Nat) : Int) * dx) (y + ((count + 1 : Nat) : Int) * dy)
        b1.currentPlayer)

/-- The method `Board::TryFlip` with every grid access checked; the loop
condition may be tested 8 times (7 iterations and the test that ends the loop). -/
def TryFlipC (b : Board) (x y dx dy : Int) (flip : Bool) : Option (Bool × Board) :=
  (scanLoopC b dx dy 8 (x + dx) (y + dy) 0).bind (fun r =>
    if decide (r.2.2 > 0) && Is_Within_Boundaries r.1 r.2.1 then
      (readCell b r.1 r.2.1).bind (fun v =>
        if v = b.currentPlayer then
          if flip then (flipLoopC b x y dx dy r.2.2).map (fun b1 => (true, b1))
          else some (true, b)
        else some (false, b))
    else some (false, b))

/-- Body of the direction loops of `Board::CanPlace` with every grid access checked. -/
def canPlaceStepC (x y : Int) (flip : Bool) (dy : Int) (acc : Option (Bool × Board))
    (dx : Int) : Option (Bool × Board) :=
  acc.bind (fun a =>
    if !(decide (dx = 0) && decide (dy = 0)) then
      (TryFlipC a.2 x y dx dy flip).map (fun r => ((a.1 || r.1), r.2))
    else some a)

/-- The method `Board::CanPlace` with every grid access checked. -/
def CanPlaceC (b : Board) (x y : Int) (flip : Bool) : Option (Bool × Board) :=
  (readCell b x y).bind (fun v =>
    if v ≠ EMPTY then some (false, b)
    else
      ([-1, 0, 1] : List Int).foldl
        (fun acc dy => ([-1, 0, 1] : List Int).foldl (canPlaceStepC x y flip dy) acc)
        (some (false, b)))

/-- The method `Board::PlacePiece` with every grid access checked. -/
def PlacePieceC (b : Board) (x y : Int) : Option Board :=
  (CanPlaceC b x y true).bind (fun r =>
    if r.1 then
      (writeCell r.2 x y r.2.currentPlayer).map
        (fun b1 => { b1 with currentPlayer := opponentOf b1.currentPlayer })
    else some r.2)

/-! ## Board objects in memory -/

/-- Memory holding `Board` objects: `obj a` is the object at address `a`, and the
addresses below `next` are the ones in use.  Each `Board` object holds its own
`board[8][8]` array and `currentPlayer` (the class has no pointer members). -/
structure Heap where
  next : Nat
  obj : Nat → Board

/-- Overwrite the object at address `a`. -/
def Heap.write (h : Heap) (a : Nat) (b : Board) : Heap :=
  { h with obj := fun i => if i = a then b else h.obj i }

/-- A declaration `Board v;`: a new object at the first unused address, built
by the constructor `Board::Board()`.  Returns the memory and the address. -/
def Heap.declare (h : Heap) : Heap × Nat :=
  ({ next := h.next + 1, obj := fun i => if i = h.next then Board.new else h.obj i }, h.next)

/-- The assignment `copy.board[y][x] = board[y][x]` of `Board::Clone`, between
the object at address `this` and the object at address `copy`. -/
def cloneCell (this copy : Nat) (h : Heap) (x y : Nat) : Heap :=
  h.write copy (setCell (h.obj copy) x y (cellAt (h.obj this) x y))

/-- The method `Board::Clone` called on the object at address `this`: the
declaration `Board copy;`, the two copy loops and
`copy.currentPlayer = currentPlayer;`.  Returns the memory and the address of
the object the caller receives. -/
def HClone (h : Heap) (this : Nat) : Heap × Nat :=
  let copy := h.declare.2
  let h1 := (List.range 8).foldl
    (fun (hh : Heap) (y : Nat) => (List.range 8).foldl
      (fun (hh : Heap) (x : Nat) => cloneCell this copy hh x y) hh)
    h.declare.1
  (h1.write copy { h1.obj copy with currentPlayer := (h1.obj this).currentPlayer }, copy)

/-- The member call `obj.CanPlace(x, y, flip)` on the object at address `a`:
the method reads and writes the members of that object only. -/
def HCanPlace (h : Heap) (a : Nat) (x y : Int) (flip : Bool) : Bool × Heap :=
  ((CanPlace (h.obj a) x y flip).1, h.write a (CanPlace (h.obj a) x y flip).2)

/-- The member call `obj.PlacePiece(x, y)` on the object at address `a`. -/
def HPlacePiece (h : Heap) (a : Nat) (x y : Int) : Heap :=
  h.write a (PlacePiece (h.obj a) x y)

/-- Inner loop of `AIPlayer::Minimax` on row `y` over memory: `board` is the
address the reference `Board& board` is bound to, `simulatedBoard` is the object
`board.Clone()` returns, and the recursive call receives its address.  Objects
are never released (a local that goes out of scope just stays unused). -/
def hMinimaxRow (rec : Heap → Nat → Bool → Int → Int → Int × Heap) (board : Nat)
    (isMaximizingPlayer : Bool) (y : Nat) : List Nat → SearchState × Heap → SearchState × Heap
  | [], s => s
  | x :: xs, s =>
    if cellAt (s.2.obj board) x y = EMPTY then
      if (HCanPlace s.2 board x y false).1 then
        let h1 := (HCanPlace s.2 board x y false).2
        let simulatedBoard := (HClone h1 board).2
        let h2 := HPlacePiece (HClone h1 board).1 simulatedBoard x y
        let r := rec h2 simulatedBoard (!isMaximizingPlayer) s.1.alpha s.1.beta
        let st1 := searchUpdate isMaximizingPlayer s.1 r.1
        if st1.beta ≤ st1.alpha then (st1, r.2)
        else hMinimaxRow rec board isMaximizingPlayer y xs (st1, r.2)
      else hMinimaxRow rec board isMaximizingPlayer y xs (s.1, (HCanPlace s.2 board x y false).2)
    else hMinimaxRow rec board isMaximizingPlayer y xs s

/-- The method `AIPlayer::Minimax` over memory: the score and the memory after
the call, for the board object at address `board`. -/
def HMinimax : Nat → Heap → Nat → Bool → Int → Int → Int × Heap
  | 0, h, board, _, _, _ => (EvaluateBoard (h.obj board), h)
  | depth + 1, h, board, isMaximizingPlayer, alpha, beta =>
    let s := (List.range 8).foldl
      (fun (s : SearchState × Heap) (y : Nat) =>
        hMinimaxRow (HMinimax depth) board isMaximizingPlayer y (List.range 8) s)
      ({ bestScore := if isMaximizingPlayer then INT_MIN else INT_MAX, moveFound := false,
         alpha := alpha, beta := beta }, h)
    if !s.1.moveFound then (EvaluateBoard (s.2.obj board), s.2) else (s.1.bestScore, s.2)

/-- Body of the loops of `AIPlayer::MakeMove` for the cell `(x, y)` over memory. -/
def hMakeMoveStep (board : Nat) (y : Nat) (s : MoveState × Heap) (x : Nat) : MoveState × Heap :=
  if cellAt (s.2.obj board) x y = EMPTY then
    if (HCanPlace s.2 board x y false).1 then
      let h1 := (HCanPlace s.2 board x y false).2
      let simulatedBoard := (HClone h1 board).2
      let h2 := HPlacePiece (HClone h1 board).1 simulatedBoard x y
      let r := HMinimax 3 h2 simulatedBoard false INT_MIN INT_MAX
      if r.1 > s.1.bestScore then
        ({ bestScore := r.1, bestX := x, bestY := y, moveFound := true }, r.2)
      else ({ s.1 with moveFound := true }, r.2)
    else (s.1, (HCanPlace s.2 board x y false).2)
  else s

/-- The two scoring loops of `AIPlayer::MakeMove` over memory. -/
def hMakeMoveScan (h : Heap) (board : Nat) : MoveState × Heap :=
  (List.range 8).foldl
    (fun (s : MoveState × Heap) (y : Nat) => (List.range 8).foldl (hMakeMoveStep board y) s)
    ({ bestScore := INT_MIN, bestX := -1, bestY := -1, moveFound := false }, h)

/-- The memory `h` extends the memory `h0` without touching it: every address
in use in `h0` is in use in `h` and holds the same object. -/
def Frame (h0 h : Heap) : Prop :=
  h0.next ≤ h.next ∧ ∀ i : Nat, i < h0.next → h.obj i = h0.obj i
/-- A memory with a single `Board` object `b`, at address 0. -/
def Heap.single (b : Board) : Heap :=
  { next := 1, obj := fun _ => b }

/-! ## Theorems -/

/-! ### Cell access -/

theorem inb_iff (x y : Int) :
    Is_Within_Boundaries x y = true ↔ 0 ≤ x ∧ x < 8 ∧ 0 ≤ y ∧ y < 8 := by
  simp [Is_Within_Boundaries, BOARD_SIZE, and_assoc]


theorem setCell_currentPlayer (b : Board) (x y : Int) (v : Cell) :
    (setCell b x y v).currentPlayer = b.currentPlayer := by
  unfold setCell; split <;> rfl

theorem cellAt_setCell (b : Board) (x y : Int) (v : Cell) (x' y' : Int) :
    cellAt (setCell b x y v) x' y' =
      if Is_Within_Boundaries x' y' = true ∧ x' = x ∧ y' = y then v else cellAt b x' y' := by
  by_cases h' : Is_Within_Boundaries x' y' = true
  · by_cases h : Is_Within_Boundaries x y = true
    · have e' := (inb_iff x' y').1 h'
      have e := (inb_iff x y).1 h
      have key : (y'.toNat = y.toNat ∧ x'.toNat = x.toNat) ↔ (x' = x ∧ y' = y) := by omega
      simp only [cellAt, setCell, h, h', dif_pos, if_true, true_and]
      by_cases hk : x' = x ∧ y' = y
      · rw [if_pos (key.2 hk), if_pos hk]
      · rw [if_neg (fun c => hk (key.1 c)), if_neg hk]
    · have hne : ¬ (x' = x ∧ y' = y) := by
        rintro ⟨rfl, rfl⟩; exact h h'
      simp [setCell, h, hne]
  · simp [cellAt, h']

theorem Board.ext_cellAt {b b' : Board} (hp : b.currentPlayer = b'.currentPlayer)
    (h : ∀ x y : Int, Is_Within_Boundaries x y = true → cellAt b x y = cellAt b' x y) :
    b = b' := by
  cases b with
  | mk g p =>
    cases b' with
    | mk g' p' =>
      simp only at hp
      subst hp
      congr
      funext r c
      have hin : Is_Within_Boundaries (c.val : Int) (r.val : Int) = true := by
        rw [inb_iff]; omega
      have := h c.val r.val hin
      simpa [cellAt, hin] using this

theorem opponentOf_ne (p : Cell) : opponentOf p ≠ p := by
  cases p <;> simp [opponentOf]

/-! ### The capture scan -/

theorem scanLoop_spec (b : Board) (x y dx dy : Int) :
    ∀ (fuel c : Nat), OppRun b x y dx dy c →
      ∃ m : Nat, c ≤ m ∧ m ≤ c + fuel ∧
        scanLoop b dx dy fuel (x + ((c + 1 : Nat) : Int) * dx) (y + ((c + 1 : Nat) : Int) * dy) c
          = (x + ((m + 1 : Nat) : Int) * dx, y + ((m + 1 : Nat) : Int) * dy, m) ∧
        OppRun b x y dx dy m ∧
        (m < c + fuel →
          ¬ (Is_Within_Boundaries (x + ((m + 1 : Nat) : Int) * dx) (y + ((m + 1 : Nat) : Int) * dy)
                = true ∧
             cellAt b (x + ((m + 1 : Nat) : Int) * dx) (y + ((m + 1 : Nat) : Int) * dy)
                = opponentOf b.currentPlayer)) := by
  intro fuel
  induction fuel with
  | zero =>
    intro c hc
    exact ⟨c, le_refl _, by omega, by simp [scanLoop], hc, fun h => absurd h (by omega)⟩
  | succ n ih =>
    intro c hc
    by_cases hcond : Is_Within_Boundaries (x + ((c + 1 : Nat) : Int) * dx)
        (y + ((c + 1 : Nat) : Int) * dy) = true ∧
        cellAt b (x + ((c + 1 : Nat) : Int) * dx) (y + ((c + 1 : Nat) : Int) * dy)
          = opponentOf b.currentPlayer
    · have hc' : OppRun b x y dx dy (c + 1) := by
        intro i h1 h2
        by_cases hi : i ≤ c
        · exact hc i h1 hi
        · have : i = c + 1 := by omega
          subst this
          exact hcond
      obtain ⟨m, h1, h2, h3, h4, h5⟩ := ih (c + 1) hc'
      refine ⟨m, by omega, by omega, ?_, h4, fun hlt => h5 (by omega)⟩
      have e1 : x + ((c + 1 : Nat) : Int) * dx + dx = x + ((c + 1 + 1 : Nat) : Int) * dx := by
        push_cast; ring
      have e2 : y + ((c + 1 : Nat) : Int) * dy + dy = y + ((c + 1 + 1 : Nat) : Int) * dy := by
        push_cast; ring
      rw [scanLoop]
      simp only [hcond.1, hcond.2, decide_True, Bool.and_self, if_true]
      rw [e1, e2]
      exact h3
    · refine ⟨c, le_refl _, by omega, ?_, hc, fun _ => hcond⟩
      rw [scanLoop]
      have : (Is_Within_Boundaries (x + ((c + 1 : Nat) : Int) * dx)
          (y + ((c + 1 : Nat) : Int) * dy) &&
          decide (cellAt b (x + ((c + 1 : Nat) : Int) * dx) (y + ((c + 1 : Nat) : Int) * dy)
            = opponentOf b.currentPlayer)) = false := by
        simpa [Bool.and_eq_true] using hcond
      simp only [this, Bool.false_eq_true, if_false]

theorem OppRun_zero (b : Board) (x y dx dy : Int) : OppRun b x y dx dy 0 := by
  intro i h1 h2; omega

theorem OppRun_le {b : Board} {x y dx dy : Int} {m : Nat}
    (hin : Is_Within_Boundaries x y = true) (hd : Dir dx dy)
    (h : OppRun b x y dx dy m) : m ≤ 7 := by
  by_contra hm
  have h8 := (h m (by omega) (le_refl _)).1
  rw [inb_iff] at h8 hin
  obtain ⟨hx, hy, hz⟩ := hd
  rcases hx with rfl | rfl | rfl <;> rcases hy with rfl | rfl | rfl <;> simp at hz <;> omega

/-- The scan of `TryFlip` from an on-board cell in a unit direction: it stops,
within its 8 iterations, after exactly the maximal run of opponent cells. -/
theorem scan_result (b : Board) {x y dx dy : Int}
    (hin : Is_Within_Boundaries x y = true) (hd : Dir dx dy) :
    ∃ m : Nat, m ≤ 7 ∧
      scanLoop b dx dy 8 (x + dx) (y + dy) 0
        = (x + ((m + 1 : Nat) : Int) * dx, y + ((m + 1 : Nat) : Int) * dy, m) ∧
      OppRun b x y dx dy m ∧
      ¬ (Is_Within_Boundaries (x + ((m + 1 : Nat) : Int) * dx) (y + ((m + 1 : Nat) : Int) * dy)
            = true ∧
         cellAt b (x + ((m + 1 : Nat) : Int) * dx) (y + ((m + 1 : Nat) : Int) * dy)
            = opponentOf b.currentPlayer) := by
  obtain ⟨m, _, _, h3, h4, h5⟩ := scanLoop_spec b x y dx dy 8 0 (OppRun_zero b x y dx dy)
  have hm := OppRun_le hin hd h4
  refine ⟨m, hm, ?_, h4, h5 (by omega)⟩
  simpa using h3

/-- More fuel than 8 never changes the result of the scan. -/
theorem scanLoop_fuel (b : Board) {x y dx dy : Int}
    (hin : Is_Within_Boundaries x y = true) (hd : Dir dx dy) (extra : Nat) :
    scanLoop b dx dy (8 + extra) (x + dx) (y + dy) 0 = scanLoop b dx dy 8 (x + dx) (y + dy) 0 := by
  obtain ⟨m, hm, h3, h4, h5⟩ := scan_result b hin hd
  obtain ⟨m', _, _, h3', h4', h5'⟩ :=
    scanLoop_spec b x y dx dy (8 + extra) 0 (OppRun_zero b x y dx dy)
  have hm' := OppRun_le hin hd h4'
  have e : m' = m := by
    rcases Nat.lt_trichotomy m' m with hlt | heq | hgt
    · exact absurd (h4 (m' + 1) (by omega) (by omega)) (by simpa using h5' (by omega))
    · exact heq
    · exact absurd (h4' (m + 1) (by omega) (by omega)) (by simpa using h5)
  subst e
  rw [h3]
  simpa using h3'

/-- A capture line, when there is one, has exactly the length the scan finds. -/
theorem CaptureLine_unique {b : Board} {x y dx dy : Int} {m k : Nat}
    (hrun : OppRun b x y dx dy m)
    (hstop : ¬ (Is_Within_Boundaries (x + ((m + 1 : Nat) : Int) * dx)
        (y + ((m + 1 : Nat) : Int) * dy) = true ∧
      cellAt b (x + ((m + 1 : Nat) : Int) * dx) (y + ((m + 1 : Nat) : Int) * dy)
        = opponentOf b.currentPlayer))
    (hk : CaptureLine b x y dx dy k) : k = m := by
  obtain ⟨_, hk2, _, hk4⟩ := hk
  rcases Nat.lt_trichotomy k m with hlt | heq | hgt
  · have := (hrun (k + 1) (by omega) (by omega)).2
    rw [hk4] at this
    exact absurd this.symm (opponentOf_ne _)
  · exact heq
  · exact absurd (hk2 (m + 1) (by omega) (by omega)) hstop

/-! ### `TryFlip` -/

theorem flipLoop_currentPlayer (b : Board) (x y dx dy : Int) (n : Nat) :
    (flipLoop b x y dx dy n).currentPlayer = b.currentPlayer := by
  induction n with
  | zero => rfl
  | succ n ih => simp only [flipLoop, setCell_currentPlayer, ih]

theorem cellAt_flipLoop_on (b : Board) (x y dx dy : Int) (n i : Nat)
    (h1 : 1 ≤ i) (h2 : i ≤ n)
    (hin : Is_Within_Boundaries (x + i * dx) (y + i * dy) = true) :
    cellAt (flipLoop b x y dx dy n) (x + i * dx) (y + i * dy) = b.currentPlayer := by
  induction n with
  | zero => omega
  | succ n ih =>
    simp only [flipLoop, cellAt_setCell, flipLoop_currentPlayer]
    by_cases hi : i = n + 1
    · subst hi
      rw [if_pos ⟨hin, rfl, rfl⟩]
    · rw [ih (by omega)]
      split <;> rfl

theorem cellAt_flipLoop_off (b : Board) (x y dx dy : Int) (n : Nat) (cx cy : Int)
    (h : ∀ i : Nat, 1 ≤ i → i ≤ n → ¬ (cx = x + i * dx ∧ cy = y + i * dy)) :
    cellAt (flipLoop b x y dx dy n) cx cy = cellAt b cx cy := by
  induction n with
  | zero => rfl
  | succ n ih =>
    simp only [flipLoop, cellAt_setCell]
    have hn := h (n + 1) (by omega) (le_refl _)
    rw [if_neg (fun c => hn c.2), ih (fun i h1 h2 => h i h1 (by omega))]

/-- In query mode `TryFlip` never changes the board. -/
theorem TryFlip_query_board (b : Board) (x y dx dy : Int) :
    (TryFlip b x y dx dy false).2 = b := by
  unfold TryFlip
  simp only
  split <;> simp

theorem TryFlip_currentPlayer (b : Board) (x y dx dy : Int) (flip : Bool) :
    (TryFlip b x y dx dy flip).2.currentPlayer = b.currentPlayer := by
  unfold TryFlip
  simp only
  split
  · cases flip <;> simp [flipLoop_currentPlayer]
  · rfl

/-- Complete description of one `TryFlip` call from an on-board cell in a unit
direction, in terms of the maximal opponent run `m` found by the scan. -/
theorem TryFlip_spec (b : Board) {x y dx dy : Int} (flip : Bool)
    (hin : Is_Within_Boundaries x y = true) (hd : Dir dx dy) :
    ∃ m : Nat, OppRun b x y dx dy m ∧ (∀ k, CaptureLine b x y dx dy k → k = m) ∧
      ((CaptureLine b x y dx dy m ∧
          TryFlip b x y dx dy flip = (true, if flip then flipLoop b x y dx dy m else b)) ∨
       ((∀ k, ¬ CaptureLine b x y dx dy k) ∧ TryFlip b x y dx dy flip = (false, b))) := by
  obtain ⟨m, hm, hscan, hrun, hstop⟩ := scan_result b hin hd
  refine ⟨m, hrun, fun k hk => CaptureLine_unique hrun hstop hk, ?_⟩
  by_cases hc : CaptureLine b x y dx dy m
  · left
    refine ⟨hc, ?_⟩
    obtain ⟨c1, _, c3, c4⟩ := hc
    unfold TryFlip
    simp only [hscan]
    have : (decide (m > 0) && Is_Within_Boundaries (x + ((m + 1 : Nat) : Int) * dx)
        (y + ((m + 1 : Nat) : Int) * dy) &&
        decide (cellAt b (x + ((m + 1 : Nat) : Int) * dx) (y + ((m + 1 : Nat) : Int) * dy)
          = b.currentPlayer)) = true := by
      simp only [Bool.and_eq_true, decide_eq_true_eq]
      exact ⟨⟨by omega, c3⟩, c4⟩
    rw [if_pos this]
    cases flip <;> simp
  · right
    refine ⟨fun k hk => ?_, ?_⟩
    · have := CaptureLine_unique hrun hstop hk
      subst this
      exact hc hk
    · unfold TryFlip
      simp only [hscan]
      have : ¬ ((decide (m > 0) && Is_Within_Boundaries (x + ((m + 1 : Nat) : Int) * dx)
          (y + ((m + 1 : Nat) : Int) * dy) &&
          decide (cellAt b (x + ((m + 1 : Nat) : Int) * dx) (y + ((m + 1 : Nat) : Int) * dy)
            = b.currentPlayer)) = true) := by
        simp only [Bool.and_eq_true, decide_eq_true_eq]
        rintro ⟨⟨h1, h2⟩, h3⟩
        exact hc ⟨by omega, hrun, h2, h3⟩
      rw [if_neg this]

/-- The call `TryFlip` reports a capture exactly when a capture line exists. -/
theorem TryFlip_fst_iff (b : Board) {x y dx dy : Int} (flip : Bool)
    (hin : Is_Within_Boundaries x y = true) (hd : Dir dx dy) :
    (TryFlip b x y dx dy flip).1 = true ↔ ∃ k, CaptureLine b x y dx dy k := by
  obtain ⟨m, _, _, h | h⟩ := TryFlip_spec b flip hin hd
  · rw [h.2]; exact ⟨fun _ => ⟨m, h.1⟩, fun _ => rfl⟩
  · rw [h.2]; exact ⟨fun c => by simp at c, fun ⟨k, hk⟩ => absurd hk (h.1 k)⟩

/-- In flip mode `TryFlip` overwrites exactly the opponent cells of its capture
line (if any) with `currentPlayer`. -/
theorem TryFlip_flip_cell (b : Board) {x y dx dy : Int}
    (hin : Is_Within_Boundaries x y = true) (hd : Dir dx dy) (cx cy : Int) :
    (OnLine b x y dx dy cx cy → cellAt (TryFlip b x y dx dy true).2 cx cy = b.currentPlayer) ∧
    (¬ OnLine b x y dx dy cx cy → cellAt (TryFlip b x y dx dy true).2 cx cy = cellAt b cx cy) := by
  obtain ⟨m, hrun, huniq, h | h⟩ := TryFlip_spec b true hin hd
  · rw [h.2]
    simp only [if_true]
    constructor
    · rintro ⟨k, i, hk, h1, h2, rfl, rfl⟩
      have := huniq k hk
      subst this
      exact cellAt_flipLoop_on b x y dx dy k i h1 h2 (hrun i h1 h2).1
    · intro hno
      apply cellAt_flipLoop_off
      intro i h1 h2 hc
      exact hno ⟨m, i, h.1, h1, h2, hc.1, hc.2⟩
  · rw [h.2]
    constructor
    · rintro ⟨k, i, hk, _⟩
      exact absurd hk (h.1 k)
    · intro _; rfl

/-! ### `CanPlace` -/

theorem CanPlace_eq (b : Board) (x y : Int) (flip : Bool) :
    CanPlace b x y flip =
      if cellAt b x y ≠ EMPTY then (false, b) else dirList.foldl (dirStep x y flip) (false, b) := by
  unfold CanPlace
  split
  · rfl
  · simp [canPlaceStep, dirList, dirStep, List.foldl]

theorem mem_dirList_iff (d : Int × Int) : d ∈ dirList ↔ Dir d.1 d.2 := by
  obtain ⟨dx, dy⟩ := d
  simp only [dirList, Dir, List.mem_cons, Prod.mk.injEq, List.mem_singleton, List.not_mem_nil,
    or_false]
  constructor
  · intro h
    rcases h with h | h | h | h | h | h | h | h <;> obtain ⟨rfl, rfl⟩ := h <;> simp
  · rintro ⟨h1, h2, h3⟩
    rcases h1 with rfl | rfl | rfl <;> rcases h2 with rfl | rfl | rfl <;> simp at h3 ⊢

theorem dirList_nodup : dirList.Nodup := by decide

/-- Two different unit directions from the same cell never meet again. -/
theorem ray_disjoint {dx dy dx' dy' : Int} (hd : Dir dx dy) (hd' : Dir dx' dy')
    (hne : (dx, dy) ≠ (dx', dy')) {i j : Nat} (hi : 1 ≤ i) (hj : 1 ≤ j) (x y : Int) :
    ¬ (x + i * dx = x + j * dx' ∧ y + i * dy = y + j * dy') := by
  obtain ⟨h1, h2, h3⟩ := hd
  obtain ⟨h1', h2', h3'⟩ := hd'
  rcases h1 with rfl | rfl | rfl <;> rcases h2 with rfl | rfl | rfl <;>
    rcases h1' with rfl | rfl | rfl <;> rcases h2' with rfl | rfl | rfl <;>
    simp at h3 h3' hne <;> omega

/-- Capture lines in a direction only depend on `currentPlayer` and on the
cells of that ray. -/
theorem CaptureLine_congr {b b' : Board} {x y dx dy : Int}
    (hp : b'.currentPlayer = b.currentPlayer)
    (hray : ∀ i : Nat, 1 ≤ i → cellAt b' (x + i * dx) (y + i * dy) = cellAt b (x + i * dx) (y + i * dy))
    (k : Nat) : CaptureLine b' x y dx dy k ↔ CaptureLine b x y dx dy k := by
  unfold CaptureLine OppRun
  rw [hp, hray (k + 1) (by omega)]
  constructor
  · rintro ⟨h1, h2, h3⟩
    exact ⟨h1, fun i hi1 hi2 => by rw [← hray i hi1]; exact h2 i hi1 hi2, h3⟩
  · rintro ⟨h1, h2, h3⟩
    exact ⟨h1, fun i hi1 hi2 => by rw [hray i hi1]; exact h2 i hi1 hi2, h3⟩

theorem OnLine_congr {b b' : Board} {x y dx dy : Int}
    (hp : b'.currentPlayer = b.currentPlayer)
    (hray : ∀ i : Nat, 1 ≤ i → cellAt b' (x + i * dx) (y + i * dy) = cellAt b (x + i * dx) (y + i * dy))
    (cx cy : Int) : OnLine b' x y dx dy cx cy ↔ OnLine b x y dx dy cx cy := by
  unfold OnLine
  constructor
  · rintro ⟨k, i, h, r⟩
    exact ⟨k, i, (CaptureLine_congr hp hray k).1 h, r⟩
  · rintro ⟨k, i, h, r⟩
    exact ⟨k, i, (CaptureLine_congr hp hray k).2 h, r⟩

theorem FlipInv_nil (b : Board) (x y : Int) : FlipInv b x y [] (false, b) := by
  refine ⟨rfl, by simp, fun cx cy => ⟨by simp, fun _ => rfl⟩⟩

/-- One more direction: flips made for the directions already processed do not
disturb the scan of a new direction. -/
theorem FlipInv_step {b : Board} {x y : Int} (hin : Is_Within_Boundaries x y = true)
    {done : List (Int × Int)} {acc : Bool × Board} {d : Int × Int}
    (hinv : FlipInv b x y done acc) (hd : Dir d.1 d.2)
    (hdone : ∀ d' ∈ done, Dir d'.1 d'.2 ∧ d' ≠ d) :
    FlipInv b x y (done ++ [d]) (dirStep x y true acc d) := by
  obtain ⟨hp, hv, hcell⟩ := hinv
  have hray : ∀ i : Nat, 1 ≤ i →
      cellAt acc.2 (x + i * d.1) (y + i * d.2) = cellAt b (x + i * d.1) (y + i * d.2) := by
    intro i hi
    apply (hcell _ _).2
    rintro ⟨d', hd', k, j, _, hj1, _, e1, e2⟩
    exact ray_disjoint hd (hdone d' hd').1 (fun c => (hdone d' hd').2 (by
      obtain ⟨a, b⟩ := d; obtain ⟨a', b'⟩ := d'; simp at c ⊢; exact ⟨c.1.symm, c.2.symm⟩))
      hi hj1 x y ⟨e1, e2⟩
  have hcap := CaptureLine_congr hp hray
  have hon := OnLine_congr hp hray
  refine ⟨?_, ?_, ?_⟩
  · simp only [dirStep, TryFlip_currentPlayer, hp]
  · simp only [dirStep, Bool.or_eq_true, hv, TryFlip_fst_iff acc.2 true hin hd, List.mem_append,
      List.mem_singleton]
    constructor
    · rintro (⟨d', h1, h2⟩ | ⟨k, hk⟩)
      · exact ⟨d', Or.inl h1, h2⟩
      · exact ⟨d, Or.inr rfl, k, (hcap k).1 hk⟩
    · rintro ⟨d', h1 | h1, k, hk⟩
      · exact Or.inl ⟨d', h1, k, hk⟩
      · subst h1; exact Or.inr ⟨k, (hcap k).2 hk⟩
  · intro cx cy
    have hT := TryFlip_flip_cell acc.2 hin hd cx cy
    simp only [dirStep]
    by_cases hnew : OnLine b x y d.1 d.2 cx cy
    · constructor
      · intro _
        rw [hT.1 ((hon cx cy).2 hnew), hp]
      · intro hno
        exact absurd ⟨d, by simp, hnew⟩ hno
    · rw [hT.2 (fun c => hnew ((hon cx cy).1 c))]
      constructor
      · rintro ⟨d', h1, h2⟩
        rcases List.mem_append.1 h1 with h1 | h1
        · exact (hcell cx cy).1 ⟨d', h1, h2⟩
        · rw [List.mem_singleton] at h1; subst h1; exact absurd h2 hnew
      · intro hno
        exact (hcell cx cy).2 (fun ⟨d', h1, h2⟩ => hno ⟨d', List.mem_append.2 (Or.inl h1), h2⟩)

theorem FlipInv_fold {b : Board} {x y : Int} (hin : Is_Within_Boundaries x y = true) :
    ∀ (todo done : List (Int × Int)) (acc : Bool × Board),
      FlipInv b x y done acc → (∀ d ∈ done ++ todo, Dir d.1 d.2) → (done ++ todo).Nodup →
      FlipInv b x y (done ++ todo) (todo.foldl (dirStep x y true) acc) := by
  intro todo
  induction todo with
  | nil => intro done acc h _ _; simpa using h
  | cons d t ih =>
    intro done acc h hdir hnd
    have hpw := List.pairwise_append.1 hnd
    have hstep := FlipInv_step hin h (hdir d (by simp))
      (fun d' hd' => ⟨hdir d' (List.mem_append.2 (Or.inl hd')), hpw.2.2 d' hd' d (by simp)⟩)
    have e : done ++ d :: t = (done ++ [d]) ++ t := by simp
    rw [List.foldl_cons, e]
    exact ih (done ++ [d]) _ hstep (by rw [← e]; exact hdir) (by rw [← e]; exact hnd)

/-- The direction loops of `CanPlace(x, y, true)`, described on the board the
call started from. -/
theorem FlipInv_all (b : Board) {x y : Int} (hin : Is_Within_Boundaries x y = true) :
    FlipInv b x y dirList (dirList.foldl (dirStep x y true) (false, b)) := by
  have := FlipInv_fold hin dirList [] (false, b) (FlipInv_nil b x y)
    (fun d hd => (mem_dirList_iff d).1 (by simpa using hd)) (by simpa using dirList_nodup)
  simpa using this

theorem query_fold (b : Board) {x y : Int} (hin : Is_Within_Boundaries x y = true) :
    ∀ (todo : List (Int × Int)) (v : Bool), (∀ d ∈ todo, Dir d.1 d.2) →
      (todo.foldl (dirStep x y false) (v, b)).2 = b ∧
      ((todo.foldl (dirStep x y false) (v, b)).1 = true ↔
        (v = true ∨ ∃ d ∈ todo, ∃ k, CaptureLine b x y d.1 d.2 k)) := by
  intro todo
  induction todo with
  | nil => intro v _; simp
  | cons d t ih =>
    intro v hdir
    have hd := hdir d (by simp)
    have e : dirStep x y false (v, b) d = ((v || (TryFlip b x y d.1 d.2 false).1), b) := by
      simp only [dirStep, TryFlip_query_board]
    rw [List.foldl_cons, e]
    obtain ⟨h1, h2⟩ := ih (v || (TryFlip b x y d.1 d.2 false).1)
      (fun d' hd' => hdir d' (List.mem_cons_of_mem _ hd'))
    refine ⟨h1, ?_⟩
    rw [h2, Bool.or_eq_true, TryFlip_fst_iff b false hin hd]
    simp only [List.mem_cons, exists_eq_or_imp, or_assoc]

/-- In query mode `CanPlace` never changes the board. -/
theorem CanPlace_query_board (b : Board) {x y : Int} (hin : Is_Within_Boundaries x y = true) :
    (CanPlace b x y false).2 = b := by
  rw [CanPlace_eq]
  split
  · rfl
  · exact (query_fold b hin dirList false (fun d hd => (mem_dirList_iff d).1 hd)).1

theorem CanPlace_query_fst (b : Board) {x y : Int} (hin : Is_Within_Boundaries x y = true) :
    (CanPlace b x y false).1 = true ↔
      cellAt b x y = EMPTY ∧ ∃ dx dy : Int, Dir dx dy ∧ ∃ k : Nat, CaptureLine b x y dx dy k := by
  rw [CanPlace_eq]
  by_cases he : cellAt b x y = EMPTY
  · rw [if_neg (by simpa using he)]
    rw [(query_fold b hin dirList false (fun d hd => (mem_dirList_iff d).1 hd)).2]
    simp only [Bool.false_eq_true, false_or, he, true_and]
    constructor
    · rintro ⟨d, hd, k, hk⟩
      exact ⟨d.1, d.2, (mem_dirList_iff d).1 hd, k, hk⟩
    · rintro ⟨dx, dy, hd, k, hk⟩
      exact ⟨(dx, dy), (mem_dirList_iff (dx, dy)).2 hd, k, hk⟩
  · rw [if_pos he]
    simp [he]

/-- Complete description of `CanPlace(x, y, true)` on an on-board cell: same flag
as the query, `currentPlayer` untouched, and exactly the captured cells recoloured. -/
theorem CanPlace_flip_spec (b : Board) {x y : Int} (hin : Is_Within_Boundaries x y = true) :
    (CanPlace b x y true).1 = (CanPlace b x y false).1 ∧
    (CanPlace b x y true).2.currentPlayer = b.currentPlayer ∧
    ∀ cx cy : Int,
      (cellAt b x y = EMPTY → Captured b x y cx cy →
        cellAt (CanPlace b x y true).2 cx cy = b.currentPlayer) ∧
      (¬ (cellAt b x y = EMPTY ∧ Captured b x y cx cy) →
        cellAt (CanPlace b x y true).2 cx cy = cellAt b cx cy) := by
  by_cases he : cellAt b x y = EMPTY
  · obtain ⟨hp, hv, hcell⟩ := FlipInv_all b hin
    have e : CanPlace b x y true = dirList.foldl (dirStep x y true) (false, b) := by
      rw [CanPlace_eq, if_neg (by simpa using he)]
    have hcapt : ∀ cx cy, Captured b x y cx cy ↔ ∃ d ∈ dirList, OnLine b x y d.1 d.2 cx cy := by
      intro cx cy
      constructor
      · rintro ⟨dx, dy, hd, h⟩
        exact ⟨(dx, dy), (mem_dirList_iff (dx, dy)).2 hd, h⟩
      · rintro ⟨d, hd, h⟩
        exact ⟨d.1, d.2, (mem_dirList_iff d).1 hd, h⟩
    rw [e]
    refine ⟨?_, hp, fun cx cy => ⟨fun _ h => (hcell cx cy).1 ((hcapt cx cy).1 h), fun h =>
      (hcell cx cy).2 (fun c => h ⟨he, (hcapt cx cy).2 c⟩)⟩⟩
    rw [Bool.eq_iff_iff, hv, CanPlace_query_fst b hin]
    simp only [he, true_and]
    constructor
    · rintro ⟨d, hd, k, hk⟩
      exact ⟨d.1, d.2, (mem_dirList_iff d).1 hd, k, hk⟩
    · rintro ⟨dx, dy, hd, k, hk⟩
      exact ⟨(dx, dy), (mem_dirList_iff (dx, dy)).2 hd, k, hk⟩
  · have e : ∀ flip, CanPlace b x y flip = (false, b) := by
      intro flip; rw [CanPlace_eq, if_pos he]
    rw [e true, e false]
    exact ⟨rfl, rfl, fun cx cy => ⟨fun h => absurd h he, fun _ => rfl⟩⟩

/-- C1. Legality soundness of `CanPlace` in query mode: on an on-board cell
`(x, y)` the call `CanPlace(x, y, false)` returns true exactly when `board[y][x]`
is `EMPTY` and some unit direction `(dx, dy) ≠ (0, 0)` has `k ≥ 1` consecutive
on-board opponent cells followed by an on-board cell of `currentPlayer`.  In
particular it is false on every non-`EMPTY` cell, and false when no neighbour of
`(x, y)` holds an opponent disc (only zero-length runs exist). -/
theorem CanPlace_query_iff (b : Board) (x y : Int) (hin : Is_Within_Boundaries x y = true) :
    ((CanPlace b x y false).1 = true ↔
      cellAt b x y = EMPTY ∧
      ∃ dx dy : Int, (dx = -1 ∨ dx = 0 ∨ dx = 1) ∧ (dy = -1 ∨ dy = 0 ∨ dy = 1) ∧
        ¬ (dx = 0 ∧ dy = 0) ∧
        ∃ k : Nat, 1 ≤ k ∧
          (∀ i : Nat, 1 ≤ i → i ≤ k →
            Is_Within_Boundaries (x + i * dx) (y + i * dy) = true ∧
            cellAt b (x + i * dx) (y + i * dy) = opponentOf b.currentPlayer) ∧
          Is_Within_Boundaries (x + ((k + 1 : Nat) : Int) * dx) (y + ((k + 1 : Nat) : Int) * dy)
            = true ∧
          cellAt b (x + ((k + 1 : Nat) : Int) * dx) (y + ((k + 1 : Nat) : Int) * dy)
            = b.currentPlayer) ∧
    (cellAt b x y ≠ EMPTY → (CanPlace b x y false).1 = false) ∧
    ((∀ dx dy : Int, Dir dx dy →
        ¬ (Is_Within_Boundaries (x + dx) (y + dy) = true ∧
           cellAt b (x + dx) (y + dy) = opponentOf b.currentPlayer)) →
      (CanPlace b x y false).1 = false) := by
  have key := CanPlace_query_fst b hin
  refine ⟨?_, ?_, ?_⟩
  · rw [key]
    constructor
    · rintro ⟨he, dx, dy, ⟨h1, h2, h3⟩, k, hk⟩
      exact ⟨he, dx, dy, h1, h2, h3, k, hk⟩
    · rintro ⟨he, dx, dy, h1, h2, h3, k, hk⟩
      exact ⟨he, dx, dy, ⟨h1, h2, h3⟩, k, hk⟩
  · intro hne
    rw [← Bool.not_eq_true, key]
    exact fun h => hne h.1
  · intro hnone
    rw [← Bool.not_eq_true, key]
    rintro ⟨_, dx, dy, hd, k, hk1, hrun, _⟩
    have := hrun 1 (le_refl _) hk1
    simp only [Nat.cast_one, one_mul] at this
    exact hnone dx dy hd this

/-- C1, instance: the opening board, Black to move, the cell `(x, y) = (2, 3)`:
the move is legal, so a capture line exists. -/
theorem CanPlace_query_iff_witness :
    Is_Within_Boundaries 2 3 = true ∧ (CanPlace Board.new 2 3 false).1 = true ∧
    (cellAt Board.new 2 3 = EMPTY ∧
      ∃ dx dy : Int, (dx = -1 ∨ dx = 0 ∨ dx = 1) ∧ (dy = -1 ∨ dy = 0 ∨ dy = 1) ∧
        ¬ (dx = 0 ∧ dy = 0) ∧
        ∃ k : Nat, 1 ≤ k ∧
          (∀ i : Nat, 1 ≤ i → i ≤ k →
            Is_Within_Boundaries (2 + i * dx) (3 + i * dy) = true ∧
            cellAt Board.new (2 + i * dx) (3 + i * dy) = opponentOf Board.new.currentPlayer) ∧
          Is_Within_Boundaries (2 + ((k + 1 : Nat) : Int) * dx) (3 + ((k + 1 : Nat) : Int) * dy)
            = true ∧
          cellAt Board.new (2 + ((k + 1 : Nat) : Int) * dx) (3 + ((k + 1 : Nat) : Int) * dy)
            = Board.new.currentPlayer) :=
  ⟨by decide, by decide, (CanPlace_query_iff Board.new 2 3 (by decide)).1.1 (by decide)⟩

/-! ### `PlacePiece` -/

theorem cellAt_with_currentPlayer (b : Board) (p : Cell) (cx cy : Int) :
    cellAt { b with currentPlayer := p } cx cy = cellAt b cx cy := rfl

theorem Captured_before {b : Board} {x y cx cy : Int} (h : Captured b x y cx cy) :
    Is_Within_Boundaries cx cy = true ∧ cellAt b cx cy = opponentOf b.currentPlayer := by
  obtain ⟨dx, dy, _, k, i, ⟨_, hrun, _⟩, h1, h2, rfl, rfl⟩ := h
  exact hrun i h1 h2

theorem legal_exists_captured {b : Board} {x y : Int} (hin : Is_Within_Boundaries x y = true)
    (hlegal : (CanPlace b x y false).1 = true) :
    cellAt b x y = EMPTY ∧ ∃ cx cy : Int, Captured b x y cx cy := by
  obtain ⟨he, dx, dy, hd, k, hk⟩ := (CanPlace_query_fst b hin).1 hlegal
  exact ⟨he, x + (1 : Nat) * dx, y + (1 : Nat) * dy, dx, dy, hd, k, 1, hk, le_refl _, hk.1, rfl, rfl⟩

theorem opponentOf_ne_EMPTY (p : Cell) : opponentOf p ≠ EMPTY := by
  cases p <;> simp [opponentOf]

/-- A legal `PlacePiece`: turn handed over, and every cell's new value. -/
theorem PlacePiece_legal (b : Board) {x y : Int} (hin : Is_Within_Boundaries x y = true)
    (hlegal : (CanPlace b x y false).1 = true) :
    (PlacePiece b x y).currentPlayer = opponentOf b.currentPlayer ∧
    ∀ cx cy : Int,
      ((cx = x ∧ cy = y) → cellAt (PlacePiece b x y) cx cy = b.currentPlayer) ∧
      (Captured b x y cx cy → cellAt (PlacePiece b x y) cx cy = b.currentPlayer) ∧
      (¬ (cx = x ∧ cy = y) → ¬ Captured b x y cx cy →
        cellAt (PlacePiece b x y) cx cy = cellAt b cx cy) := by
  obtain ⟨hv, hp, hcell⟩ := CanPlace_flip_spec b hin
  obtain ⟨he, _⟩ := legal_exists_captured hin hlegal
  have hfl : (CanPlace b x y true).1 = true := by rw [hv]; exact hlegal
  have hcellAt : ∀ cx cy : Int, cellAt (PlacePiece b x y) cx cy =
      if Is_Within_Boundaries cx cy = true ∧ cx = x ∧ cy = y then b.currentPlayer
      else cellAt (CanPlace b x y true).2 cx cy := by
    intro cx cy
    unfold PlacePiece
    simp only [hfl, if_true, cellAt_with_currentPlayer, cellAt_setCell, hp]
  refine ⟨?_, fun cx cy => ⟨?_, ?_, ?_⟩⟩
  · unfold PlacePiece
    simp only [hfl, if_true, setCell_currentPlayer, hp]
  · rintro ⟨rfl, rfl⟩
    rw [hcellAt, if_pos ⟨hin, rfl, rfl⟩]
  · intro hc
    rw [hcellAt]
    split
    · rfl
    · exact (hcell cx cy).1 he hc
  · intro h1 h2
    rw [hcellAt, if_neg (fun c => h1 c.2)]
    exact (hcell cx cy).2 (fun c => h2 c.2)

/-- An illegal `PlacePiece` returns the board it was given. -/
theorem PlacePiece_illegal (b : Board) {x y : Int} (hin : Is_Within_Boundaries x y = true)
    (hillegal : (CanPlace b x y false).1 = false) : PlacePiece b x y = b := by
  obtain ⟨hv, hp, hcell⟩ := CanPlace_flip_spec b hin
  have hfl : (CanPlace b x y true).1 = false := by rw [hv]; exact hillegal
  have e : PlacePiece b x y = (CanPlace b x y true).2 := by
    unfold PlacePiece
    simp only [hfl, Bool.false_eq_true, if_false]
  rw [e]
  apply Board.ext_cellAt hp
  intro cx cy _
  apply (hcell cx cy).2
  rintro ⟨he, dx, dy, hd, k, i, hk, _⟩
  have : (CanPlace b x y false).1 = true := (CanPlace_query_fst b hin).2 ⟨he, dx, dy, hd, k, hk⟩
  rw [hillegal] at this
  exact absurd this (by simp)

/-- Flips made by `TryFlip` in one direction leave the capture lines of every
other direction as they were. -/
theorem TryFlip_other_direction (b : Board) {x y dx dy dx' dy' : Int}
    (hin : Is_Within_Boundaries x y = true) (hd : Dir dx dy) (hd' : Dir dx' dy')
    (hne : (dx, dy) ≠ (dx', dy')) (cx cy : Int) :
    OnLine (TryFlip b x y dx dy true).2 x y dx' dy' cx cy ↔ OnLine b x y dx' dy' cx cy := by
  apply OnLine_congr (TryFlip_currentPlayer b x y dx dy true)
  intro i hi
  apply (TryFlip_flip_cell b hin hd _ _).2
  rintro ⟨k, j, _, hj1, _, e1, e2⟩
  exact ray_disjoint hd' hd (fun c => hne c.symm) hi hj1 x y ⟨e1, e2⟩

/-- C2. Exact effect of a legal `PlacePiece(x, y)`: the cell `(x, y)`, which was
`EMPTY`, and every opponent cell on a valid capture line from `(x, y)` computed
on the board before the call now hold the mover's colour; every other cell is
unchanged; so (the mover being Black or White) the cells that differ are exactly
these.  Flips made for one direction do not change the cells flipped for another
direction. -/
theorem PlacePiece_exact_effect (b : Board) (x y : Int)
    (hin : Is_Within_Boundaries x y = true)
    (hlegal : (CanPlace b x y false).1 = true) :
    (∀ cx cy : Int, Is_Within_Boundaries cx cy = true →
      ((cx = x ∧ cy = y) →
        cellAt b cx cy = EMPTY ∧ cellAt (PlacePiece b x y) cx cy = b.currentPlayer) ∧
      (Captured b x y cx cy →
        cellAt b cx cy = opponentOf b.currentPlayer ∧
        cellAt (PlacePiece b x y) cx cy = b.currentPlayer) ∧
      (¬ (cx = x ∧ cy = y) → ¬ Captured b x y cx cy →
        cellAt (PlacePiece b x y) cx cy = cellAt b cx cy) ∧
      (b.currentPlayer ≠ EMPTY →
        (cellAt (PlacePiece b x y) cx cy ≠ cellAt b cx cy ↔
          ((cx = x ∧ cy = y) ∨ Captured b x y cx cy)))) ∧
    (∀ dx dy dx' dy' : Int, Dir dx dy → Dir dx' dy' → (dx, dy) ≠ (dx', dy') →
      ∀ cx cy : Int,
        OnLine (TryFlip b x y dx dy true).2 x y dx' dy' cx cy ↔ OnLine b x y dx' dy' cx cy) := by
  obtain ⟨_, hcell⟩ := PlacePiece_legal b hin hlegal
  obtain ⟨he, _⟩ := legal_exists_captured hin hlegal
  refine ⟨fun cx cy _ => ⟨?_, ?_, (hcell cx cy).2.2, ?_⟩,
    fun dx dy dx' dy' hd hd' hne cx cy => TryFlip_other_direction b hin hd hd' hne cx cy⟩
  · intro h
    refine ⟨?_, (hcell cx cy).1 h⟩
    rw [h.1, h.2]; exact he
  · intro h
    exact ⟨(Captured_before h).2, (hcell cx cy).2.1 h⟩
  · intro hp
    constructor
    · intro hdiff
      by_contra hno
      rw [not_or] at hno
      exact hdiff ((hcell cx cy).2.2 hno.1 hno.2)
    · rintro (h | h)
      · rw [(hcell cx cy).1 h, h.1, h.2, he]; exact hp
      · rw [(hcell cx cy).2.1 h, (Captured_before h).2]
        exact fun c => opponentOf_ne _ c.symm

theorem opening_capture : Captured Board.new 2 3 3 3 := by
  refine ⟨1, 0, by simp [Dir], 1, 1, ⟨le_refl _, ?_, by decide, by decide⟩, le_refl _, le_refl _,
    by norm_num, by norm_num⟩
  intro i h1 h2
  have hi : i = 1 := by omega
  subst hi
  exact ⟨by decide, by decide⟩

/-- C2, instance: Black's opening move `(x, y) = (2, 3)` on the initial board:
the cell `(2, 3)` was `EMPTY` and the captured cell `(3, 3)` held White; both
hold Black afterwards. -/
theorem PlacePiece_exact_effect_witness :
    (Is_Within_Boundaries 2 3 = true ∧ (CanPlace Board.new 2 3 false).1 = true) ∧
    (cellAt Board.new 2 3 = EMPTY ∧
      cellAt (PlacePiece Board.new 2 3) 2 3 = Board.new.currentPlayer) ∧
    (cellAt Board.new 3 3 = opponentOf Board.new.currentPlayer ∧
      cellAt (PlacePiece Board.new 2 3) 3 3 = Board.new.currentPlayer) :=
  ⟨⟨by decide, by decide⟩,
    ((PlacePiece_exact_effect Board.new 2 3 (by decide) (by decide)).1 2 3 (by decide)).1
      ⟨rfl, rfl⟩,
    ((PlacePiece_exact_effect Board.new 2 3 (by decide) (by decide)).1 3 3 (by decide)).2.1
      opening_capture⟩

/-! ### Illegal moves -/

theorem HumanMakeMove_illegal (b : Board) {x y : Int} (hin : Is_Within_Boundaries x y = true)
    (hillegal : (CanPlace b x y false).1 = false) : HumanMakeMove b (some (x, y)) = b := by
  simp only [HumanMakeMove, hin, if_true, hillegal, Bool.false_eq_true, if_false]
  exact CanPlace_query_board b hin

/-- C4. Illegal moves are silent no-ops: on an on-board cell `(x, y)` for which
`CanPlace(x, y, false)` is false, `PlacePiece(x, y)` returns the board unchanged
(all 64 cells and `currentPlayer`), and so does the human move handler given
`(x, y)` as its target cell; every non-`EMPTY` cell is such a cell. -/
theorem illegal_move_noop (b : Board) (x y : Int) (hin : Is_Within_Boundaries x y = true) :
    ((CanPlace b x y false).1 = false →
      PlacePiece b x y = b ∧ HumanMakeMove b (some (x, y)) = b) ∧
    (cellAt b x y ≠ EMPTY →
      (CanPlace b x y false).1 = false ∧
      PlacePiece b x y = b ∧ HumanMakeMove b (some (x, y)) = b) := by
  have key : (CanPlace b x y false).1 = false →
      PlacePiece b x y = b ∧ HumanMakeMove b (some (x, y)) = b :=
    fun h => ⟨PlacePiece_illegal b hin h, HumanMakeMove_illegal b hin h⟩
  refine ⟨key, fun hne => ?_⟩
  have hf : (CanPlace b x y false).1 = false := by
    rw [← Bool.not_eq_true, CanPlace_query_fst b hin]
    exact fun h => hne h.1
  exact ⟨hf, key hf⟩

/-- C4, instance: on the opening board the corner `(0, 0)` is not a legal move
and the occupied cell `(3, 3)` is not `EMPTY`. -/
theorem illegal_move_noop_witness :
    Is_Within_Boundaries 0 0 = true ∧ (CanPlace Board.new 0 0 false).1 = false ∧
    (PlacePiece Board.new 0 0 = Board.new ∧ HumanMakeMove Board.new (some (0, 0)) = Board.new) ∧
    Is_Within_Boundaries 3 3 = true ∧ cellAt Board.new 3 3 ≠ EMPTY ∧
    (PlacePiece Board.new 3 3 = Board.new ∧ HumanMakeMove Board.new (some (3, 3)) = Board.new) :=
  ⟨by decide, by decide, (illegal_move_noop Board.new 0 0 (by decide)).1 (by decide),
    by decide, by decide, ((illegal_move_noop Board.new 3 3 (by decide)).2 (by decide)).2⟩

/-! ### Loops over the 64 cells -/

/-- The nested loops `for (y ...) for (x ...)` visit `allCells` in order. -/
theorem nested_fold_eq {σ : Type} (f : σ → Nat → Nat → σ) (init : σ) :
    (List.range 8).foldl (fun st y => (List.range 8).foldl (fun st x => f st x y) st) init
      = allCells.foldl (fun st c => f st c.1 c.2) init := by
  rfl

theorem mem_allCells (c : Nat × Nat) : c ∈ allCells ↔ c.1 < 8 ∧ c.2 < 8 := by
  obtain ⟨a, b⟩ := c
  simp only [allCells, List.mem_flatMap, List.mem_range, List.mem_map, Prod.mk.injEq]
  constructor
  · rintro ⟨y, hy, x, hx, rfl, rfl⟩; exact ⟨hx, hy⟩
  · rintro ⟨hx, hy⟩; exact ⟨b, hy, a, hx, rfl, rfl⟩

theorem mem_allCells_inb {c : Nat × Nat} (h : c ∈ allCells) :
    Is_Within_Boundaries (c.1 : Int) (c.2 : Int) = true := by
  rw [mem_allCells] at h
  rw [inb_iff]; omega

theorem inb_mem_allCells {x y : Int} (h : Is_Within_Boundaries x y = true) :
    ∃ c ∈ allCells, (c.1 : Int) = x ∧ (c.2 : Int) = y := by
  rw [inb_iff] at h
  refine ⟨(x.toNat, y.toNat), (mem_allCells _).2 ⟨by simp only; omega, by simp only; omega⟩, ?_, ?_⟩
  · simp only; omega
  · simp only; omega

theorem sum_map_add_nat {α : Type} (l : List α) (f g : α → Nat) :
    (l.map (fun c => f c + g c)).sum = (l.map f).sum + (l.map g).sum := by
  induction l with
  | nil => rfl
  | cons a t ih => simp only [List.map_cons, List.sum_cons, ih]; omega

theorem le_sum_map_of_mem {α : Type} (l : List α) (f : α → Nat) {c : α} (h : c ∈ l) :
    f c ≤ (l.map f).sum := by
  induction l with
  | nil => simp at h
  | cons a t ih =>
    simp only [List.map_cons, List.sum_cons]
    rcases List.mem_cons.1 h with rfl | h
    · omega
    · have := ih h; omega

theorem cellSum_add (f g : Int → Int → Nat) :
    cellSum (fun x y => f x y + g x y) = cellSum f + cellSum g := by
  unfold cellSum
  exact sum_map_add_nat allCells (fun c => f c.1 c.2) (fun c => g c.1 c.2)

theorem cellSum_congr {f g : Int → Int → Nat}
    (h : ∀ x y : Int, Is_Within_Boundaries x y = true → f x y = g x y) :
    cellSum f = cellSum g := by
  unfold cellSum
  congr 1
  exact List.map_congr_left (fun c hc => h _ _ (mem_allCells_inb hc))

theorem cellSum_pos {f : Int → Int → Nat} {x y : Int}
    (h : Is_Within_Boundaries x y = true) (hf : 1 ≤ f x y) : 1 ≤ cellSum f := by
  obtain ⟨c, hc, rfl, rfl⟩ := inb_mem_allCells h
  exact le_trans hf (le_sum_map_of_mem allCells (fun c => f c.1 c.2) hc)

theorem cellSum_single {x y : Int} (h : Is_Within_Boundaries x y = true) :
    cellSum (fun x' y' => if x' = x ∧ y' = y then 1 else 0) = 1 := by
  obtain ⟨c, hc, rfl, rfl⟩ := inb_mem_allCells h
  obtain ⟨a, b⟩ := c
  rw [mem_allCells] at hc
  obtain ⟨ha, hb⟩ := hc
  simp only at ha hb
  interval_cases a <;> interval_cases b <;> decide

theorem count_fold (b : Board) (l : List (Nat × Nat)) (acc : Nat × Nat) :
    l.foldl (fun (acc : Nat × Nat) (c : Nat × Nat) =>
        if cellAt b c.1 c.2 = Black_Disc then (acc.1 + 1, acc.2)
        else if cellAt b c.1 c.2 = White_Disc then (acc.1, acc.2 + 1)
        else acc) acc
      = (acc.1 + (l.map (fun c => if cellAt b c.1 c.2 = Black_Disc then 1 else 0)).sum,
         acc.2 + (l.map (fun c => if cellAt b c.1 c.2 = White_Disc then 1 else 0)).sum) := by
  induction l generalizing acc with
  | nil => simp
  | cons c t ih =>
    rw [List.foldl_cons, ih]
    cases h : cellAt b c.1 c.2 <;> simp [h] <;> omega

theorem countDiscs_eq (b : Board) :
    countDiscs b = (cellSum (fun x y => if cellAt b x y = Black_Disc then 1 else 0),
                    cellSum (fun x y => if cellAt b x y = White_Disc then 1 else 0)) := by
  unfold countDiscs
  rw [nested_fold_eq (fun (acc : Nat × Nat) x y =>
        if cellAt b x y = Black_Disc then (acc.1 + 1, acc.2)
        else if cellAt b x y = White_Disc then (acc.1, acc.2 + 1)
        else acc), count_fold]
  simp [cellSum]

theorem discsOf_eq (b : Board) {c : Cell} (hc : c = Black_Disc ∨ c = White_Disc) :
    discsOf b c = cellSum (fun x y => if cellAt b x y = c then 1 else 0) := by
  unfold discsOf
  rw [countDiscs_eq]
  rcases hc with rfl | rfl <;> simp

theorem occupied_eq (b : Board) : occupied b = (countDiscs b).1 + (countDiscs b).2 := by
  rw [countDiscs_eq]
  simp only
  rw [← cellSum_add]
  unfold occupied
  apply cellSum_congr
  intro x y _
  cases cellAt b x y <;> simp

/-! ### Disc counts across a legal move -/

theorem opponentOf_Black_or_White (p : Cell) :
    opponentOf p = Black_Disc ∨ opponentOf p = White_Disc := by
  cases p <;> simp [opponentOf]

/-- C3. Move application invariant: after a legal `PlacePiece(x, y)` by Black or
White, with `f` the number of flipped discs, `f ≥ 1`, the mover has `1 + f` more
discs, the opponent has `f` fewer, the number of non-`EMPTY` cells is one more,
and `currentPlayer` is the other colour. -/
theorem PlacePiece_counts (b : Board) (x y : Int)
    (hin : Is_Within_Boundaries x y = true)
    (hp : b.currentPlayer = Black_Disc ∨ b.currentPlayer = White_Disc)
    (hlegal : (CanPlace b x y false).1 = true) :
    1 ≤ flippedCount b (PlacePiece b x y) ∧
    discsOf (PlacePiece b x y) b.currentPlayer
      = discsOf b b.currentPlayer + 1 + flippedCount b (PlacePiece b x y) ∧
    discsOf (PlacePiece b x y) (opponentOf b.currentPlayer) + flippedCount b (PlacePiece b x y)
      = discsOf b (opponentOf b.currentPlayer) ∧
    occupied (PlacePiece b x y) = occupied b + 1 ∧
    (PlacePiece b x y).currentPlayer = opponentOf b.currentPlayer ∧
    (PlacePiece b x y).currentPlayer ≠ b.currentPlayer := by
  obtain ⟨hturn, hcell⟩ := PlacePiece_legal b hin hlegal
  obtain ⟨he, cx, cy, hcap⟩ := legal_exists_captured hin hlegal
  have hopp := opponentOf_Black_or_White b.currentPlayer
  have hne : opponentOf b.currentPlayer ≠ b.currentPlayer := opponentOf_ne _
  have hcurE : b.currentPlayer ≠ EMPTY := by rcases hp with h | h <;> (rw [h]; simp)
  have hoppE : opponentOf b.currentPlayer ≠ EMPTY := opponentOf_ne_EMPTY _
  -- per-cell description of the move
  have hcase : ∀ cx cy : Int,
      (cx = x ∧ cy = y ∧ cellAt b cx cy = EMPTY ∧
        cellAt (PlacePiece b x y) cx cy = b.currentPlayer) ∨
      (¬ (cx = x ∧ cy = y) ∧ cellAt b cx cy = opponentOf b.currentPlayer ∧
        cellAt (PlacePiece b x y) cx cy = b.currentPlayer) ∨
      (¬ (cx = x ∧ cy = y) ∧ cellAt (PlacePiece b x y) cx cy = cellAt b cx cy) := by
    intro cx cy
    by_cases h1 : cx = x ∧ cy = y
    · left
      refine ⟨h1.1, h1.2, ?_, (hcell cx cy).1 h1⟩
      rw [h1.1, h1.2]; exact he
    · right
      by_cases h2 : Captured b x y cx cy
      · left; exact ⟨h1, (Captured_before h2).2, (hcell cx cy).2.1 h2⟩
      · right; exact ⟨h1, (hcell cx cy).2.2 h1 h2⟩
  -- the three per-cell identities
  have hmover : ∀ cx cy : Int, Is_Within_Boundaries cx cy = true →
      (if cellAt (PlacePiece b x y) cx cy = b.currentPlayer then 1 else 0)
        = ((if cellAt b cx cy = b.currentPlayer then 1 else 0)
            + (if cx = x ∧ cy = y then 1 else 0))
          + (if cellAt b cx cy = opponentOf b.currentPlayer ∧
                cellAt (PlacePiece b x y) cx cy = b.currentPlayer then 1 else 0) := by
    intro cx cy _
    rcases hcase cx cy with ⟨h1, h2, h3, h4⟩ | ⟨h1, h3, h4⟩ | ⟨h1, h4⟩
    · rw [h4, h3]
      simp [h1, h2, hcurE.symm, hoppE.symm]
    · rw [h4, h3]
      simp [h1, hne]
    · rw [h4]
      by_cases h5 : cellAt b cx cy = b.currentPlayer
      · simp [h1, h5, hne.symm]
      · simp [h1, h5]
  have hother : ∀ cx cy : Int, Is_Within_Boundaries cx cy = true →
      (if cellAt (PlacePiece b x y) cx cy = opponentOf b.currentPlayer then 1 else 0)
          + (if cellAt b cx cy = opponentOf b.currentPlayer ∧
                cellAt (PlacePiece b x y) cx cy = b.currentPlayer then 1 else 0)
        = (if cellAt b cx cy = opponentOf b.currentPlayer then 1 else 0) := by
    intro cx cy _
    rcases hcase cx cy with ⟨h1, h2, h3, h4⟩ | ⟨h1, h3, h4⟩ | ⟨h1, h4⟩
    · rw [h4, h3]
      simp [hne.symm, hoppE.symm]
    · rw [h4, h3]
      simp [hne.symm]
    · rw [h4]
      by_cases h5 : cellAt b cx cy = opponentOf b.currentPlayer
      · simp [h5, hne]
      · simp [h5]
  have hf : 1 ≤ flippedCount b (PlacePiece b x y) := by
    unfold flippedCount
    apply cellSum_pos (Captured_before hcap).1
    rw [if_pos ⟨(Captured_before hcap).2, (hcell cx cy).2.1 hcap⟩]
  have e1 : discsOf (PlacePiece b x y) b.currentPlayer
      = discsOf b b.currentPlayer + 1 + flippedCount b (PlacePiece b x y) := by
    rw [discsOf_eq _ hp, discsOf_eq _ hp, cellSum_congr hmover, cellSum_add, cellSum_add,
      cellSum_single hin]
    rfl
  have e2 : discsOf (PlacePiece b x y) (opponentOf b.currentPlayer)
      + flippedCount b (PlacePiece b x y) = discsOf b (opponentOf b.currentPlayer) := by
    rw [discsOf_eq _ hopp, discsOf_eq _ hopp, ← cellSum_congr hother, cellSum_add]
    rfl
  have hocc : ∀ b' : Board, occupied b' = discsOf b' b.currentPlayer
      + discsOf b' (opponentOf b.currentPlayer) := by
    intro b'
    rw [occupied_eq]
    rcases hp with h | h <;> (rw [h]; simp [discsOf, opponentOf]; try omega)
  refine ⟨hf, e1, e2, ?_, hturn, ?_⟩
  · rw [hocc, hocc]; omega
  · rw [hturn]; exact hne

/-- C3, instance: on the standard opening board Black plays `(x, y) = (2, 3)`;
this flips `(3, 3)` to Black and leaves Black 4 discs, White 1 disc, White to move. -/
theorem PlacePiece_counts_witness :
    (Is_Within_Boundaries 2 3 = true ∧
      (Board.new.currentPlayer = Black_Disc ∨ Board.new.currentPlayer = White_Disc) ∧
      (CanPlace Board.new 2 3 false).1 = true) ∧
    (1 ≤ flippedCount Board.new (PlacePiece Board.new 2 3) ∧
      discsOf (PlacePiece Board.new 2 3) Board.new.currentPlayer
        = discsOf Board.new Board.new.currentPlayer + 1
          + flippedCount Board.new (PlacePiece Board.new 2 3) ∧
      discsOf (PlacePiece Board.new 2 3) (opponentOf Board.new.currentPlayer)
          + flippedCount Board.new (PlacePiece Board.new 2 3)
        = discsOf Board.new (opponentOf Board.new.currentPlayer) ∧
      occupied (PlacePiece Board.new 2 3) = occupied Board.new + 1 ∧
      (PlacePiece Board.new 2 3).currentPlayer = opponentOf Board.new.currentPlayer ∧
      (PlacePiece Board.new 2 3).currentPlayer ≠ Board.new.currentPlayer) ∧
    (cellAt Board.new 3 3 = White_Disc ∧ cellAt (PlacePiece Board.new 2 3) 3 3 = Black_Disc ∧
      countDiscs (PlacePiece Board.new 2 3) = (4, 1) ∧
      flippedCount Board.new (PlacePiece Board.new 2 3) = 1 ∧
      (PlacePiece Board.new 2 3).currentPlayer = White_Disc) :=
  ⟨⟨by decide, by decide, by decide⟩,
    PlacePiece_counts Board.new 2 3 (by decide) (by decide) (by decide),
    by decide, by decide, by decide, by decide, by decide⟩

/-! ### Alpha-beta pruning -/

theorem fullStep_fold_max_mono (full : Board → Bool → Int) (b : Board) (y : Nat) :
    ∀ (xs : List Nat) (fs : Int × Bool),
      fs.1 ≤ (xs.foldl (fullStep full b true y) fs).1 ∧
      (fs.2 = true → (xs.foldl (fullStep full b true y) fs).2 = true) := by
  intro xs
  induction xs with
  | nil => intro fs; simp
  | cons x t ih =>
    intro fs
    rw [List.foldl_cons]
    obtain ⟨h1, h2⟩ := ih (fullStep full b true y fs x)
    unfold fullStep at h1 h2 ⊢
    by_cases hl : isLegal b x y = true
    · simp only [hl, if_true] at h1 h2 ⊢
      exact ⟨le_trans (le_max_left _ _) h1, fun _ => h2 trivial⟩
    · simp only [hl, if_false, Bool.false_eq_true] at h1 h2 ⊢
      exact ⟨h1, h2⟩

theorem fullStep_fold_min_mono (full : Board → Bool → Int) (b : Board) (y : Nat) :
    ∀ (xs : List Nat) (fs : Int × Bool),
      (xs.foldl (fullStep full b false y) fs).1 ≤ fs.1 ∧
      (fs.2 = true → (xs.foldl (fullStep full b false y) fs).2 = true) := by
  intro xs
  induction xs with
  | nil => intro fs; simp
  | cons x t ih =>
    intro fs
    rw [List.foldl_cons]
    obtain ⟨h1, h2⟩ := ih (fullStep full b false y fs x)
    unfold fullStep at h1 h2 ⊢
    by_cases hl : isLegal b x y = true
    · simp only [hl, if_true, Bool.false_eq_true, if_false] at h1 h2 ⊢
      exact ⟨le_trans h1 (min_le_left _ _), fun _ => h2 trivial⟩
    · simp only [hl, if_false, Bool.false_eq_true] at h1 h2 ⊢
      exact ⟨h1, h2⟩

/-- One legal cell at a maximizing node keeps `RelMax`. -/
theorem RelMax_update {a b : Int} {st : SearchState} {fs : Int × Bool} {score v : Int}
    (hrel : RelMax a b st fs)
    (hs : st.alpha < st.beta → a ≤ st.alpha → st.beta ≤ b →
      WindowSound score v st.alpha st.beta) :
    RelMax a b (searchUpdate true st score) (max fs.1 v, true) := by
  obtain ⟨hf, hb, hopen | hclosed⟩ := hrel
  · obtain ⟨h1, h2, h3, h4⟩ := hopen
    obtain ⟨s1, s2, s3⟩ := hs (by rw [hb]; exact h2) (by omega) (by omega)
    rw [hb] at s1 s3
    refine ⟨rfl, hb, ?_⟩
    simp only [searchUpdate, if_true]
    by_cases hv : b ≤ v
    · right
      have := s3 hv
      exact ⟨trivial, by omega, by omega⟩
    · by_cases hv2 : v ≤ st.alpha
      · left
        have := s2 hv2
        refine ⟨by omega, by omega, fun h => by omega, fun h => by omega⟩
      · left
        have := s1 ⟨by omega, by omega⟩
        refine ⟨by omega, by omega, fun h => by omega, fun h => by omega⟩
  · obtain ⟨_, h2, h3⟩ := hclosed
    refine ⟨rfl, hb, Or.inr ⟨rfl, ?_, ?_⟩⟩
    · simp only [searchUpdate, if_true]; omega
    · simp only; omega

/-- One legal cell at a minimizing node keeps `RelMin`. -/
theorem RelMin_update {a b : Int} {st : SearchState} {fs : Int × Bool} {score v : Int}
    (hrel : RelMin a b st fs)
    (hs : st.alpha < st.beta → a ≤ st.alpha → st.beta ≤ b →
      WindowSound score v st.alpha st.beta) :
    RelMin a b (searchUpdate false st score) (min fs.1 v, true) := by
  obtain ⟨hf, ha, hopen | hclosed⟩ := hrel
  · obtain ⟨h1, h2, h3, h4⟩ := hopen
    obtain ⟨s1, s2, s3⟩ := hs (by rw [ha]; exact h2) (by omega) (by omega)
    rw [ha] at s1 s2
    refine ⟨rfl, ha, ?_⟩
    simp only [searchUpdate, Bool.false_eq_true, if_false]
    by_cases hv : v ≤ a
    · right
      have := s2 hv
      exact ⟨trivial, by omega, by omega⟩
    · by_cases hv2 : st.beta ≤ v
      · left
        have := s3 hv2
        refine ⟨by omega, by omega, fun h => by omega, fun h => by omega⟩
      · left
        have := s1 ⟨by omega, by omega⟩
        refine ⟨by omega, by omega, fun h => by omega, fun h => by omega⟩
  · obtain ⟨_, h2, h3⟩ := hclosed
    refine ⟨rfl, ha, Or.inr ⟨rfl, ?_, ?_⟩⟩
    · simp only [searchUpdate, Bool.false_eq_true, if_false]; omega
    · simp only; omega

/-- The inner loop of a maximizing node keeps `RelMax`, whether it runs to the
end of the row or leaves it at the pruning `break`. -/
theorem minimaxRow_RelMax {rec : Board → Bool → Int → Int → Int} {full : Board → Bool → Int}
    (hrec : ∀ (bd : Board) (flag : Bool) (al be : Int), al < be → INT_MIN ≤ al → be ≤ INT_MAX →
      WindowSound (rec bd flag al be) (full bd flag) al be)
    (b0 : Board) (y : Nat) {a b : Int} (ha : INT_MIN ≤ a) (hb : b ≤ INT_MAX) :
    ∀ (xs : List Nat) (st : SearchState) (fs : Int × Bool), RelMax a b st fs →
      RelMax a b (minimaxRow rec b0 true y xs st) (xs.foldl (fullStep full b0 true y) fs) := by
  intro xs
  induction xs with
  | nil => intro st fs h; simpa [minimaxRow] using h
  | cons x t ih =>
    intro st fs hrel
    rw [minimaxRow, List.foldl_cons]
    by_cases hl : isLegal b0 x y = true
    · have hst1 : RelMax a b
          (searchUpdate true st (rec (PlacePiece (Clone b0) x y) (!true) st.alpha st.beta))
          (max fs.1 (full (PlacePiece (Clone b0) x y) (!true)), true) :=
        RelMax_update hrel (fun h1 h2 h3 => hrec _ _ _ _ h1 (le_trans ha h2) (le_trans h3 hb))
      have hfs : fullStep full b0 true y fs x
          = (max fs.1 (full (PlacePiece (Clone b0) x y) (!true)), true) := by
        simp only [fullStep, hl, if_true]
      simp only [hl, if_true, hfs]
      split
      · rename_i hbr
        obtain ⟨_, hbeta, hopen | hclosed⟩ := hst1
        · omega
        · obtain ⟨hmono, hfound⟩ := fullStep_fold_max_mono full b0 y t
            (max fs.1 (full (PlacePiece (Clone b0) x y) (!true)), true)
          exact ⟨by rw [hclosed.1, hfound rfl], hbeta,
            Or.inr ⟨hclosed.1, hclosed.2.1, le_trans hclosed.2.2 hmono⟩⟩
      · exact ih _ _ hst1
    · have hfs : fullStep full b0 true y fs x = fs := by
        simp only [fullStep, hl, if_false, Bool.false_eq_true]
      simp only [hl, if_false, Bool.false_eq_true, hfs]
      exact ih st fs hrel

/-- The inner loop of a minimizing node keeps `RelMin`. -/
theorem minimaxRow_RelMin {rec : Board → Bool → Int → Int → Int} {full : Board → Bool → Int}
    (hrec : ∀ (bd : Board) (flag : Bool) (al be : Int), al < be → INT_MIN ≤ al → be ≤ INT_MAX →
      WindowSound (rec bd flag al be) (full bd flag) al be)
    (b0 : Board) (y : Nat) {a b : Int} (ha : INT_MIN ≤ a) (hb : b ≤ INT_MAX) :
    ∀ (xs : List Nat) (st : SearchState) (fs : Int × Bool), RelMin a b st fs →
      RelMin a b (minimaxRow rec b0 false y xs st) (xs.foldl (fullStep full b0 false y) fs) := by
  intro xs
  induction xs with
  | nil => intro st fs h; simpa [minimaxRow] using h
  | cons x t ih =>
    intro st fs hrel
    rw [minimaxRow, List.foldl_cons]
    by_cases hl : isLegal b0 x y = true
    · have hst1 : RelMin a b
          (searchUpdate false st (rec (PlacePiece (Clone b0) x y) (!false) st.alpha st.beta))
          (min fs.1 (full (PlacePiece (Clone b0) x y) (!false)), true) :=
        RelMin_update hrel (fun h1 h2 h3 => hrec _ _ _ _ h1 (le_trans ha h2) (le_trans h3 hb))
      have hfs : fullStep full b0 false y fs x
          = (min fs.1 (full (PlacePiece (Clone b0) x y) (!false)), true) := by
        simp only [fullStep, hl, if_true, Bool.false_eq_true, if_false]
      simp only [hl, if_true, hfs]
      split
      · rename_i hbr
        obtain ⟨_, halpha, hopen | hclosed⟩ := hst1
        · omega
        · obtain ⟨hmono, hfound⟩ := fullStep_fold_min_mono full b0 y t
            (min fs.1 (full (PlacePiece (Clone b0) x y) (!false)), true)
          exact ⟨by rw [hclosed.1, hfound rfl], halpha,
            Or.inr ⟨hclosed.1, hclosed.2.1, le_trans hmono hclosed.2.2⟩⟩
      · exact ih _ _ hst1
    · have hfs : fullStep full b0 false y fs x = fs := by
        simp only [fullStep, hl, if_false, Bool.false_eq_true]
      simp only [hl, if_false, Bool.false_eq_true, hfs]
      exact ih st fs hrel

theorem rows_RelMax {rec : Board → Bool → Int → Int → Int} {full : Board → Bool → Int}
    (hrec : ∀ (bd : Board) (flag : Bool) (al be : Int), al < be → INT_MIN ≤ al → be ≤ INT_MAX →
      WindowSound (rec bd flag al be) (full bd flag) al be)
    (b0 : Board) (cols : List Nat) {a b : Int} (ha : INT_MIN ≤ a) (hb : b ≤ INT_MAX) :
    ∀ (ys : List Nat) (st : SearchState) (fs : Int × Bool), RelMax a b st fs →
      RelMax a b
        (ys.foldl (fun (st : SearchState) (y : Nat) => minimaxRow rec b0 true y cols st) st)
        (ys.foldl (fun (fs : Int × Bool) (y : Nat) => cols.foldl (fullStep full b0 true y) fs) fs) := by
  intro ys
  induction ys with
  | nil => intro st fs h; simpa using h
  | cons y t ih =>
    intro st fs hrel
    rw [List.foldl_cons, List.foldl_cons]
    exact ih _ _ (minimaxRow_RelMax hrec b0 y ha hb cols st fs hrel)

theorem rows_RelMin {rec : Board → Bool → Int → Int → Int} {full : Board → Bool → Int}
    (hrec : ∀ (bd : Board) (flag : Bool) (al be : Int), al < be → INT_MIN ≤ al → be ≤ INT_MAX →
      WindowSound (rec bd flag al be) (full bd flag) al be)
    (b0 : Board) (cols : List Nat) {a b : Int} (ha : INT_MIN ≤ a) (hb : b ≤ INT_MAX) :
    ∀ (ys : List Nat) (st : SearchState) (fs : Int × Bool), RelMin a b st fs →
      RelMin a b
        (ys.foldl (fun (st : SearchState) (y : Nat) => minimaxRow rec b0 false y cols st) st)
        (ys.foldl (fun (fs : Int × Bool) (y : Nat) => cols.foldl (fullStep full b0 false y) fs) fs) := by
  intro ys
  induction ys with
  | nil => intro st fs h; simpa using h
  | cons y t ih =>
    intro st fs hrel
    rw [List.foldl_cons, List.foldl_cons]
    exact ih _ _ (minimaxRow_RelMin hrec b0 y ha hb cols st fs hrel)

/-- Window soundness of the pruned search against the unpruned one, for every
open window of C++ `int`s: exact inside the window, on the right side outside.
The pruning `break` leaving only the inner loop does not matter: after a
cut-off the running best can only move further past the window. -/
theorem Minimax_window :
    ∀ (d : Nat) (b0 : Board) (isMax : Bool) (a b : Int), a < b → INT_MIN ≤ a → b ≤ INT_MAX →
      WindowSound (Minimax d b0 isMax a b) (MinimaxFull d b0 isMax) a b := by
  intro d
  induction d with
  | zero =>
    intro b0 isMax a b _ _ _
    simp only [Minimax, MinimaxFull]
    exact ⟨fun _ => rfl, id, id⟩
  | succ n ih =>
    intro b0 isMax a b hab ha hb
    cases isMax with
    | true =>
      have hrel := rows_RelMax ih b0 (List.range 8) ha hb (List.range 8)
        { bestScore := INT_MIN, moveFound := false, alpha := a, beta := b } (INT_MIN, false)
        ⟨rfl, rfl, Or.inl ⟨by simp only; omega, hab, fun _ => ha, fun _ => rfl⟩⟩
      simp only [Minimax, MinimaxFull, if_true]
      obtain ⟨hf, _, hopen | hclosed⟩ := hrel
      · obtain ⟨h1, h2, h3, h4⟩ := hopen
        rw [hf]
        split
        · exact ⟨fun _ => rfl, id, id⟩
        · exact ⟨fun h => h4 h.1, h3, fun h => by omega⟩
      · obtain ⟨h1, h2, h3⟩ := hclosed
        rw [← hf, h1]
        simp only [Bool.not_true, Bool.false_eq_true, if_false]
        exact ⟨fun h => by omega, fun h => by omega, fun _ => h2⟩
    | false =>
      have hrel := rows_RelMin ih b0 (List.range 8) ha hb (List.range 8)
        { bestScore := INT_MAX, moveFound := false, alpha := a, beta := b } (INT_MAX, false)
        ⟨rfl, rfl, Or.inl ⟨by simp only; omega, hab, fun _ => hb, fun _ => rfl⟩⟩
      simp only [Minimax, MinimaxFull, Bool.false_eq_true, if_false]
      obtain ⟨hf, _, hopen | hclosed⟩ := hrel
      · obtain ⟨h1, h2, h3, h4⟩ := hopen
        rw [hf]
        split
        · exact ⟨fun _ => rfl, id, id⟩
        · exact ⟨fun h => h4 h.2, fun h => by omega, h3⟩
      · obtain ⟨h1, h2, h3⟩ := hclosed
        rw [← hf, h1]
        simp only [Bool.not_true, Bool.false_eq_true, if_false]
        exact ⟨fun h => by omega, fun _ => h2, fun h => by omega⟩

/-! ### Size of the scores -/

theorem weightAt_bounds : ∀ c ∈ allCells, -50 ≤ weightAt c.2 c.1 ∧ weightAt c.2 c.1 ≤ 100 := by
  decide

theorem eval_fold_bounds (b : Board) :
    ∀ (l : List (Nat × Nat)) (acc : Int × Int), (∀ c ∈ l, c ∈ allCells) →
      let r := l.foldl (fun (acc : Int × Int) (c : Nat × Nat) =>
        if cellAt b c.1 c.2 = Black_Disc then (acc.1 + weightAt c.2 c.1, acc.2)
        else if cellAt b c.1 c.2 = White_Disc then (acc.1, acc.2 + weightAt c.2 c.1)
        else acc) acc
      (acc.1 - 50 * l.length ≤ r.1 ∧ r.1 ≤ acc.1 + 100 * l.length) ∧
      (acc.2 - 50 * l.length ≤ r.2 ∧ r.2 ≤ acc.2 + 100 * l.length) := by
  intro l
  induction l with
  | nil => intro acc _; simp
  | cons c t ih =>
    intro acc hmem
    have hw := weightAt_bounds c (hmem c (by simp))
    have ht : ∀ c' ∈ t, c' ∈ allCells := fun c' hc' => hmem c' (List.mem_cons_of_mem _ hc')
    simp only [List.foldl_cons, List.length_cons, Nat.cast_add, Nat.cast_one]
    cases hcell : cellAt b c.1 c.2 with
    | EMPTY =>
      have := ih acc ht
      simp only [reduceCtorEq, if_false] at this ⊢
      omega
    | Black_Disc =>
      have := ih (acc.1 + weightAt c.2 c.1, acc.2) ht
      simp only [if_true] at this ⊢
      omega
    | White_Disc =>
      have := ih (acc.1, acc.2 + weightAt c.2 c.1) ht
      simp only [reduceCtorEq, if_false, if_true] at this ⊢
      omega

/-- The value of `EvaluateBoard` stays far inside the range of a 32-bit `int`. -/
theorem EvaluateBoard_bounds (b : Board) :
    -9600 ≤ EvaluateBoard b ∧ EvaluateBoard b ≤ 9600 := by
  unfold EvaluateBoard
  rw [nested_fold_eq (fun (acc : Int × Int) x y =>
        if cellAt b x y = Black_Disc then (acc.1 + weightAt y x, acc.2)
        else if cellAt b x y = White_Disc then (acc.1, acc.2 + weightAt y x)
        else acc)]
  have := eval_fold_bounds b allCells (0, 0) (fun c hc => hc)
  have hlen : allCells.length = 64 := rfl
  simp only [hlen] at this
  simp only
  omega

theorem nested_fold_inv {σ : Type} (P : σ → Prop) (f : Nat → σ → Nat → σ)
    (hstep : ∀ (y : Nat) (st : σ) (x : Nat), P st → P (f y st x)) (xs : List Nat) :
    ∀ (ys : List Nat) (st : σ), P st → P (ys.foldl (fun st y => xs.foldl (f y) st) st) := by
  have hrow : ∀ (y : Nat) (l : List Nat) (st : σ), P st → P (l.foldl (f y) st) := by
    intro y l
    induction l with
    | nil => intro st h; simpa using h
    | cons x t ih => intro st h; rw [List.foldl_cons]; exact ih _ (hstep y st x h)
  intro ys
  induction ys with
  | nil => intro st h; simpa using h
  | cons y t ih => intro st h; rw [List.foldl_cons]; exact ih _ (hrow y xs st h)

/-- The unpruned minimax value is always one of the evaluator's values, hence
far inside the range of a 32-bit `int`. -/
theorem MinimaxFull_bounds :
    ∀ (d : Nat) (b : Board) (isMax : Bool),
      -9600 ≤ MinimaxFull d b isMax ∧ MinimaxFull d b isMax ≤ 9600 := by
  intro d
  induction d with
  | zero => intro b isMax; simpa [MinimaxFull] using EvaluateBoard_bounds b
  | succ n ih =>
    intro b isMax
    have hinv := nested_fold_inv
      (fun (fs : Int × Bool) =>
        (fs.2 = false → fs.1 = (if isMax then INT_MIN else INT_MAX)) ∧
        (fs.2 = true → -9600 ≤ fs.1 ∧ fs.1 ≤ 9600))
      (fullStep (MinimaxFull n) b isMax)
      (by
        intro y st x hst
        unfold fullStep
        by_cases hl : isLegal b x y = true
        · simp only [hl, if_true]
          refine ⟨fun h => by simp at h, fun _ => ?_⟩
          have hv := ih (PlacePiece (Clone b) x y) (!isMax)
          cases hfound : st.2 with
          | true =>
            have := hst.2 hfound
            cases isMax <;> simp only [Bool.false_eq_true, if_false, if_true] <;> omega
          | false =>
            have := hst.1 hfound
            cases isMax <;>
              simp only [Bool.false_eq_true, if_false, if_true, INT_MIN, INT_MAX] at this ⊢ <;>
              omega
        · simp only [hl, if_false, Bool.false_eq_true]
          exact hst)
      (List.range 8) (List.range 8) (if isMax then INT_MIN else INT_MAX, false)
      ⟨fun _ => rfl, fun h => by simp at h⟩
    have key : ∀ fs : Int × Bool,
        (fs.2 = true → -9600 ≤ fs.1 ∧ fs.1 ≤ 9600) →
        -9600 ≤ (if (!fs.2) = true then EvaluateBoard b else fs.1) ∧
        (if (!fs.2) = true then EvaluateBoard b else fs.1) ≤ 9600 := by
      intro fs h
      cases hfs : fs.2 with
      | true => simpa using h hfs
      | false => simpa using EvaluateBoard_bounds b
    simp only [MinimaxFull]
    exact key _ hinv.2

/-- With the full window `(INT_MIN, INT_MAX)` the window conditions of
`Minimax_window` leave only the exact case. -/
theorem Minimax_full_window (d : Nat) (b : Board) (isMax : Bool) :
    INT_MIN < MinimaxFull d b isMax ∧ MinimaxFull d b isMax < INT_MAX ∧
    WindowSound (Minimax d b isMax INT_MIN INT_MAX) (MinimaxFull d b isMax) INT_MIN INT_MAX := by
  have hb := MinimaxFull_bounds d b isMax
  refine ⟨lt_of_lt_of_le (by decide) hb.1, lt_of_le_of_lt hb.2 (by decide), ?_⟩
  exact Minimax_window d b isMax INT_MIN INT_MAX (by decide) (le_refl _) (le_refl _)

theorem Minimax_root_bounds (d : Nat) (b : Board) (isMax : Bool) :
    -9600 ≤ Minimax d b isMax INT_MIN INT_MAX ∧ Minimax d b isMax INT_MIN INT_MAX ≤ 9600 := by
  obtain ⟨h1, h2, h3, _, _⟩ := Minimax_full_window d b isMax
  rw [h3 ⟨h1, h2⟩]
  exact MinimaxFull_bounds d b isMax

/-- C5. Alpha-beta correctness: for every board, depth and maximizing flag,
`Minimax(board, depth, maximizing, INT_MIN, INT_MAX)` returns the score of the
unpruned full-width minimax `MinimaxFull` of the same depth (same evaluator,
same row-major move order, same base cases). -/
theorem Minimax_eq_MinimaxFull (d : Nat) (b : Board) (isMax : Bool) :
    Minimax d b isMax INT_MIN INT_MAX = MinimaxFull d b isMax := by
  obtain ⟨hlo, hhi, hexact, _, _⟩ := Minimax_full_window d b isMax
  exact hexact ⟨hlo, hhi⟩

/-! ### The computer's move -/

theorem isLegal_iff (b : Board) (x y : Int) (hin : Is_Within_Boundaries x y = true) :
    isLegal b x y = true ↔ (CanPlace b x y false).1 = true := by
  unfold isLegal
  rw [Bool.and_eq_true, decide_eq_true_eq]
  exact ⟨fun h => h.2, fun h => ⟨((CanPlace_query_fst b hin).1 h).1, h⟩⟩

theorem Clone_eq (b : Board) : Clone b = b := rfl

theorem moveScore_bounds (b : Board) (x y : Int) :
    -9600 ≤ moveScore b x y ∧ moveScore b x y ≤ 9600 :=
  Minimax_root_bounds 3 _ false

theorem allCells_sorted : allCells.Pairwise (fun c c' => scanLe c c' ∧ c ≠ c') := by
  decide

theorem MoveInv_step {b : Board} {done : List (Nat × Nat)} {st : MoveState} {c : Nat × Nat}
    (hinv : MoveInv b done st) (hord : ∀ c' ∈ done, scanLe c' c) :
    MoveInv b (done ++ [c]) (makeMoveStep b c.2 st c.1) := by
  have hsc := moveScore_bounds b c.1 c.2
  unfold makeMoveStep
  by_cases hl : isLegal b c.1 c.2 = true
  · simp only [hl, if_true]
    right
    rcases hinv with ⟨hnone, hst⟩ | ⟨hfound, best, hbest, hbl, hx, hy, hs, hall⟩
    · subst hst
      have hgt : Minimax 3 (PlacePiece (Clone b) c.1 c.2) false INT_MIN INT_MAX > INT_MIN := by
        have : moveScore b c.1 c.2 > INT_MIN := by simp only [INT_MIN]; omega
        exact this
      simp only [hgt, if_true]
      refine ⟨trivial, c, by simp, hl, rfl, rfl, rfl, ?_⟩
      intro c' hc' hl'
      rcases List.mem_append.1 hc' with h | h
      · rw [hnone c' h] at hl'; exact absurd hl' (by simp)
      · rw [List.mem_singleton] at h; subst h
        exact ⟨le_refl _, fun _ => Or.inr ⟨rfl, le_refl _⟩⟩
    · by_cases hgt : Minimax 3 (PlacePiece (Clone b) c.1 c.2) false INT_MIN INT_MAX > st.bestScore
      · simp only [hgt, if_true]
        have hgt' : moveScore b c.1 c.2 > moveScore b best.1 best.2 := by rw [← hs]; exact hgt
        refine ⟨trivial, c, by simp, hl, rfl, rfl, rfl, ?_⟩
        intro c' hc' hl'
        rcases List.mem_append.1 hc' with h | h
        · have := (hall c' h hl').1
          exact ⟨by omega, fun heq => by omega⟩
        · rw [List.mem_singleton] at h; subst h
          exact ⟨le_refl _, fun _ => Or.inr ⟨rfl, le_refl _⟩⟩
      · simp only [hgt, if_false]
        have hle : moveScore b c.1 c.2 ≤ moveScore b best.1 best.2 := by
          rw [← hs]; exact not_lt.1 hgt
        refine ⟨trivial, best, List.mem_append.2 (Or.inl hbest), hbl, hx, hy, hs, ?_⟩
        intro c' hc' hl'
        rcases List.mem_append.1 hc' with h | h
        · exact hall c' h hl'
        · rw [List.mem_singleton] at h; subst h
          exact ⟨hle, fun _ => hord best hbest⟩
  · simp only [hl, if_false, Bool.false_eq_true]
    rcases hinv with ⟨hnone, hst⟩ | ⟨hfound, best, hbest, hbl, hx, hy, hs, hall⟩
    · left
      refine ⟨fun c' hc' => ?_, hst⟩
      rcases List.mem_append.1 hc' with h | h
      · exact hnone c' h
      · rw [List.mem_singleton] at h; subst h; simpa using hl
    · right
      refine ⟨hfound, best, List.mem_append.2 (Or.inl hbest), hbl, hx, hy, hs, ?_⟩
      intro c' hc' hl'
      rcases List.mem_append.1 hc' with h | h
      · exact hall c' h hl'
      · rw [List.mem_singleton] at h; subst h; exact absurd hl' hl

theorem MoveInv_fold (b : Board) :
    ∀ (todo done : List (Nat × Nat)) (st : MoveState), MoveInv b done st →
      (done ++ todo).Pairwise (fun c c' => scanLe c c' ∧ c ≠ c') →
      MoveInv b (done ++ todo)
        (todo.foldl (fun (st : MoveState) (c : Nat × Nat) => makeMoveStep b c.2 st c.1) st) := by
  intro todo
  induction todo with
  | nil => intro done st h _; simpa using h
  | cons c t ih =>
    intro done st h hpw
    have hsplit := List.pairwise_append.1 hpw
    have hstep := MoveInv_step h (fun c' hc' => (hsplit.2.2 c' hc' c (by simp)).1)
    have e : done ++ c :: t = (done ++ [c]) ++ t := by simp
    rw [List.foldl_cons, e]
    exact ih (done ++ [c]) _ hstep (by rw [← e]; exact hpw)

/-- The scoring loops of `AIPlayer::MakeMove`, described over all 64 cells. -/
theorem makeMoveScan_inv (b : Board) : MoveInv b allCells (makeMoveScan b) := by
  have h := MoveInv_fold b allCells []
    { bestScore := INT_MIN, bestX := -1, bestY := -1, moveFound := false }
    (Or.inl ⟨fun c hc => by simp at hc, rfl⟩) (by simpa using allCells_sorted)
  have e : makeMoveScan b = allCells.foldl
      (fun (st : MoveState) (c : Nat × Nat) => makeMoveStep b c.2 st c.1)
      { bestScore := INT_MIN, bestX := -1, bestY := -1, moveFound := false } := by
    unfold makeMoveScan
    exact nested_fold_eq (fun st x y => makeMoveStep b y st x) _
  rw [e]
  simpa using h

/-- What the scoring loops of `AIPlayer::MakeMove` leave behind, on a board with
a legal move and on a board without one. -/
theorem makeMoveScan_spec (b : Board) :
    ((∃ x y : Int, Is_Within_Boundaries x y = true ∧ (CanPlace b x y false).1 = true) →
      (makeMoveScan b).moveFound = true ∧
      (makeMoveScan b).bestX ≠ -1 ∧ (makeMoveScan b).bestY ≠ -1 ∧
      Is_Within_Boundaries (makeMoveScan b).bestX (makeMoveScan b).bestY = true ∧
      (CanPlace b (makeMoveScan b).bestX (makeMoveScan b).bestY false).1 = true ∧
      (makeMoveScan b).bestScore = moveScore b (makeMoveScan b).bestX (makeMoveScan b).bestY ∧
      ∀ x y : Int, Is_Within_Boundaries x y = true → (CanPlace b x y false).1 = true →
        moveScore b x y ≤ moveScore b (makeMoveScan b).bestX (makeMoveScan b).bestY ∧
        (moveScore b x y = moveScore b (makeMoveScan b).bestX (makeMoveScan b).bestY →
          ((makeMoveScan b).bestY < y ∨
            ((makeMoveScan b).bestY = y ∧ (makeMoveScan b).bestX ≤ x)))) ∧
    ((¬ ∃ x y : Int, Is_Within_Boundaries x y = true ∧ (CanPlace b x y false).1 = true) →
      makeMoveScan b = { bestScore := INT_MIN, bestX := -1, bestY := -1, moveFound := false }) := by
  have hinv := makeMoveScan_inv b
  constructor
  · rintro ⟨x, y, hin, hleg⟩
    obtain ⟨c, hc, rfl, rfl⟩ := inb_mem_allCells hin
    rcases hinv with ⟨hnone, _⟩ | ⟨hfound, best, hbest, hbl, hx, hy, hs, hall⟩
    · have := hnone c hc
      rw [(isLegal_iff b _ _ hin).2 hleg] at this
      exact absurd this (by simp)
    · have hbin := mem_allCells_inb hbest
      rw [hx, hy]
      refine ⟨hfound, by omega, by omega, hbin, (isLegal_iff b _ _ hbin).1 hbl, ?_, ?_⟩
      · rw [hs]
      · intro x' y' hin' hleg'
        obtain ⟨c', hc', rfl, rfl⟩ := inb_mem_allCells hin'
        obtain ⟨h1, h2⟩ := hall c' hc' ((isLegal_iff b _ _ hin').2 hleg')
        refine ⟨h1, fun heq => ?_⟩
        rcases h2 heq with h | ⟨h, h'⟩
        · left; exact_mod_cast h
        · right; exact ⟨by exact_mod_cast h, by exact_mod_cast h'⟩
  · intro hno
    rcases hinv with ⟨_, hst⟩ | ⟨_, best, hbest, hbl, _⟩
    · exact hst
    · have hbin := mem_allCells_inb hbest
      exact absurd ⟨_, _, hbin, (isLegal_iff b _ _ hbin).1 hbl⟩ hno

/-- C6. Move selection rule of the computer player: on a board on which
`currentPlayer` has a legal move, the cell `(bestX, bestY)` that
`AIPlayer::MakeMove` plays is a legal cell whose score
`Minimax(clone after the move, 3, false, INT_MIN, INT_MAX)` is greatest among
all legal cells, and among the legal cells with that score it is the first in
row-major scan order (`y` outer, `x` inner). -/
theorem AIMakeMove_selects_best (b : Board)
    (hex : ∃ x y : Int, Is_Within_Boundaries x y = true ∧ (CanPlace b x y false).1 = true) :
    AIMakeMove b = PlacePiece b (makeMoveScan b).bestX (makeMoveScan b).bestY ∧
    Is_Within_Boundaries (makeMoveScan b).bestX (makeMoveScan b).bestY = true ∧
    (CanPlace b (makeMoveScan b).bestX (makeMoveScan b).bestY false).1 = true ∧
    (makeMoveScan b).bestScore = moveScore b (makeMoveScan b).bestX (makeMoveScan b).bestY ∧
    ∀ x y : Int, Is_Within_Boundaries x y = true → (CanPlace b x y false).1 = true →
      moveScore b x y ≤ moveScore b (makeMoveScan b).bestX (makeMoveScan b).bestY ∧
      (moveScore b x y = moveScore b (makeMoveScan b).bestX (makeMoveScan b).bestY →
        ((makeMoveScan b).bestY < y ∨
          ((makeMoveScan b).bestY = y ∧ (makeMoveScan b).bestX ≤ x))) := by
  obtain ⟨hf, hx, hy, hin, hleg, hs, hall⟩ := (makeMoveScan_spec b).1 hex
  refine ⟨?_, hin, hleg, hs, hall⟩
  unfold AIMakeMove
  simp only [hf, Bool.true_and, bne_iff_ne, ne_eq, hx, hy, not_false_eq_true, decide_True,
    Bool.and_self, if_true]
  simp [hx, hy]

/-- C6, instance: the opening board, on which Black can play `(2, 3)`. -/
theorem AIMakeMove_selects_best_witness :
    (∃ x y : Int, Is_Within_Boundaries x y = true ∧ (CanPlace Board.new x y false).1 = true) ∧
    AIMakeMove Board.new
      = PlacePiece Board.new (makeMoveScan Board.new).bestX (makeMoveScan Board.new).bestY ∧
    (CanPlace Board.new (makeMoveScan Board.new).bestX (makeMoveScan Board.new).bestY false).1
      = true :=
  ⟨⟨2, 3, by decide, by decide⟩,
    (AIMakeMove_selects_best Board.new ⟨2, 3, by decide, by decide⟩).1,
    (AIMakeMove_selects_best Board.new ⟨2, 3, by decide, by decide⟩).2.2.1⟩

/-- C7. The search only ever proposes legal moves, or none: `AIPlayer::MakeMove`
takes its `PlacePiece` branch exactly when `currentPlayer` has a legal move; the
cell it then plays is a legal cell of the original board, so the move is applied
and the turn passes to the other colour; with no legal move the board is
returned unchanged.  No `Minimax` score from the full window equals the
sentinel `INT_MIN`. -/
theorem AIMakeMove_legal_or_none (b : Board) :
    (((makeMoveScan b).moveFound && (makeMoveScan b).bestX != -1 &&
        (makeMoveScan b).bestY != -1) = true ↔
      ∃ x y : Int, Is_Within_Boundaries x y = true ∧ (CanPlace b x y false).1 = true) ∧
    ((∃ x y : Int, Is_Within_Boundaries x y = true ∧ (CanPlace b x y false).1 = true) →
      Is_Within_Boundaries (makeMoveScan b).bestX (makeMoveScan b).bestY = true ∧
      (CanPlace b (makeMoveScan b).bestX (makeMoveScan b).bestY false).1 = true ∧
      AIMakeMove b = PlacePiece b (makeMoveScan b).bestX (makeMoveScan b).bestY ∧
      (AIMakeMove b).currentPlayer = opponentOf b.currentPlayer ∧
      (AIMakeMove b).currentPlayer ≠ b.currentPlayer) ∧
    ((¬ ∃ x y : Int, Is_Within_Boundaries x y = true ∧ (CanPlace b x y false).1 = true) →
      AIMakeMove b = b) ∧
    (∀ (d : Nat) (b' : Board) (flag : Bool), INT_MIN < Minimax d b' flag INT_MIN INT_MAX) := by
  have hspec := makeMoveScan_spec b
  have hyes : (∃ x y : Int, Is_Within_Boundaries x y = true ∧ (CanPlace b x y false).1 = true) →
      ((makeMoveScan b).moveFound && (makeMoveScan b).bestX != -1 &&
        (makeMoveScan b).bestY != -1) = true := by
    intro hex
    obtain ⟨hf, hx, hy, _⟩ := hspec.1 hex
    simp [hf, hx, hy]
  have hnot : (¬ ∃ x y : Int, Is_Within_Boundaries x y = true ∧ (CanPlace b x y false).1 = true) →
      ((makeMoveScan b).moveFound && (makeMoveScan b).bestX != -1 &&
        (makeMoveScan b).bestY != -1) = false := by
    intro hno
    rw [hspec.2 hno]
    rfl
  refine ⟨⟨fun h => ?_, hyes⟩, fun hex => ?_, fun hno => ?_, fun d b' flag => ?_⟩
  · by_contra hno
    rw [hnot hno] at h
    exact absurd h (by simp)
  · obtain ⟨_, _, _, hin, hleg, _⟩ := hspec.1 hex
    have hplay : AIMakeMove b = PlacePiece b (makeMoveScan b).bestX (makeMoveScan b).bestY := by
      unfold AIMakeMove
      simp only [hyes hex, if_true]
    have hturn := (PlacePiece_legal b hin hleg).1
    refine ⟨hin, hleg, hplay, by rw [hplay]; exact hturn, ?_⟩
    rw [hplay, hturn]
    exact opponentOf_ne _
  · unfold AIMakeMove
    simp only [hnot hno, Bool.false_eq_true, if_false]
  · exact lt_of_lt_of_le (by decide : INT_MIN < -9600) (Minimax_root_bounds d b' flag).1

/-- C7, instance: on the opening board the computer's cell is a legal one. -/
theorem AIMakeMove_legal_or_none_witness :
    (∃ x y : Int, Is_Within_Boundaries x y = true ∧ (CanPlace Board.new x y false).1 = true) ∧
    (CanPlace Board.new (makeMoveScan Board.new).bestX (makeMoveScan Board.new).bestY false).1
      = true ∧
    (AIMakeMove Board.new).currentPlayer = opponentOf Board.new.currentPlayer :=
  ⟨⟨2, 3, by decide, by decide⟩,
    ((AIMakeMove_legal_or_none Board.new).2.1 ⟨2, 3, by decide, by decide⟩).2.1,
    ((AIMakeMove_legal_or_none Board.new).2.1 ⟨2, 3, by decide, by decide⟩).2.2.2.1⟩

/-! ### `CheckGameOver` -/

theorem exists_inb_iff (P : Int → Int → Prop) :
    (∃ x y : Int, Is_Within_Boundaries x y = true ∧ P x y) ↔ ∃ c ∈ allCells, P c.1 c.2 := by
  constructor
  · rintro ⟨x, y, hin, h⟩
    obtain ⟨c, hc, rfl, rfl⟩ := inb_mem_allCells hin
    exact ⟨c, hc, h⟩
  · rintro ⟨c, hc, h⟩
    exact ⟨c.1, c.2, mem_allCells_inb hc, h⟩

/-- The colour probe of `CheckGameOver` answers for the probed colour and
restores the board. -/
theorem probe_eq (b : Board) (c : Cell) {x y : Int} (hin : Is_Within_Boundaries x y = true) :
    probe b c x y = (legalFor b c x y, b) := by
  unfold probe legalFor
  simp only [CanPlace_query_board { b with currentPlayer := c } hin]

theorem legalFor_nonempty (b : Board) (c : Cell) {x y : Int}
    (hin : Is_Within_Boundaries x y = true) (hne : cellAt b x y ≠ EMPTY) :
    legalFor b c x y = false := by
  unfold legalFor
  rw [← Bool.not_eq_true, CanPlace_query_fst _ hin]
  exact fun h => hne h.1

theorem CheckInv_step {b : Board} {done : List (Nat × Nat)} {st : CheckState} {c : Nat × Nat}
    (hinv : CheckInv b done st) (hc : c ∈ allCells) :
    CheckInv b (done ++ [c]) (checkCell c.2 st c.1) := by
  obtain ⟨hb, hbc, hwc, hbm, hwm⟩ := hinv
  have hin := mem_allCells_inb hc
  have hex : ∀ (col : Cell),
      (∃ c' ∈ done ++ [c], legalFor b col c'.1 c'.2 = true) ↔
        ((∃ c' ∈ done, legalFor b col c'.1 c'.2 = true) ∨ legalFor b col c.1 c.2 = true) := by
    intro col
    simp only [List.mem_append, List.mem_singleton]
    constructor
    · rintro ⟨c', h | h, hl⟩
      · exact Or.inl ⟨c', h, hl⟩
      · subst h; exact Or.inr hl
    · rintro (⟨c', h, hl⟩ | hl)
      · exact ⟨c', Or.inl h, hl⟩
      · exact ⟨c, Or.inr rfl, hl⟩
  unfold CheckInv
  rw [hex, hex, ← hbm, ← hwm]
  simp only [List.map_append, List.sum_append, List.map_cons, List.map_nil, List.sum_cons,
    List.sum_nil, add_zero, ← hbc, ← hwc]
  unfold checkCell
  simp only [hb]
  cases hcell : cellAt b c.1 c.2 with
  | Black_Disc =>
    have h1 := legalFor_nonempty b Black_Disc hin (by rw [hcell]; simp)
    have h2 := legalFor_nonempty b White_Disc hin (by rw [hcell]; simp)
    simp [hcell, hb, h1, h2]
  | White_Disc =>
    have h1 := legalFor_nonempty b Black_Disc hin (by rw [hcell]; simp)
    have h2 := legalFor_nonempty b White_Disc hin (by rw [hcell]; simp)
    simp [hcell, hb, h1, h2]
  | EMPTY =>
    simp only [hcell, reduceCtorEq, if_false, if_true, probe_eq b _ hin]
    cases hB : st.blackCanMove <;> cases hW : st.whiteCanMove <;>
      cases hlB : legalFor b Black_Disc c.1 c.2 <;>
      cases hlW : legalFor b White_Disc c.1 c.2 <;>
      simp [hb, hcell, hB, hW, hlB, hlW, probe_eq b _ hin]

theorem CheckInv_fold (b : Board) :
    ∀ (todo done : List (Nat × Nat)) (st : CheckState), CheckInv b done st →
      (∀ c ∈ todo, c ∈ allCells) →
      CheckInv b (done ++ todo)
        (todo.foldl (fun (st : CheckState) (c : Nat × Nat) => checkCell c.2 st c.1) st) := by
  intro todo
  induction todo with
  | nil => intro done st h _; simpa using h
  | cons c t ih =>
    intro done st h hmem
    have hstep := CheckInv_step h (hmem c (by simp))
    have e : done ++ c :: t = (done ++ [c]) ++ t := by simp
    rw [List.foldl_cons, e]
    exact ih (done ++ [c]) _ hstep (fun c' hc' => hmem c' (List.mem_cons_of_mem _ hc'))

/-- The loops of `Game::CheckGameOver`: the board is as before, the counters
are the disc counts, and each mobility flag answers for its colour. -/
theorem checkScan_spec (b : Board) :
    (checkScan b).board = b ∧
    (checkScan b).blackCount = (countDiscs b).1 ∧
    (checkScan b).whiteCount = (countDiscs b).2 ∧
    ((checkScan b).blackCanMove = true ↔
      ∃ x y : Int, Is_Within_Boundaries x y = true ∧ legalFor b Black_Disc x y = true) ∧
    ((checkScan b).whiteCanMove = true ↔
      ∃ x y : Int, Is_Within_Boundaries x y = true ∧ legalFor b White_Disc x y = true) := by
  have h := CheckInv_fold b allCells []
    { board := b, blackCount := 0, whiteCount := 0, blackCanMove := false, whiteCanMove := false }
    ⟨rfl, rfl, rfl, by simp, by simp⟩ (fun c hc => hc)
  have e : checkScan b = allCells.foldl
      (fun (st : CheckState) (c : Nat × Nat) => checkCell c.2 st c.1)
      { board := b, blackCount := 0, whiteCount := 0, blackCanMove := false,
        whiteCanMove := false } := by
    unfold checkScan
    exact nested_fold_eq (fun st x y => checkCell y st x) _
  rw [← e] at h
  obtain ⟨h1, h2, h3, h4, h5⟩ := h
  rw [countDiscs_eq]
  refine ⟨h1, h2, h3, ?_, ?_⟩
  · rw [h4, exists_inb_iff (fun x y => legalFor b Black_Disc x y = true)]
    simp
  · rw [h5, exists_inb_iff (fun x y => legalFor b White_Disc x y = true)]
    simp

/-- C8. Termination correctness of `Game::CheckGameOver`: on a board on which
neither Black nor White has a legal move, it sets `gameOver = true`, sets
`result` to `BLACK_WINS`, `WHITE_WINS` or `DRAW` as the Black disc count is
greater than, smaller than or equal to the White disc count, and leaves the
grid and `currentPlayer` unchanged. -/
theorem CheckGameOver_no_moves (g : Game)
    (hno : ∀ x y : Int, Is_Within_Boundaries x y = true →
      legalFor g.board Black_Disc x y = false ∧ legalFor g.board White_Disc x y = false) :
    (CheckGameOver g).gameOver = true ∧
    ((countDiscs g.board).1 > (countDiscs g.board).2 → (CheckGameOver g).result = BLACK_WINS) ∧
    ((countDiscs g.board).2 > (countDiscs g.board).1 → (CheckGameOver g).result = WHITE_WINS) ∧
    ((countDiscs g.board).1 = (countDiscs g.board).2 → (CheckGameOver g).result = DRAW) ∧
    (CheckGameOver g).board = g.board := by
  obtain ⟨h1, h2, h3, h4, h5⟩ := checkScan_spec g.board
  have hB : (checkScan g.board).blackCanMove = false := by
    rw [← Bool.not_eq_true, h4]
    rintro ⟨x, y, hin, hl⟩
    rw [(hno x y hin).1] at hl
    exact absurd hl (by simp)
  have hW : (checkScan g.board).whiteCanMove = false := by
    rw [← Bool.not_eq_true, h5]
    rintro ⟨x, y, hin, hl⟩
    rw [(hno x y hin).2] at hl
    exact absurd hl (by simp)
  unfold CheckGameOver
  simp only [hB, hW, Bool.not_false, Bool.and_self, if_true, h1, h2, h3]
  refine ⟨trivial, fun h => ?_, fun h => ?_, fun h => ?_, trivial⟩
  · rw [if_pos h]
  · rw [if_neg (by omega), if_pos h]
  · rw [if_neg (by omega), if_neg (by omega)]

theorem fullBoard_no_moves (n : Nat) (p : Cell) :
    ∀ x y : Int, Is_Within_Boundaries x y = true →
      legalFor { fullBoard n with currentPlayer := p } Black_Disc x y = false ∧
      legalFor { fullBoard n with currentPlayer := p } White_Disc x y = false := by
  intro x y hin
  have hne : cellAt { fullBoard n with currentPlayer := p } x y ≠ EMPTY := by
    simp only [cellAt, hin, dif_pos, fullBoard]
    split <;> simp
  exact ⟨legalFor_nonempty _ _ hin hne, legalFor_nonempty _ _ hin hne⟩

/-- C8, instances: a full board with 34 Black and 30 White discs ends as
`BLACK_WINS`, one with 32 of each as `DRAW`. -/
theorem CheckGameOver_no_moves_witness :
    (countDiscs (fullBoard 34) = (34, 30) ∧
      (CheckGameOver ⟨fullBoard 34, false, false, NONE⟩).gameOver = true ∧
      (CheckGameOver ⟨fullBoard 34, false, false, NONE⟩).result = BLACK_WINS ∧
      (CheckGameOver ⟨fullBoard 34, false, false, NONE⟩).board = fullBoard 34) ∧
    (countDiscs (fullBoard 32) = (32, 32) ∧
      (CheckGameOver ⟨fullBoard 32, false, false, NONE⟩).gameOver = true ∧
      (CheckGameOver ⟨fullBoard 32, false, false, NONE⟩).result = DRAW) :=
  ⟨⟨by decide,
      (CheckGameOver_no_moves ⟨fullBoard 34, false, false, NONE⟩
        (fullBoard_no_moves 34 Black_Disc)).1,
      (CheckGameOver_no_moves ⟨fullBoard 34, false, false, NONE⟩
        (fullBoard_no_moves 34 Black_Disc)).2.1 (by decide),
      (CheckGameOver_no_moves ⟨fullBoard 34, false, false, NONE⟩
        (fullBoard_no_moves 34 Black_Disc)).2.2.2.2⟩,
    ⟨by decide,
      (CheckGameOver_no_moves ⟨fullBoard 32, false, false, NONE⟩
        (fullBoard_no_moves 32 Black_Disc)).1,
      (CheckGameOver_no_moves ⟨fullBoard 32, false, false, NONE⟩
        (fullBoard_no_moves 32 Black_Disc)).2.2.2.1 (by decide)⟩⟩

/-- C9. Pass handling of `Game::CheckGameOver`: on a board on which at least one
colour has a legal move, with Black or White to move, `gameOver`, `result` and
every grid cell are left unchanged; `currentPlayer` becomes the other colour if
the side to move has no legal move, and is left unchanged if it has one. -/
theorem CheckGameOver_pass (g : Game)
    (hp : g.board.currentPlayer = Black_Disc ∨ g.board.currentPlayer = White_Disc)
    (hsome : ∃ x y : Int, Is_Within_Boundaries x y = true ∧
      (legalFor g.board Black_Disc x y = true ∨ legalFor g.board White_Disc x y = true)) :
    (CheckGameOver g).gameOver = g.gameOver ∧
    (CheckGameOver g).result = g.result ∧
    (CheckGameOver g).board.board = g.board.board ∧
    ((¬ ∃ x y : Int, Is_Within_Boundaries x y = true ∧
          legalFor g.board g.board.currentPlayer x y = true) →
      (CheckGameOver g).board.currentPlayer = opponentOf g.board.currentPlayer ∧
      (CheckGameOver g).board.currentPlayer ≠ g.board.currentPlayer) ∧
    ((∃ x y : Int, Is_Within_Boundaries x y = true ∧
          legalFor g.board g.board.currentPlayer x y = true) →
      (CheckGameOver g).board = g.board) := by
  obtain ⟨⟨grid, cur⟩, vs, go, res⟩ := g
  dsimp only at hp hsome ⊢
  obtain ⟨h1, h2, h3, h4, h5⟩ := checkScan_spec ⟨grid, cur⟩
  have hnot : ¬ ((!(checkScan ⟨grid, cur⟩).blackCanMove &&
      !(checkScan ⟨grid, cur⟩).whiteCanMove) = true) := by
    obtain ⟨x, y, hin, hl | hl⟩ := hsome
    · have := h4.2 ⟨x, y, hin, hl⟩
      simp [this]
    · have := h5.2 ⟨x, y, hin, hl⟩
      simp [this]
  unfold CheckGameOver
  dsimp only
  generalize checkScan ⟨grid, cur⟩ = st at h1 h2 h3 h4 h5 hnot ⊢
  simp only [hnot, if_false, h1]
  rcases hp with rfl | rfl
  · cases hB : st.blackCanMove
    · have hnoB : ¬ ∃ x y : Int, Is_Within_Boundaries x y = true ∧
          legalFor ⟨grid, Black_Disc⟩ Black_Disc x y = true := by
        rw [← h4, hB]; simp
      simp only [decide_True, Bool.not_false, Bool.and_self, Bool.true_or, if_true]
      exact ⟨rfl, rfl, rfl, fun _ => ⟨rfl, by simp [opponentOf]⟩,
        fun h => absurd h hnoB⟩
    · have hyesB := h4.1 hB
      simp only [decide_True, Bool.not_true, Bool.and_false, reduceCtorEq, decide_False,
        Bool.false_and, Bool.or_self, Bool.false_eq_true, if_false]
      exact ⟨trivial, trivial, trivial, fun h => absurd hyesB h, fun _ => trivial⟩
  · cases hW : st.whiteCanMove
    · have hnoW : ¬ ∃ x y : Int, Is_Within_Boundaries x y = true ∧
          legalFor ⟨grid, White_Disc⟩ White_Disc x y = true := by
        rw [← h5, hW]; simp
      simp only [decide_True, Bool.not_false, Bool.and_self, Bool.or_true, if_true]
      exact ⟨rfl, rfl, rfl, fun _ => ⟨rfl, by simp [opponentOf]⟩,
        fun h => absurd h hnoW⟩
    · have hyesW := h5.1 hW
      simp only [decide_True, Bool.not_true, Bool.and_false, reduceCtorEq, decide_False,
        Bool.false_and, Bool.or_self, Bool.false_eq_true, if_false]
      exact ⟨trivial, trivial, trivial, fun h => absurd hyesW h, fun _ => trivial⟩

theorem passBoard_white_stuck :
    ¬ ∃ x y : Int, Is_Within_Boundaries x y = true ∧
      legalFor (passBoard White_Disc) (passBoard White_Disc).currentPlayer x y = true := by
  rw [exists_inb_iff (fun x y =>
    legalFor (passBoard White_Disc) (passBoard White_Disc).currentPlayer x y = true)]
  decide

/-- C9, instance: White to move with no legal move while Black has one (Black
disc on `(0,0)`, White disc on `(1,0)`): the turn goes back to Black and the
game does not end. -/
theorem CheckGameOver_pass_witness :
    ((passBoard White_Disc).currentPlayer = White_Disc ∧
      legalFor (passBoard White_Disc) Black_Disc 2 0 = true) ∧
    (CheckGameOver ⟨passBoard White_Disc, true, false, NONE⟩).gameOver = false ∧
    (CheckGameOver ⟨passBoard White_Disc, true, false, NONE⟩).result = NONE ∧
    (CheckGameOver ⟨passBoard White_Disc, true, false, NONE⟩).board.board
      = (passBoard White_Disc).board ∧
    (CheckGameOver ⟨passBoard White_Disc, true, false, NONE⟩).board.currentPlayer
      = opponentOf White_Disc :=
  ⟨⟨by decide, by decide⟩,
    (CheckGameOver_pass ⟨passBoard White_Disc, true, false, NONE⟩ (Or.inr (by decide))
      ⟨2, 0, by decide, Or.inl (by decide)⟩).1,
    (CheckGameOver_pass ⟨passBoard White_Disc, true, false, NONE⟩ (Or.inr (by decide))
      ⟨2, 0, by decide, Or.inl (by decide)⟩).2.1,
    (CheckGameOver_pass ⟨passBoard White_Disc, true, false, NONE⟩ (Or.inr (by decide))
      ⟨2, 0, by decide, Or.inl (by decide)⟩).2.2.1,
    ((CheckGameOver_pass ⟨passBoard White_Disc, true, false, NONE⟩ (Or.inr (by decide))
      ⟨2, 0, by decide, Or.inl (by decide)⟩).2.2.2.1 passBoard_white_stuck).1⟩

/-! ### `HasValidMove` -/

theorem CanPlace_flip_illegal (b : Board) {x y : Int} (hin : Is_Within_Boundaries x y = true)
    (hillegal : (CanPlace b x y false).1 = false) : CanPlace b x y true = (false, b) := by
  have hfl : (CanPlace b x y true).1 = false := by
    rw [(CanPlace_flip_spec b hin).1]; exact hillegal
  have e : PlacePiece b x y = (CanPlace b x y true).2 := by
    unfold PlacePiece
    simp only [hfl, Bool.false_eq_true, if_false]
  have h2 : (CanPlace b x y true).2 = b := by
    rw [← e]; exact PlacePiece_illegal b hin hillegal
  exact Prod.ext hfl h2

theorem CanPlace_mode_illegal (b : Board) {x y : Int} (hin : Is_Within_Boundaries x y = true)
    (hillegal : (CanPlace b x y false).1 = false) (mode : Bool) :
    CanPlace b x y mode = (false, b) := by
  cases mode with
  | true => exact CanPlace_flip_illegal b hin hillegal
  | false => exact Prod.ext hillegal (CanPlace_query_board b hin)

theorem CanPlace_mode_fst (b : Board) {x y : Int} (hin : Is_Within_Boundaries x y = true)
    (mode : Bool) : (CanPlace b x y mode).1 = (CanPlace b x y false).1 := by
  cases mode with
  | true => exact (CanPlace_flip_spec b hin).1
  | false => rfl

/-- Whatever its argument, the loop of `HasValidMove` reports whether
`currentPlayer` has a legal move among the cells it visits. -/
theorem hasValidMoveLoop_fst (isWhite : Bool) :
    ∀ (l : List (Nat × Nat)) (b : Board), (∀ c ∈ l, c ∈ allCells) →
      ((hasValidMoveLoop isWhite l b).1 = true ↔
        ∃ c ∈ l, (CanPlace b c.1 c.2 false).1 = true) := by
  intro l
  induction l with
  | nil => intro b _; simp [hasValidMoveLoop]
  | cons c t ih =>
    intro b hmem
    obtain ⟨x, y⟩ := c
    have hin := mem_allCells_inb (hmem (x, y) (by simp))
    have ht : ∀ c' ∈ t, c' ∈ allCells := fun c' hc' => hmem c' (List.mem_cons_of_mem _ hc')
    simp only [List.mem_cons, exists_eq_or_imp]
    rw [hasValidMoveLoop]
    cases hleg : (CanPlace b x y false).1 with
    | true =>
      have he := ((CanPlace_query_fst b hin).1 hleg).1
      have hm : (CanPlace b x y isWhite).1 = true := by rw [CanPlace_mode_fst b hin]; exact hleg
      simp only at he
      simp [he, hm]
    | false =>
      have hm := CanPlace_mode_illegal b hin hleg isWhite
      simp only at hm
      by_cases he : cellAt b x y = EMPTY
      · simp only [he, if_true, hm, Bool.false_eq_true, if_false, false_or]
        exact ih b ht
      · simp only [he, if_false, Bool.false_eq_true, false_or]
        exact ih b ht

/-- C10 (the code at a failing input). `HasValidMove` answers for
`currentPlayer`, not for the colour it is asked about: for every board and
either argument it returns true exactly when `currentPlayer` has a legal move.
On the board with a Black disc on `(0,0)` and a White disc on `(1,0)`: with
White to move, `HasValidMove(false)` (asked about Black) returns false although
Black can play `(2,0)`; with Black to move, `HasValidMove(true)` (asked about
White) returns true although White has no legal placement. -/
theorem HasValidMove_answers_for_currentPlayer :
    (∀ (b : Board) (isWhite : Bool),
      (HasValidMove b isWhite).1 = true ↔
        ∃ x y : Int, Is_Within_Boundaries x y = true ∧ (CanPlace b x y false).1 = true) ∧
    ((HasValidMove (passBoard White_Disc) false).1 = false ∧
      cellAt (passBoard White_Disc) 2 0 = EMPTY ∧
      legalFor (passBoard White_Disc) Black_Disc 2 0 = true) ∧
    ((HasValidMove (passBoard Black_Disc) true).1 = true ∧
      ¬ ∃ x y : Int, Is_Within_Boundaries x y = true ∧
        legalFor (passBoard Black_Disc) White_Disc x y = true) := by
  refine ⟨fun b isWhite => ?_, ⟨by decide, by decide, by decide⟩, by decide, ?_⟩
  · unfold HasValidMove
    rw [hasValidMoveLoop_fst isWhite allCells b (fun c hc => hc),
      exists_inb_iff (fun x y => (CanPlace b x y false).1 = true)]
  · rw [exists_inb_iff (fun x y => legalFor (passBoard Black_Disc) White_Disc x y = true)]
    decide

/-- What the loop of `HasValidMove` does to the board: nothing in query mode
and nothing when `currentPlayer` has no legal move among the cells visited; in
flip mode with a legal cell among them, the board comes back changed. -/
theorem hasValidMoveLoop_snd (isWhite : Bool) :
    ∀ (l : List (Nat × Nat)) (b : Board), (∀ c ∈ l, c ∈ allCells) →
      (isWhite = false → (hasValidMoveLoop isWhite l b).2 = b) ∧
      ((∀ c ∈ l, (CanPlace b c.1 c.2 false).1 = false) → (hasValidMoveLoop isWhite l b).2 = b) ∧
      (isWhite = true → (∃ c ∈ l, (CanPlace b c.1 c.2 false).1 = true) →
        (hasValidMoveLoop isWhite l b).2 ≠ b) := by
  intro l
  induction l with
  | nil => intro b _; simp [hasValidMoveLoop]
  | cons c t ih =>
    intro b hmem
    obtain ⟨x, y⟩ := c
    have hin := mem_allCells_inb (hmem (x, y) (by simp))
    have ht : ∀ c' ∈ t, c' ∈ allCells := fun c' hc' => hmem c' (List.mem_cons_of_mem _ hc')
    obtain ⟨ih1, ih2, ih3⟩ := ih b ht
    rw [hasValidMoveLoop]
    cases hleg : (CanPlace b x y false).1 with
    | true =>
      have he := ((CanPlace_query_fst b hin).1 hleg).1
      have hm : (CanPlace b x y isWhite).1 = true := by rw [CanPlace_mode_fst b hin]; exact hleg
      simp only at he
      simp only [he, if_true, hm]
      refine ⟨fun hw => ?_, fun hno => ?_, fun hw _ => ?_⟩
      · subst hw; exact CanPlace_query_board b hin
      · have := hno (x, y) (by simp)
        simp only at this
        rw [hleg] at this
        exact absurd this (by simp)
      · subst hw
        obtain ⟨_, cx, cy, hcap⟩ := legal_exists_captured hin hleg
        intro heq
        have h1 := ((CanPlace_flip_spec b hin).2.2 cx cy).1 he hcap
        rw [heq, (Captured_before hcap).2] at h1
        exact opponentOf_ne _ h1
    | false =>
      have hm := CanPlace_mode_illegal b hin hleg isWhite
      simp only at hm
      have hstep : (if cellAt b x y = EMPTY then
            if (CanPlace b x y isWhite).1 = true then (true, (CanPlace b x y isWhite).2)
            else hasValidMoveLoop isWhite t (CanPlace b x y isWhite).2
          else hasValidMoveLoop isWhite t b) = hasValidMoveLoop isWhite t b := by
        by_cases he : cellAt b x y = EMPTY
        · simp only [he, if_true, hm, Bool.false_eq_true, if_false]
        · simp only [he, if_false]
      rw [hstep]
      refine ⟨ih1, fun hno => ih2 (fun c' hc' => hno c' (List.mem_cons_of_mem _ hc')),
        fun hw hex => ih3 hw ?_⟩
      obtain ⟨c', hc', hl'⟩ := hex
      rcases List.mem_cons.1 hc' with h | h
      · subst h
        simp only at hl'
        rw [hleg] at hl'
        exact absurd hl' (by simp)
      · exact ⟨c', h, hl'⟩

/-- C11 (the code at a failing input). `HasValidMove` is read-only only when its
argument is false or `currentPlayer` has no legal move.  Called with `true` on
a board on which `currentPlayer` has a legal move, it returns the board with
the discs captured from the first legal cell recoloured (and no disc placed):
on the opening board `HasValidMove(true)` turns the White disc on `(3, 3)` Black. -/
theorem HasValidMove_true_recolours :
    (∀ b : Board, (HasValidMove b false).2 = b) ∧
    (∀ b : Board, (HasValidMove b true).2 ≠ b ↔
      ∃ x y : Int, Is_Within_Boundaries x y = true ∧ (CanPlace b x y false).1 = true) ∧
    ((HasValidMove Board.new true).2 ≠ Board.new ∧
      cellAt Board.new 3 3 = White_Disc ∧
      cellAt (HasValidMove Board.new true).2 3 3 = Black_Disc ∧
      cellAt (HasValidMove Board.new true).2 3 2 = EMPTY ∧
      (HasValidMove Board.new true).2.currentPlayer = Black_Disc) := by
  refine ⟨fun b => ?_, fun b => ?_, by decide, by decide, by decide, by decide, by decide⟩
  · exact (hasValidMoveLoop_snd false allCells b (fun c hc => hc)).1 rfl
  · obtain ⟨_, h2, h3⟩ := hasValidMoveLoop_snd true allCells b (fun c hc => hc)
    rw [exists_inb_iff (fun x y => (CanPlace b x y false).1 = true)]
    constructor
    · intro hne
      by_contra hno
      apply hne
      apply h2
      intro c hc
      rw [← Bool.not_eq_true]
      exact fun hl => hno ⟨c, hc, hl⟩
    · exact fun hex => h3 rfl hex

/-! ### The static evaluator -/

theorem eval_fold_eq (b : Board) :
    ∀ (l : List (Nat × Nat)) (acc : Int × Int),
      l.foldl (fun (acc : Int × Int) (c : Nat × Nat) =>
        if cellAt b c.1 c.2 = Black_Disc then (acc.1 + weightAt c.2 c.1, acc.2)
        else if cellAt b c.1 c.2 = White_Disc then (acc.1, acc.2 + weightAt c.2 c.1)
        else acc) acc
      = (acc.1 + (l.map (fun p => if cellAt b p.1 p.2 = Black_Disc then weightAt p.2 p.1 else 0)).sum,
         acc.2 + (l.map (fun p => if cellAt b p.1 p.2 = White_Disc then weightAt p.2 p.1 else 0)).sum) := by
  intro l
  induction l with
  | nil => intro acc; simp
  | cons c t ih =>
    intro acc
    rw [List.foldl_cons, ih]
    cases h : cellAt b c.1 c.2 <;> simp [h, add_assoc]

/-- C12. Static evaluator: `EvaluateBoard` is the sum of `weight[y][x]` over the
cells holding Black minus the same sum over the cells holding White (cells
holding `EMPTY` add nothing); the table is the one described by `weightSpec`
(100 corners, -20 and -50 around them, 10 and 5 on the rest of the edge, -2 on
the rest of the second ring, 0 inside); the opening board evaluates to 0. -/
theorem EvaluateBoard_spec :
    (∀ b : Board, EvaluateBoard b = weightedSum b Black_Disc - weightedSum b White_Disc) ∧
    (∀ y x : Nat, y < 8 → x < 8 → weightAt y x = weightSpec y x) ∧
    (∀ b : Board, (∀ x y : Int, Is_Within_Boundaries x y = true → cellAt b x y = EMPTY) →
      EvaluateBoard b = 0) ∧
    EvaluateBoard Board.new = 0 := by
  have hsum : ∀ b : Board,
      EvaluateBoard b = weightedSum b Black_Disc - weightedSum b White_Disc := by
    intro b
    unfold EvaluateBoard
    rw [nested_fold_eq (fun (acc : Int × Int) x y =>
          if cellAt b x y = Black_Disc then (acc.1 + weightAt y x, acc.2)
          else if cellAt b x y = White_Disc then (acc.1, acc.2 + weightAt y x)
          else acc), eval_fold_eq]
    simp [weightedSum]
  refine ⟨hsum, ?_, fun b hempty => ?_, by decide⟩
  · intro y x hy hx
    interval_cases y <;> interval_cases x <;> rfl
  · have hz : ∀ c : Cell, c ≠ EMPTY → weightedSum b c = 0 := by
      intro c hc
      unfold weightedSum
      apply List.sum_eq_zero
      intro v hv
      obtain ⟨p, hp, rfl⟩ := List.mem_map.1 hv
      rw [hempty _ _ (mem_allCells_inb hp), if_neg (fun h => hc h.symm)]
    rw [hsum, hz _ (by simp), hz _ (by simp)]
    rfl

/-- C12, instance: the weights of the corner `(0,0)`, of its neighbours `(1,0)`
and `(1,1)`, of the edge cells `(2,0)` and `(3,0)`, of the second-ring cell
`(2,1)` and of the inner cell `(2,2)` (as `weight[y][x]`). -/
theorem EvaluateBoard_spec_witness :
    weightAt 0 0 = 100 ∧ weightAt 0 1 = -20 ∧ weightAt 1 1 = -50 ∧ weightAt 0 2 = 10 ∧
    weightAt 0 3 = 5 ∧ weightAt 1 2 = -2 ∧ weightAt 2 2 = 0 ∧
    weightAt 0 0 = weightSpec 0 0 ∧ EvaluateBoard Board.new = 0 :=
  ⟨by decide, by decide, by decide, by decide, by decide, by decide, by decide,
    EvaluateBoard_spec.2.1 0 0 (by decide) (by decide), EvaluateBoard_spec.2.2.2⟩

/-! ### Fresh board -/

/-- C13. Fresh board invariant: the board made by the `Board` constructor has
`board[3][3] = White`, `board[3][4] = Black`, `board[4][3] = Black`,
`board[4][4] = White`, every other cell `EMPTY` (so exactly 4 non-`EMPTY` cells,
2 Black and 2 White) and `currentPlayer = Black`; a new `Game` holds it, and
`ResetToMenu` installs it again and sets `gameOver = false`, `result = NONE`
and the phase to `MENU`. -/
theorem fresh_board :
    (∀ r c : Fin 8, Board.new.board r c =
      if r = 3 ∧ c = 3 then White_Disc
      else if r = 3 ∧ c = 4 then Black_Disc
      else if r = 4 ∧ c = 3 then Black_Disc
      else if r = 4 ∧ c = 4 then White_Disc
      else EMPTY) ∧
    occupied Board.new = 4 ∧ countDiscs Board.new = (2, 2) ∧
    Board.new.currentPlayer = Black_Disc ∧
    Game.new.board = Board.new ∧
    (∀ g : Game, (ResetToMenu g).1.board = Board.new ∧ (ResetToMenu g).1.gameOver = false ∧
      (ResetToMenu g).1.result = NONE ∧ (ResetToMenu g).2 = GameState.MENU) := by
  refine ⟨by decide, by decide, by decide, by decide, rfl, fun g => ⟨rfl, rfl, rfl, rfl⟩⟩

/-! ### The search hands back the board it was given -/

theorem isLegal_eq (b : Board) (x y : Int) :
    isLegal b x y = (decide (cellAt b x y = EMPTY) && (CanPlace b x y false).1) := rfl

theorem minimaxRowRef_eq {recRef : Board → Bool → Int → Int → Int × Board}
    {rec : Board → Bool → Int → Int → Int}
    (hrec : ∀ (bd : Board) (flag : Bool) (al be : Int), recRef bd flag al be = (rec bd flag al be, bd))
    (isMax : Bool) (b : Board) {y : Nat} (hy : y < 8) :
    ∀ (xs : List Nat) (st : SearchState), (∀ x ∈ xs, x < 8) →
      minimaxRowRef recRef isMax y xs (st, b) = (minimaxRow rec b isMax y xs st, b) := by
  intro xs
  induction xs with
  | nil => intro st _; rfl
  | cons x t ih =>
    intro st hx
    have hin : Is_Within_Boundaries (x : Int) (y : Int) = true := by
      have := hx x (by simp)
      rw [inb_iff]; omega
    have ht : ∀ x' ∈ t, x' < 8 := fun x' hx' => hx x' (List.mem_cons_of_mem _ hx')
    rw [minimaxRowRef, minimaxRow, isLegal_eq]
    simp only [CanPlace_query_board b hin, hrec]
    by_cases he : cellAt b x y = EMPTY
    · simp only [he, if_true, decide_True, Bool.true_and]
      by_cases hl : (CanPlace b x y false).1 = true
      · simp only [hl, if_true]
        split
        · rfl
        · exact ih _ ht
      · simp only [hl, if_false, Bool.false_eq_true]
        exact ih _ ht
    · simp only [he, if_false, decide_False, Bool.false_and, Bool.false_eq_true]
      exact ih _ ht

theorem rowsRef_eq {recRef : Board → Bool → Int → Int → Int × Board}
    {rec : Board → Bool → Int → Int → Int}
    (hrec : ∀ (bd : Board) (flag : Bool) (al be : Int), recRef bd flag al be = (rec bd flag al be, bd))
    (isMax : Bool) (b : Board) :
    ∀ (ys : List Nat) (st : SearchState), (∀ y ∈ ys, y < 8) →
      ys.foldl (fun (s : SearchState × Board) (y : Nat) =>
          minimaxRowRef recRef isMax y (List.range 8) s) (st, b)
        = (ys.foldl (fun (st : SearchState) (y : Nat) =>
            minimaxRow rec b isMax y (List.range 8) st) st, b) := by
  intro ys
  induction ys with
  | nil => intro st _; rfl
  | cons y t ih =>
    intro st hy
    rw [List.foldl_cons, List.foldl_cons,
      minimaxRowRef_eq hrec isMax b (hy y (by simp)) (List.range 8) st
        (fun x hx => List.mem_range.1 hx)]
    exact ih _ (fun y' hy' => hy y' (List.mem_cons_of_mem _ hy'))

theorem ite_pair {α β : Type} (c : Prop) [Decidable c] (a a' : α) (b : β) :
    (if c then (a, b) else (a', b)) = ((if c then a else a'), b) := by
  split <;> rfl

/-- The search returns the board it was given, and the score of `Minimax`. -/
theorem MinimaxRef_eq :
    ∀ (d : Nat) (b : Board) (isMax : Bool) (al be : Int),
      MinimaxRef d b isMax al be = (Minimax d b isMax al be, b) := by
  intro d
  induction d with
  | zero => intro b isMax al be; rfl
  | succ n ih =>
    intro b isMax al be
    rw [MinimaxRef, Minimax]
    simp only [rowsRef_eq ih isMax b (List.range 8) _ (fun y hy => List.mem_range.1 hy)]
    exact ite_pair _ _ _ b

theorem makeMoveStepRef_eq (b : Board) {x y : Nat} (hx : x < 8) (hy : y < 8) (st : MoveState) :
    makeMoveStepRef y (st, b) x = (makeMoveStep b y st x, b) := by
  have hin : Is_Within_Boundaries (x : Int) (y : Int) = true := by
    rw [inb_iff]; omega
  rw [makeMoveStepRef, makeMoveStep, isLegal_eq]
  simp only [CanPlace_query_board b hin, MinimaxRef_eq]
  by_cases he : cellAt b x y = EMPTY
  · simp only [he, if_true, decide_True, Bool.true_and]
    by_cases hl : (CanPlace b x y false).1 = true
    · simp only [hl, if_true]
      split <;> rfl
    · simp only [hl, if_false, Bool.false_eq_true]
  · simp only [he, if_false, decide_False, Bool.false_and, Bool.false_eq_true]

/-- The scoring loops of `MakeMove` return the board they were given. -/
theorem makeMoveScanRef_eq (b : Board) : makeMoveScanRef b = (makeMoveScan b, b) := by
  have hrow : ∀ (y : Nat), y < 8 → ∀ (xs : List Nat) (st : MoveState), (∀ x ∈ xs, x < 8) →
      xs.foldl (makeMoveStepRef y) (st, b) = (xs.foldl (makeMoveStep b y) st, b) := by
    intro y hy xs
    induction xs with
    | nil => intro st _; rfl
    | cons x t ih =>
      intro st hx
      rw [List.foldl_cons, List.foldl_cons, makeMoveStepRef_eq b (hx x (by simp)) hy]
      exact ih _ (fun x' hx' => hx x' (List.mem_cons_of_mem _ hx'))
  have hrows : ∀ (ys : List Nat) (st : MoveState), (∀ y ∈ ys, y < 8) →
      ys.foldl (fun (s : MoveState × Board) (y : Nat) =>
          (List.range 8).foldl (makeMoveStepRef y) s) (st, b)
        = (ys.foldl (fun (st : MoveState) (y : Nat) =>
            (List.range 8).foldl (makeMoveStep b y) st) st, b) := by
    intro ys
    induction ys with
    | nil => intro st _; rfl
    | cons y t ih =>
      intro st hy
      rw [List.foldl_cons, List.foldl_cons,
        hrow y (hy y (by simp)) (List.range 8) st (fun x hx => List.mem_range.1 hx)]
      exact ih _ (fun y' hy' => hy y' (List.mem_cons_of_mem _ hy'))
  exact hrows (List.range 8) _ (fun y hy => List.mem_range.1 hy)

/-! ### Query mode and apply mode -/

/-- C15. Query mode and apply mode of the legality check agree: on an on-board
cell `CanPlace(x, y, true)` returns the same flag as `CanPlace(x, y, false)`
(and so does `TryFlip` in each of the 8 directions); `CanPlace(x, y, false)`
and `TryFlip(…, false)` leave the grid and `currentPlayer` unchanged; hence
`PlacePiece(x, y)` changes the board exactly when `CanPlace(x, y, false)` holds. -/
theorem query_and_apply_agree (b : Board) (x y : Int) (hin : Is_Within_Boundaries x y = true) :
    (CanPlace b x y true).1 = (CanPlace b x y false).1 ∧
    (∀ dx dy : Int, Dir dx dy →
      (TryFlip b x y dx dy true).1 = (TryFlip b x y dx dy false).1) ∧
    (CanPlace b x y false).2 = b ∧
    (∀ dx dy : Int, (TryFlip b x y dx dy false).2 = b) ∧
    (PlacePiece b x y ≠ b ↔ (CanPlace b x y false).1 = true) := by
  refine ⟨(CanPlace_flip_spec b hin).1, fun dx dy hd => ?_, CanPlace_query_board b hin,
    fun dx dy => TryFlip_query_board b x y dx dy, ?_⟩
  · rw [Bool.eq_iff_iff, TryFlip_fst_iff b true hin hd, TryFlip_fst_iff b false hin hd]
  · constructor
    · intro hne
      by_contra hno
      exact hne (PlacePiece_illegal b hin (by simpa using hno))
    · intro hleg heq
      have hturn := (PlacePiece_legal b hin hleg).1
      rw [heq] at hturn
      exact opponentOf_ne _ hturn.symm

/-- C15, instance: the opening board at the legal cell `(2, 3)` and at the
illegal cell `(0, 0)`. -/
theorem query_and_apply_agree_witness :
    (Is_Within_Boundaries 2 3 = true ∧ Is_Within_Boundaries 0 0 = true) ∧
    (CanPlace Board.new 2 3 true).1 = (CanPlace Board.new 2 3 false).1 ∧
    (CanPlace Board.new 2 3 false).2 = Board.new ∧
    PlacePiece Board.new 2 3 ≠ Board.new ∧
    ¬ (PlacePiece Board.new 0 0 ≠ Board.new) :=
  ⟨⟨by decide, by decide⟩,
    (query_and_apply_agree Board.new 2 3 (by decide)).1,
    (query_and_apply_agree Board.new 2 3 (by decide)).2.2.1,
    (query_and_apply_agree Board.new 2 3 (by decide)).2.2.2.2.2 (by decide),
    fun h => absurd ((query_and_apply_agree Board.new 0 0 (by decide)).2.2.2.2.1 h) (by decide)⟩

/-! ### Base cases of the search -/

theorem minimaxRow_no_legal (rec : Board → Bool → Int → Int → Int) (b : Board) (isMax : Bool)
    (y : Nat) :
    ∀ (xs : List Nat) (st : SearchState), (∀ x ∈ xs, isLegal b x y = false) →
      minimaxRow rec b isMax y xs st = st := by
  intro xs
  induction xs with
  | nil => intro st _; rfl
  | cons x t ih =>
    intro st h
    rw [minimaxRow, h x (by simp)]
    simp only [Bool.false_eq_true, if_false]
    exact ih st (fun x' hx' => h x' (List.mem_cons_of_mem _ hx'))

theorem rows_no_legal (rec : Board → Bool → Int → Int → Int) (b : Board) (isMax : Bool)
    (hno : ∀ x y : Int, Is_Within_Boundaries x y = true → (CanPlace b x y false).1 = false) :
    ∀ (ys : List Nat) (st : SearchState), (∀ y ∈ ys, y < 8) →
      ys.foldl (fun (st : SearchState) (y : Nat) => minimaxRow rec b isMax y (List.range 8) st) st
        = st := by
  intro ys
  induction ys with
  | nil => intro st _; rfl
  | cons y t ih =>
    intro st hy
    have hrow : minimaxRow rec b isMax y (List.range 8) st = st := by
      apply minimaxRow_no_legal
      intro x hx
      have hin : Is_Within_Boundaries (x : Int) (y : Int) = true := by
        have := List.mem_range.1 hx
        have := hy y (by simp)
        rw [inb_iff]; omega
      rw [isLegal_eq, hno _ _ hin, Bool.and_false]
    rw [List.foldl_cons, hrow]
    exact ih st (fun y' hy' => hy y' (List.mem_cons_of_mem _ hy'))

/-- C16. `Minimax` base cases: for every board, flag and window, `Minimax`
returns `EvaluateBoard(board)` at depth 0, and also at every depth `≥ 1` when
`currentPlayer` has no legal move; in that case its loops make no recursive
call (whatever function stands for the recursive call, they leave their state
untouched) and the board, side to move included, is handed back unchanged. -/
theorem Minimax_base_cases (b : Board) (isMax : Bool) (alpha beta : Int) :
    Minimax 0 b isMax alpha beta = EvaluateBoard b ∧
    ((∀ x y : Int, Is_Within_Boundaries x y = true → (CanPlace b x y false).1 = false) →
      ∀ d : Nat,
        Minimax (d + 1) b isMax alpha beta = EvaluateBoard b ∧
        (MinimaxRef (d + 1) b isMax alpha beta).2 = b ∧
        ∀ (rec : Board → Bool → Int → Int → Int) (st : SearchState),
          (List.range 8).foldl
            (fun (st : SearchState) (y : Nat) => minimaxRow rec b isMax y (List.range 8) st) st
            = st) := by
  refine ⟨rfl, fun hno d => ⟨?_, ?_, fun rec st => ?_⟩⟩
  · rw [Minimax]
    simp only [rows_no_legal (Minimax d) b isMax hno (List.range 8) _
      (fun y hy => List.mem_range.1 hy)]
    rfl
  · rw [MinimaxRef_eq]
  · exact rows_no_legal rec b isMax hno (List.range 8) st (fun y hy => List.mem_range.1 hy)

/-- C16, instance: a full board (34 Black, 30 White) has no legal move, so the
search at depth 3 returns its static evaluation. -/
theorem Minimax_base_cases_witness :
    (∀ x y : Int, Is_Within_Boundaries x y = true →
      (CanPlace (fullBoard 34) x y false).1 = false) ∧
    Minimax 0 (fullBoard 34) false INT_MIN INT_MAX = EvaluateBoard (fullBoard 34) ∧
    Minimax 3 (fullBoard 34) false INT_MIN INT_MAX = EvaluateBoard (fullBoard 34) :=
  ⟨fun x y hin => (fullBoard_no_moves 34 Black_Disc x y hin).1,
    (Minimax_base_cases (fullBoard 34) false INT_MIN INT_MAX).1,
    ((Minimax_base_cases (fullBoard 34) false INT_MIN INT_MAX).2
      (fun x y hin => (fullBoard_no_moves 34 Black_Disc x y hin).1) 2).1⟩

/-! ### The game-result invariant -/

theorem classify_ne_NONE (b : Board) : classify b ≠ NONE := by
  unfold classify
  split
  · simp
  · split <;> simp

/-- The two outcomes of `CheckGameOver`: the game ends (no colour can move), or
`gameOver` and `result` are left as they were. -/
theorem CheckGameOver_cases (g : Game) :
    ((∀ x y : Int, Is_Within_Boundaries x y = true →
        legalFor g.board Black_Disc x y = false ∧ legalFor g.board White_Disc x y = false) ∧
      (CheckGameOver g).gameOver = true ∧ (CheckGameOver g).result = classify g.board ∧
      (CheckGameOver g).board = g.board) ∨
    ((CheckGameOver g).gameOver = g.gameOver ∧ (CheckGameOver g).result = g.result ∧
      (CheckGameOver g).board.board = g.board.board) := by
  obtain ⟨h1, h2, h3, h4, h5⟩ := checkScan_spec g.board
  unfold CheckGameOver classify
  rw [← h2, ← h3]
  generalize checkScan g.board = st at h1 h4 h5 ⊢
  cases hB : st.blackCanMove <;> cases hW : st.whiteCanMove
  · left
    have hnB : ¬ ∃ x y : Int, Is_Within_Boundaries x y = true ∧
        legalFor g.board Black_Disc x y = true := by rw [← h4, hB]; simp
    have hnW : ¬ ∃ x y : Int, Is_Within_Boundaries x y = true ∧
        legalFor g.board White_Disc x y = true := by rw [← h5, hW]; simp
    refine ⟨fun x y hin => ⟨?_, ?_⟩, ?_⟩
    · rw [← Bool.not_eq_true]; exact fun h => hnB ⟨x, y, hin, h⟩
    · rw [← Bool.not_eq_true]; exact fun h => hnW ⟨x, y, hin, h⟩
    · simp only [hB, hW, Bool.not_false, Bool.and_self, if_true, h1]
      exact ⟨trivial, trivial, trivial⟩
  all_goals
    right
    simp only [hB, hW, Bool.not_false, Bool.not_true, Bool.and_false, Bool.false_and,
      Bool.and_true, Bool.and_self, Bool.false_eq_true, if_false, h1]
    split <;> exact ⟨rfl, rfl, rfl⟩

theorem CheckGameOver_GameInv (g : Game) (hgo : g.gameOver = false) (hres : g.result = NONE) :
    GameInv (CheckGameOver g) := by
  rcases CheckGameOver_cases g with ⟨hno, h1, h2, h3⟩ | ⟨h1, h2, _⟩
  · refine ⟨⟨fun _ => h1, fun _ => by rw [h2]; exact classify_ne_NONE _⟩, fun _ => ?_⟩
    rw [h3]
    exact ⟨hno, h2⟩
  · have hgo' : (CheckGameOver g).gameOver = false := by rw [h1]; exact hgo
    have hres' : (CheckGameOver g).result = NONE := by rw [h2]; exact hres
    refine ⟨⟨fun h => absurd hres' h, fun h => ?_⟩, fun h => ?_⟩
    · rw [hgo'] at h; exact absurd h (by simp)
    · rw [hgo'] at h; exact absurd h (by simp)

theorem HandleInput_gameOver (g : Game) (hgo : g.gameOver = true)
    (click : Option (Int × Int)) : HandleInput g click = g := by
  unfold HandleInput
  rw [if_pos hgo]

theorem Reachable_GameInv {g : Game} (h : Reachable g) : GameInv g := by
  induction h with
  | init => exact ⟨⟨fun h => absurd rfl h, fun h => by simp [Game.new] at h⟩,
      fun h => by simp [Game.new] at h⟩
  | initPlayers g m _ ih => exact ih
  | handleInput g click _ ih =>
    cases hgo : g.gameOver with
    | true => rw [HandleInput_gameOver g hgo]; exact ih
    | false =>
      have hres : g.result = NONE := by
        by_contra hne
        have := ih.1.1 hne
        rw [hgo] at this
        exact absurd this (by simp)
      unfold HandleInput
      rw [if_neg (by simp [hgo])]
      exact CheckGameOver_GameInv _ hgo hres
  | resetToMenu g _ _ =>
    exact ⟨⟨fun h => absurd rfl h, fun h => by simp [ResetToMenu] at h⟩,
      fun h => by simp [ResetToMenu] at h⟩

/-- C17. Game-result invariant: in every state reachable from a freshly
constructed `Game` (by `InitPlayers`, `HandleInput` with any human input or the
computer's move, and `ResetToMenu`), `result ≠ NONE` exactly when `gameOver`;
when `gameOver`, neither colour has a legal move on the board and `result` is
the disc-count classification of the board; and once `gameOver`, `HandleInput`
returns the game unchanged, while `ResetToMenu` clears `gameOver` and `result`. -/
theorem game_result_invariant (g : Game) (hreach : Reachable g) :
    (g.result ≠ NONE ↔ g.gameOver = true) ∧
    (g.gameOver = true →
      (∀ x y : Int, Is_Within_Boundaries x y = true →
        legalFor g.board Black_Disc x y = false ∧ legalFor g.board White_Disc x y = false) ∧
      g.result = classify g.board) ∧
    (g.gameOver = true → ∀ click : Option (Int × Int), HandleInput g click = g) ∧
    ((ResetToMenu g).1.gameOver = false ∧ (ResetToMenu g).1.result = NONE) := by
  obtain ⟨h1, h2⟩ := Reachable_GameInv hreach
  exact ⟨h1, h2, fun hgo click => HandleInput_gameOver g hgo click, rfl, rfl⟩

set_option maxRecDepth 100000 in
/-- C17, instance: the game after Black's opening move `(2, 3)` in a
two-player game is reachable; it is not over and has no result. -/
theorem game_result_invariant_witness :
    Reachable (HandleInput (InitPlayers Game.new false) (some (2, 3))) ∧
    ((HandleInput (InitPlayers Game.new false) (some (2, 3))).result ≠ NONE ↔
      (HandleInput (InitPlayers Game.new false) (some (2, 3))).gameOver = true) ∧
    (HandleInput (InitPlayers Game.new false) (some (2, 3))).gameOver = false ∧
    (HandleInput (InitPlayers Game.new false) (some (2, 3))).board.currentPlayer = White_Disc :=
  ⟨Reachable.handleInput _ _ (Reachable.initPlayers _ _ Reachable.init),
    (game_result_invariant _
      (Reachable.handleInput _ _ (Reachable.initPlayers _ _ Reachable.init))).1,
    by decide, by decide⟩

/-! ### Whose side the computer plays -/

set_option maxRecDepth 100000 in
/-- C18 (the code at a failing input). `AIPlayer::MakeMove` picks a legal move
whose Black-favouring score is greatest, also when White (the computer's
colour) is to move.  On `sideBoard`, White to move, the legal moves are `(5,0)`
with score -97 and `(5,4)` with score -123; the computer plays `(5,0)`, the
move the evaluator rates better for Black, and its score is not less than or
equal to that of `(5,4)`. -/
theorem AIMakeMove_maximises_black_score :
    (∀ b : Board,
      (∃ x y : Int, Is_Within_Boundaries x y = true ∧ (CanPlace b x y false).1 = true) →
      ∀ x y : Int, Is_Within_Boundaries x y = true → (CanPlace b x y false).1 = true →
        moveScore b x y ≤ moveScore b (makeMoveScan b).bestX (makeMoveScan b).bestY) ∧
    (sideBoard.currentPlayer = White_Disc ∧
      (CanPlace sideBoard 5 0 false).1 = true ∧ (CanPlace sideBoard 5 4 false).1 = true ∧
      (makeMoveScan sideBoard).bestX = 5 ∧ (makeMoveScan sideBoard).bestY = 0 ∧
      AIMakeMove sideBoard = PlacePiece sideBoard 5 0 ∧
      moveScore sideBoard 5 0 = -97 ∧ moveScore sideBoard 5 4 = -123 ∧
      ¬ (moveScore sideBoard (makeMoveScan sideBoard).bestX (makeMoveScan sideBoard).bestY
          ≤ moveScore sideBoard 5 4)) := by
  refine ⟨fun b hex x y hin hleg => ?_, by decide, by decide, by decide, by decide, by decide,
    by decide, by decide, by decide, by decide⟩
  obtain ⟨_, _, _, _, _, _, hall⟩ := (makeMoveScan_spec b).1 hex
  exact (hall x y hin hleg).1

/-! ### The bounds predicate -/

/-- C19. Bounds predicate: for all integers `x` and `y`,
`Is_Within_Boundaries(x, y)` is true exactly when `0 ≤ x < 8` and `0 ≤ y < 8`. -/
theorem Is_Within_Boundaries_iff (x y : Int) :
    Is_Within_Boundaries x y = true ↔ (0 ≤ x ∧ x < 8) ∧ (0 ≤ y ∧ y < 8) := by
  unfold Is_Within_Boundaries BOARD_SIZE
  simp only [ge_iff_le, Bool.and_eq_true, decide_eq_true_eq]
  constructor
  · rintro ⟨⟨⟨h1, h2⟩, h3⟩, h4⟩
    exact ⟨⟨h1, h2⟩, h3, h4⟩
  · rintro ⟨⟨h1, h2⟩, h3, h4⟩
    exact ⟨⟨⟨h1, h2⟩, h3⟩, h4⟩

/-! ### Index safety of the capture scan -/

theorem readCell_inb (b : Board) {x y : Int} (h : Is_Within_Boundaries x y = true) :
    readCell b x y = some (cellAt b x y) := by
  unfold readCell; rw [if_pos h]

theorem writeCell_inb (b : Board) {x y : Int} (v : Cell) (h : Is_Within_Boundaries x y = true) :
    writeCell b x y v = some (setCell b x y v) := by
  unfold writeCell; rw [if_pos h]

/-- With enough tests allowed, the checked scan stops where the run of opponent
cells ends. -/
theorem scanLoopC_spec (b : Board) (x y dx dy : Int) (m : Nat)
    (hrun : OppRun b x y dx dy m)
    (hstop : ¬ (Is_Within_Boundaries (x + ((m + 1 : Nat) : Int) * dx)
        (y + ((m + 1 : Nat) : Int) * dy) = true ∧
      cellAt b (x + ((m + 1 : Nat) : Int) * dx) (y + ((m + 1 : Nat) : Int) * dy)
        = opponentOf b.currentPlayer)) :
    ∀ (fuel c : Nat), c ≤ m → m < c + fuel →
      scanLoopC b dx dy fuel (x + ((c + 1 : Nat) : Int) * dx) (y + ((c + 1 : Nat) : Int) * dy) c
        = some (x + ((m + 1 : Nat) : Int) * dx, y + ((m + 1 : Nat) : Int) * dy, m) := by
  intro fuel
  induction fuel with
  | zero => intro c h1 h2; omega
  | succ n ih =>
    intro c h1 h2
    rw [scanLoopC]
    by_cases hc : c = m
    · subst hc
      by_cases hin : Is_Within_Boundaries (x + ((c + 1 : Nat) : Int) * dx)
          (y + ((c + 1 : Nat) : Int) * dy) = true
      · have hne : ¬ cellAt b (x + ((c + 1 : Nat) : Int) * dx) (y + ((c + 1 : Nat) : Int) * dy)
            = opponentOf b.currentPlayer := fun h => hstop ⟨hin, h⟩
        simp only [hin, if_true, readCell_inb b hin, Option.some_bind, hne, if_false]
      · simp only [hin, Bool.false_eq_true, if_false]
    · have hnext := hrun (c + 1) (by omega) (by omega)
      have e1 : x + ((c + 1 : Nat) : Int) * dx + dx = x + ((c + 1 + 1 : Nat) : Int) * dx := by
        push_cast; ring
      have e2 : y + ((c + 1 : Nat) : Int) * dy + dy = y + ((c + 1 + 1 : Nat) : Int) * dy := by
        push_cast; ring
      simp only [hnext.1, if_true, readCell_inb b hnext.1, Option.some_bind, hnext.2]
      rw [e1, e2]
      exact ih (c + 1) (by omega) (by omega)

theorem flipLoopC_eq (b : Board) (x y dx dy : Int) :
    ∀ n : Nat, (∀ i : Nat, 1 ≤ i → i ≤ n →
        Is_Within_Boundaries (x + i * dx) (y + i * dy) = true) →
      flipLoopC b x y dx dy n = some (flipLoop b x y dx dy n) := by
  intro n
  induction n with
  | zero => intro _; rfl
  | succ n ih =>
    intro h
    rw [flipLoopC, ih (fun i h1 h2 => h i h1 (by omega)), Option.some_bind,
      writeCell_inb _ _ (h (n + 1) (by omega) (le_refl _))]
    rfl

/-- From an on-board cell in a unit direction no access of `TryFlip` leaves
the grid, and its scan loop stops within 7 iterations. -/
theorem TryFlipC_eq (b : Board) {x y dx dy : Int} (flip : Bool)
    (hin : Is_Within_Boundaries x y = true) (hd : Dir dx dy) :
    TryFlipC b x y dx dy flip = some (TryFlip b x y dx dy flip) := by
  obtain ⟨m, hm, hscan, hrun, hstop⟩ := scan_result b hin hd
  have hC := scanLoopC_spec b x y dx dy m hrun hstop 8 0 (Nat.zero_le _) (by omega)
  simp only [Nat.zero_add, Nat.cast_one, one_mul] at hC
  unfold TryFlipC TryFlip
  simp only [hC, hscan, Option.some_bind]
  by_cases h1 : (decide (m > 0) && Is_Within_Boundaries (x + ((m + 1 : Nat) : Int) * dx)
      (y + ((m + 1 : Nat) : Int) * dy)) = true
  · have hin' : Is_Within_Boundaries (x + ((m + 1 : Nat) : Int) * dx)
        (y + ((m + 1 : Nat) : Int) * dy) = true := by
      rw [Bool.and_eq_true] at h1; exact h1.2
    simp only [h1, if_true, readCell_inb b hin', Option.some_bind, Bool.true_and,
      decide_eq_true_eq]
    by_cases h2 : cellAt b (x + ((m + 1 : Nat) : Int) * dx) (y + ((m + 1 : Nat) : Int) * dy)
        = b.currentPlayer
    · simp only [h2, if_true]
      cases flip with
      | true =>
        simp only [if_true, flipLoopC_eq b x y dx dy m (fun i hi1 hi2 => (hrun i hi1 hi2).1),
          Option.map_some']
      | false => simp only [Bool.false_eq_true, if_false]
    · simp only [h2, if_false]
  · simp only [h1, Bool.false_eq_true, if_false, Bool.false_and]

theorem canPlaceStepC_eq {x y : Int} (hin : Is_Within_Boundaries x y = true) (flip : Bool)
    {dx dy : Int} (hdx : dx = -1 ∨ dx = 0 ∨ dx = 1) (hdy : dy = -1 ∨ dy = 0 ∨ dy = 1)
    (a : Bool × Board) :
    canPlaceStepC x y flip dy (some a) dx = some (canPlaceStep x y flip dy a dx) := by
  unfold canPlaceStepC canPlaceStep
  rw [Option.some_bind]
  by_cases h0 : dx = 0 ∧ dy = 0
  · simp [h0.1, h0.2]
  · have hc : (!(decide (dx = 0) && decide (dy = 0))) = true := by
      rw [Bool.not_eq_true', Bool.and_eq_false_iff, decide_eq_false_iff_not,
        decide_eq_false_iff_not]
      exact not_and_or.1 h0
    simp only [hc, if_true, TryFlipC_eq a.2 flip hin ⟨hdx, hdy, h0⟩, Option.map_some']

theorem canPlaceRowC_eq {x y : Int} (hin : Is_Within_Boundaries x y = true) (flip : Bool)
    {dy : Int} (hdy : dy = -1 ∨ dy = 0 ∨ dy = 1) :
    ∀ (dxs : List Int) (a : Bool × Board), (∀ dx ∈ dxs, dx = -1 ∨ dx = 0 ∨ dx = 1) →
      dxs.foldl (canPlaceStepC x y flip dy) (some a)
        = some (dxs.foldl (canPlaceStep x y flip dy) a) := by
  intro dxs
  induction dxs with
  | nil => intro a _; rfl
  | cons dx t ih =>
    intro a h
    rw [List.foldl_cons, List.foldl_cons, canPlaceStepC_eq hin flip (h dx (by simp)) hdy]
    exact ih _ (fun d hd => h d (List.mem_cons_of_mem _ hd))

theorem canPlaceRowsC_eq {x y : Int} (hin : Is_Within_Boundaries x y = true) (flip : Bool)
    (dxs : List Int) (hdxs : ∀ dx ∈ dxs, dx = -1 ∨ dx = 0 ∨ dx = 1) :
    ∀ (dys : List Int) (a : Bool × Board), (∀ dy ∈ dys, dy = -1 ∨ dy = 0 ∨ dy = 1) →
      dys.foldl (fun acc dy => dxs.foldl (canPlaceStepC x y flip dy) acc) (some a)
        = some (dys.foldl (fun acc dy => dxs.foldl (canPlaceStep x y flip dy) acc) a) := by
  intro dys
  induction dys with
  | nil => intro a _; rfl
  | cons dy t ih =>
    intro a h
    rw [List.foldl_cons, List.foldl_cons, canPlaceRowC_eq hin flip (h dy (by simp)) dxs a hdxs]
    exact ih _ (fun d hd => h d (List.mem_cons_of_mem _ hd))

theorem unit3_mem : ∀ d ∈ ([-1, 0, 1] : List Int), d = -1 ∨ d = 0 ∨ d = 1 := by
  intro d hd
  simpa using hd

/-- On an on-board cell no access of `CanPlace` leaves the grid. -/
theorem CanPlaceC_eq (b : Board) {x y : Int} (flip : Bool)
    (hin : Is_Within_Boundaries x y = true) :
    CanPlaceC b x y flip = some (CanPlace b x y flip) := by
  unfold CanPlaceC CanPlace
  rw [readCell_inb b hin, Option.some_bind]
  by_cases he : cellAt b x y ≠ EMPTY
  · rw [if_pos he, if_pos he]
  · rw [if_neg he, if_neg he]
    exact canPlaceRowsC_eq hin flip _ unit3_mem _ (false, b) unit3_mem

/-- On an on-board cell no access of `PlacePiece` leaves the grid. -/
theorem PlacePieceC_eq (b : Board) {x y : Int} (hin : Is_Within_Boundaries x y = true) :
    PlacePieceC b x y = some (PlacePiece b x y) := by
  unfold PlacePieceC PlacePiece
  rw [CanPlaceC_eq b true hin, Option.some_bind]
  by_cases h : (CanPlace b x y true).1 = true
  · simp only [h, if_true, writeCell_inb _ _ hin, Option.map_some']
  · simp only [h, if_false, Bool.false_eq_true]

/-- C20. Index safety of the capture scan: for an on-board cell `(x, y)`, every
grid access of `TryFlip` (query and flip mode, each of the 8 directions), of
`CanPlace` and of `PlacePiece` has its row and column in `0..7` (the
bounds-checked versions never fail and agree with the unchecked ones); in
particular the writes `board[y + i*dy][x + i*dx]`, `1 ≤ i ≤ count`, of the flip
loop are on the board; and the scan loop of `TryFlip` stops after at most 7
iterations. -/
theorem capture_scan_index_safe (b : Board) (x y : Int)
    (hin : Is_Within_Boundaries x y = true) :
    (∀ (dx dy : Int) (flip : Bool), Dir dx dy →
      TryFlipC b x y dx dy flip = some (TryFlip b x y dx dy flip)) ∧
    (∀ flip : Bool, CanPlaceC b x y flip = some (CanPlace b x y flip)) ∧
    PlacePieceC b x y = some (PlacePiece b x y) ∧
    (∀ dx dy : Int, Dir dx dy →
      (scanLoop b dx dy 8 (x + dx) (y + dy) 0).2.2 ≤ 7 ∧
      scanLoopC b dx dy 8 (x + dx) (y + dy) 0 = some (scanLoop b dx dy 8 (x + dx) (y + dy) 0) ∧
      ∀ i : Nat, 1 ≤ i → i ≤ (scanLoop b dx dy 8 (x + dx) (y + dy) 0).2.2 →
        Is_Within_Boundaries (x + i * dx) (y + i * dy) = true) := by
  refine ⟨fun dx dy flip hd => TryFlipC_eq b flip hin hd, fun flip => CanPlaceC_eq b flip hin,
    PlacePieceC_eq b hin, fun dx dy hd => ?_⟩
  obtain ⟨m, hm, hscan, hrun, hstop⟩ := scan_result b hin hd
  have hC := scanLoopC_spec b x y dx dy m hrun hstop 8 0 (Nat.zero_le _) (by omega)
  simp only [Nat.zero_add, Nat.cast_one, one_mul] at hC
  rw [hscan, hC]
  exact ⟨hm, rfl, fun i h1 h2 => (hrun i h1 h2).1⟩

/-- C20, instance: Black's opening move `(2, 3)`; towards `(3, 3)` the scan
makes one iteration. -/
theorem capture_scan_index_safe_witness :
    Is_Within_Boundaries 2 3 = true ∧
    PlacePieceC Board.new 2 3 = some (PlacePiece Board.new 2 3) ∧
    CanPlaceC Board.new 2 3 false = some (CanPlace Board.new 2 3 false) ∧
    (scanLoop Board.new 1 0 8 (2 + 1) (3 + 0) 0).2.2 = 1 :=
  ⟨by decide, (capture_scan_index_safe Board.new 2 3 (by decide)).2.2.1,
    (capture_scan_index_safe Board.new 2 3 (by decide)).2.1 false, by decide⟩

/-! ### The side to move is not stuck while the game is live -/

theorem legalFor_currentPlayer (b : Board) (x y : Int) :
    legalFor b b.currentPlayer x y = (CanPlace b x y false).1 := rfl

/-- When `CheckGameOver` does not end the game, it leaves the grid alone and
hands the turn to a colour that can move: the side to move if it can, else the
other colour. -/
theorem CheckGameOver_live (g : Game)
    (hp : g.board.currentPlayer = Black_Disc ∨ g.board.currentPlayer = White_Disc)
    (hsome : ∃ x y : Int, Is_Within_Boundaries x y = true ∧
      (legalFor g.board Black_Disc x y = true ∨ legalFor g.board White_Disc x y = true)) :
    (CheckGameOver g).gameOver = g.gameOver ∧
    (CheckGameOver g).board.board = g.board.board ∧
    ∃ x y : Int, Is_Within_Boundaries x y = true ∧
      legalFor g.board (CheckGameOver g).board.currentPlayer x y = true := by
  obtain ⟨⟨grid, cur⟩, vs, go, res⟩ := g
  dsimp only at hp hsome ⊢
  obtain ⟨h1, _, _, h4, h5⟩ := checkScan_spec ⟨grid, cur⟩
  unfold CheckGameOver
  dsimp only
  generalize checkScan ⟨grid, cur⟩ = st at h1 h4 h5 ⊢
  have hBW : st.blackCanMove = true ∨ st.whiteCanMove = true := by
    obtain ⟨x, y, hin, hl | hl⟩ := hsome
    · exact Or.inl (h4.2 ⟨x, y, hin, hl⟩)
    · exact Or.inr (h5.2 ⟨x, y, hin, hl⟩)
  rcases hp with rfl | rfl
  · cases hB : st.blackCanMove <;> cases hW : st.whiteCanMove
    · rw [hB, hW] at hBW; simp at hBW
    · simp only [h1, Bool.not_false, Bool.not_true, Bool.and_false, Bool.false_eq_true, if_false,
        decide_True, Bool.and_self, Bool.true_or, if_true]
      exact ⟨trivial, trivial, h5.1 hW⟩
    · simp only [h1, Bool.not_false, Bool.not_true, Bool.and_false, Bool.false_and,
        Bool.false_eq_true, if_false, reduceCtorEq, decide_False, Bool.or_self]
      exact ⟨trivial, trivial, h4.1 hB⟩
    · simp only [h1, Bool.not_true, Bool.and_false, Bool.and_self, Bool.false_eq_true, if_false,
        Bool.or_self]
      exact ⟨trivial, trivial, h4.1 hB⟩
  · cases hB : st.blackCanMove <;> cases hW : st.whiteCanMove
    · rw [hB, hW] at hBW; simp at hBW
    · simp only [h1, Bool.not_false, Bool.not_true, Bool.and_false, Bool.false_and,
        Bool.false_eq_true, if_false, reduceCtorEq, decide_False, Bool.or_self]
      exact ⟨trivial, trivial, h5.1 hW⟩
    · simp only [h1, Bool.not_false, Bool.not_true, Bool.and_false, Bool.false_and,
        Bool.false_eq_true, if_false, decide_True, Bool.and_self, Bool.or_true, if_true]
      exact ⟨trivial, trivial, h4.1 hB⟩
    · simp only [h1, Bool.not_true, Bool.and_false, Bool.and_self, Bool.false_eq_true, if_false,
        Bool.or_self]
      exact ⟨trivial, trivial, h5.1 hW⟩

/-- With no legal move for either colour `CheckGameOver` ends the game. -/
theorem CheckGameOver_over_of_stuck (g : Game)
    (hno : ¬ ∃ x y : Int, Is_Within_Boundaries x y = true ∧
      (legalFor g.board Black_Disc x y = true ∨ legalFor g.board White_Disc x y = true)) :
    (CheckGameOver g).gameOver = true := by
  obtain ⟨_, _, _, h4, h5⟩ := checkScan_spec g.board
  have hB : (checkScan g.board).blackCanMove = false := by
    rw [← Bool.not_eq_true, h4]
    rintro ⟨x, y, hin, hl⟩
    exact hno ⟨x, y, hin, Or.inl hl⟩
  have hW : (checkScan g.board).whiteCanMove = false := by
    rw [← Bool.not_eq_true, h5]
    rintro ⟨x, y, hin, hl⟩
    exact hno ⟨x, y, hin, Or.inr hl⟩
  unfold CheckGameOver
  simp only [hB, hW, Bool.not_false, Bool.and_self, if_true]

/-- C21. The side to move can always move while the game is live: for a board
with Black or White to move, if `CheckGameOver` returns with `gameOver = false`
then the colour whose turn it is after the call has a legal move on the board
after the call; equivalently, after `CheckGameOver` the game is over or the
side to move is not stuck. -/
theorem CheckGameOver_side_to_move_not_stuck (g : Game)
    (hp : g.board.currentPlayer = Black_Disc ∨ g.board.currentPlayer = White_Disc) :
    ((CheckGameOver g).gameOver = false →
      ∃ x y : Int, Is_Within_Boundaries x y = true ∧
        (CanPlace (CheckGameOver g).board x y false).1 = true) ∧
    ((CheckGameOver g).gameOver = true ∨
      ∃ x y : Int, Is_Within_Boundaries x y = true ∧
        (CanPlace (CheckGameOver g).board x y false).1 = true) := by
  have key : (CheckGameOver g).gameOver = false →
      ∃ x y : Int, Is_Within_Boundaries x y = true ∧
        (CanPlace (CheckGameOver g).board x y false).1 = true := by
    intro hlive
    have hsome : ∃ x y : Int, Is_Within_Boundaries x y = true ∧
        (legalFor g.board Black_Disc x y = true ∨ legalFor g.board White_Disc x y = true) := by
      by_contra hno
      have := CheckGameOver_over_of_stuck g hno
      rw [hlive] at this
      exact absurd this (by simp)
    obtain ⟨_, hgrid, x, y, hin, hleg⟩ := CheckGameOver_live g hp hsome
    refine ⟨x, y, hin, ?_⟩
    have e : (CheckGameOver g).board
        = { g.board with currentPlayer := (CheckGameOver g).board.currentPlayer } := by
      revert hgrid
      generalize (CheckGameOver g).board = b'
      intro hgrid
      cases b'
      simp only at hgrid
      subst hgrid
      rfl
    rw [e]
    exact hleg
  refine ⟨key, ?_⟩
  cases hgo : (CheckGameOver g).gameOver with
  | true => exact Or.inl rfl
  | false => exact Or.inr (key hgo)

set_option maxRecDepth 100000 in
/-- C21, instance: White to move and stuck, Black able to play `(2, 0)`: after
`CheckGameOver` the game is live and the side to move has a legal move. -/
theorem CheckGameOver_side_to_move_not_stuck_witness :
    ((passBoard White_Disc).currentPlayer = Black_Disc ∨
      (passBoard White_Disc).currentPlayer = White_Disc) ∧
    (CheckGameOver ⟨passBoard White_Disc, true, false, NONE⟩).gameOver = false ∧
    ∃ x y : Int, Is_Within_Boundaries x y = true ∧
      (CanPlace (CheckGameOver ⟨passBoard White_Disc, true, false, NONE⟩).board x y false).1
        = true :=
  ⟨Or.inr (by decide), by decide,
    (CheckGameOver_side_to_move_not_stuck ⟨passBoard White_Disc, true, false, NONE⟩
      (Or.inr (by decide))).1 (by decide)⟩

/-! ### Window soundness of the pruned search -/

/-- C22. Window soundness of the pruned search: for every board, depth, flag
and window `alpha < beta` of C++ `int`s, with `v` the unpruned full-width
minimax value `MinimaxFull` of the node, `Minimax(board, depth, maximizing,
alpha, beta)` returns exactly `v` when `alpha < v < beta`, a value `≤ alpha`
when `v ≤ alpha`, and a value `≥ beta` when `v ≥ beta` (the pruning `break`
leaving only the inner loop notwithstanding). -/
theorem Minimax_window_sound (b : Board) (d : Nat) (isMax : Bool) (alpha beta : Int)
    (hab : alpha < beta) (hlo : INT_MIN ≤ alpha) (hhi : beta ≤ INT_MAX) :
    (alpha < MinimaxFull d b isMax ∧ MinimaxFull d b isMax < beta →
      Minimax d b isMax alpha beta = MinimaxFull d b isMax) ∧
    (MinimaxFull d b isMax ≤ alpha → Minimax d b isMax alpha beta ≤ alpha) ∧
    (beta ≤ MinimaxFull d b isMax → beta ≤ Minimax d b isMax alpha beta) := by
  obtain ⟨h1, h2, h3⟩ := Minimax_window d b isMax alpha beta hab hlo hhi
  exact ⟨h1, h2, h3⟩

/-- C22, instance: the opening board at depth 3 with the window `(-10, -5)`. -/
theorem Minimax_window_sound_witness :
    ((-10 : Int) < -5 ∧ INT_MIN ≤ -10 ∧ (-5 : Int) ≤ INT_MAX) ∧
    ((-10 < MinimaxFull 3 Board.new false ∧ MinimaxFull 3 Board.new false < -5 →
        Minimax 3 Board.new false (-10) (-5) = MinimaxFull 3 Board.new false) ∧
      (MinimaxFull 3 Board.new false ≤ -10 → Minimax 3 Board.new false (-10) (-5) ≤ -10) ∧
      (-5 ≤ MinimaxFull 3 Board.new false → -5 ≤ Minimax 3 Board.new false (-10) (-5))) :=
  ⟨⟨by decide, by decide, by decide⟩,
    Minimax_window_sound Board.new 3 false (-10) (-5) (by decide) (by decide) (by decide)⟩

/-! ### Clone makes an independent copy -/

theorem Frame_refl (h : Heap) : Frame h h := ⟨le_refl _, fun _ _ => rfl⟩

theorem Frame_trans {h0 h1 h2 : Heap} (h01 : Frame h0 h1) (h12 : Frame h1 h2) : Frame h0 h2 :=
  ⟨le_trans h01.1 h12.1, fun i hi => by
    rw [h12.2 i (lt_of_lt_of_le hi h01.1), h01.2 i hi]⟩

theorem Heap.write_next (h : Heap) (a : Nat) (b : Board) : (h.write a b).next = h.next := rfl

theorem Heap.write_obj_same (h : Heap) (a : Nat) (b : Board) : (h.write a b).obj a = b := by
  simp [Heap.write]

theorem Heap.write_obj_other (h : Heap) {a i : Nat} (b : Board) (hne : i ≠ a) :
    (h.write a b).obj i = h.obj i := by
  simp [Heap.write, hne]

/-- The copy loops of `Clone`, after the cells `done`: the copy holds the
original's value on each of them, and no other object has been touched. -/
theorem cloneCell_fold (this copy : Nat) (hne : this ≠ copy) (h0 : Heap) :
    ∀ (todo done : List (Nat × Nat)) (hh : Heap),
      (hh.next = h0.next ∧ (∀ i, i ≠ copy → hh.obj i = h0.obj i) ∧
        (hh.obj copy).currentPlayer = (h0.obj copy).currentPlayer ∧
        ∀ c ∈ done, cellAt (hh.obj copy) c.1 c.2 = cellAt (h0.obj this) c.1 c.2) →
      ((todo.foldl (fun (hh : Heap) (c : Nat × Nat) => cloneCell this copy hh c.1 c.2) hh).next
          = h0.next ∧
        (∀ i, i ≠ copy →
          (todo.foldl (fun (hh : Heap) (c : Nat × Nat) => cloneCell this copy hh c.1 c.2) hh).obj i
            = h0.obj i) ∧
        ((todo.foldl (fun (hh : Heap) (c : Nat × Nat) => cloneCell this copy hh c.1 c.2) hh).obj
            copy).currentPlayer = (h0.obj copy).currentPlayer ∧
        ∀ c ∈ done ++ todo,
          cellAt ((todo.foldl (fun (hh : Heap) (c : Nat × Nat) =>
            cloneCell this copy hh c.1 c.2) hh).obj copy) c.1 c.2
            = cellAt (h0.obj this) c.1 c.2) := by
  intro todo
  induction todo with
  | nil => intro done hh h; simpa using h
  | cons c t ih =>
    intro done hh ⟨h1, h2, h3, h4⟩
    have e : done ++ c :: t = (done ++ [c]) ++ t := by simp
    rw [List.foldl_cons, e]
    apply ih (done ++ [c])
    have hthis : (hh.obj this) = h0.obj this := h2 this hne
    refine ⟨rfl.trans h1, fun i hi => ?_, ?_, fun c' hc' => ?_⟩
    · rw [cloneCell, Heap.write_obj_other _ _ hi]; exact h2 i hi
    · rw [cloneCell, Heap.write_obj_same, setCell_currentPlayer]; exact h3
    · rw [cloneCell, Heap.write_obj_same, cellAt_setCell, hthis]
      split
      · rename_i hc
        rw [hc.2.1, hc.2.2]
      · rename_i hc
        rcases List.mem_append.1 hc' with hd | hd
        · exact h4 c' hd
        · rw [List.mem_singleton] at hd
          subst hd
          by_cases hin : Is_Within_Boundaries (c'.1 : Int) (c'.2 : Int) = true
          · exact absurd ⟨hin, rfl, rfl⟩ hc
          · simp [cellAt, hin]

/-- What `Clone` does to memory: the copy is a new object, it holds the 64
cells and the `currentPlayer` of the original, and every object that existed
before the call (the original included) is untouched. -/
theorem HClone_spec (h : Heap) {this : Nat} (hthis : this < h.next) :
    (HClone h this).2 = h.next ∧
    (HClone h this).1.next = h.next + 1 ∧
    (HClone h this).1.obj (HClone h this).2 = h.obj this ∧
    Frame h (HClone h this).1 := by
  have hne : this ≠ h.next := Nat.ne_of_lt hthis
  have hfold := cloneCell_fold this h.next hne h.declare.1 allCells [] h.declare.1
    ⟨rfl, fun _ _ => rfl, rfl, fun c hc => by simp at hc⟩
  rw [← nested_fold_eq (fun (hh : Heap) x y => cloneCell this h.next hh x y)] at hfold
  obtain ⟨f1, f2, f3, f4⟩ := hfold
  have hdecl : ∀ i, i ≠ h.next → h.declare.1.obj i = h.obj i := by
    intro i hi
    simp [Heap.declare, hi]
  have key : ∀ h1 : Heap, h1.next = h.declare.1.next →
      (∀ i, i ≠ h.next → h1.obj i = h.declare.1.obj i) →
      (∀ c ∈ allCells, cellAt (h1.obj h.next) c.1 c.2 = cellAt (h.declare.1.obj this) c.1 c.2) →
      (h1.write h.next { h1.obj h.next with currentPlayer := (h1.obj this).currentPlayer }).next
        = h.next + 1 ∧
      (h1.write h.next { h1.obj h.next with currentPlayer := (h1.obj this).currentPlayer }).obj
        h.next = h.obj this ∧
      Frame h (h1.write h.next
        { h1.obj h.next with currentPlayer := (h1.obj this).currentPlayer }) := by
    intro h1 g1 g2 g4
    refine ⟨?_, ?_, ?_, ?_⟩
    · rw [Heap.write_next, g1]; rfl
    · rw [Heap.write_obj_same]
      apply Board.ext_cellAt
      · show (h1.obj this).currentPlayer = (h.obj this).currentPlayer
        rw [g2 this hne, hdecl this hne]
      · intro x y hin
        obtain ⟨c, hc, rfl, rfl⟩ := inb_mem_allCells hin
        rw [cellAt_with_currentPlayer, g4 c hc, hdecl this hne]
    · rw [Heap.write_next, g1]
      exact Nat.le_succ _
    · intro i hi
      have hi' : i ≠ h.next := Nat.ne_of_lt hi
      rw [Heap.write_obj_other _ _ hi', g2 i hi', hdecl i hi']
  exact ⟨rfl, key _ f1 f2 (fun c hc => f4 c (by simpa using hc))⟩

theorem Heap.write_self (h : Heap) (a : Nat) : h.write a (h.obj a) = h := by
  cases h with
  | mk n o =>
    simp only [Heap.write, Heap.mk.injEq, true_and]
    funext i
    split
    · rename_i hi; rw [hi]
    · rfl

/-- The two statements `Board simulatedBoard = board.Clone(); simulatedBoard.PlacePiece(x, y);`
for any cell: the new object receives the move, every object that existed
before (the original included) is untouched. -/
theorem clone_then_place (h : Heap) {board : Nat} (hboard : board < h.next) (x y : Int) :
    (HClone h board).2 < (HPlacePiece (HClone h board).1 (HClone h board).2 x y).next ∧
    (HPlacePiece (HClone h board).1 (HClone h board).2 x y).obj (HClone h board).2
      = PlacePiece (h.obj board) x y ∧
    Frame h (HPlacePiece (HClone h board).1 (HClone h board).2 x y) := by
  obtain ⟨c1, c2, c3, c4⟩ := HClone_spec h hboard
  unfold HPlacePiece
  rw [Heap.write_next, Heap.write_obj_same, c3, c2, c1]
  refine ⟨Nat.lt_succ_self _, rfl, ?_, fun i hi => ?_⟩
  · rw [Heap.write_next, c2]; exact Nat.le_succ _
  · rw [Heap.write_obj_other _ _ (Nat.ne_of_lt hi)]
    exact c4.2 i hi

theorem HCanPlace_query (h : Heap) (a : Nat) {x y : Int}
    (hin : Is_Within_Boundaries x y = true) :
    HCanPlace h a x y false = ((CanPlace (h.obj a) x y false).1, h) := by
  unfold HCanPlace
  rw [CanPlace_query_board (h.obj a) hin, Heap.write_self]

theorem hMinimaxRow_spec {rec : Heap → Nat → Bool → Int → Int → Int × Heap}
    {recPure : Board → Bool → Int → Int → Int}
    (hrec : ∀ (h : Heap) (a : Nat) (flag : Bool) (al be : Int), a < h.next →
      (rec h a flag al be).1 = recPure (h.obj a) flag al be ∧ Frame h (rec h a flag al be).2)
    (board : Nat) (isMax : Bool) {y : Nat} (hy : y < 8) :
    ∀ (xs : List Nat) (st : SearchState) (h : Heap), (∀ x ∈ xs, x < 8) → board < h.next →
      (hMinimaxRow rec board isMax y xs (st, h)).1
        = minimaxRow recPure (h.obj board) isMax y xs st ∧
      Frame h (hMinimaxRow rec board isMax y xs (st, h)).2 := by
  intro xs
  induction xs with
  | nil => intro st h _ _; exact ⟨rfl, Frame_refl h⟩
  | cons x t ih =>
    intro st h hx hboard
    have hin : Is_Within_Boundaries (x : Int) (y : Int) = true := by
      have := hx x (by simp)
      rw [inb_iff]; omega
    have ht : ∀ x' ∈ t, x' < 8 := fun x' hx' => hx x' (List.mem_cons_of_mem _ hx')
    rw [hMinimaxRow, minimaxRow, isLegal_eq]
    simp only [HCanPlace_query h board hin]
    by_cases he : cellAt (h.obj board) x y = EMPTY
    · simp only [he, if_true, decide_True, Bool.true_and]
      by_cases hl : (CanPlace (h.obj board) x y false).1 = true
      · simp only [hl, if_true]
        obtain ⟨p1, p2, p3⟩ := clone_then_place h hboard x y
        obtain ⟨r1, r2⟩ := hrec _ _ (!isMax) st.alpha st.beta p1
        rw [p2] at r1
        have hfr := Frame_trans p3 r2
        rw [r1, Clone_eq]
        split
        · exact ⟨rfl, hfr⟩
        · have hboard' := lt_of_lt_of_le hboard hfr.1
          obtain ⟨i1, i2⟩ := ih (searchUpdate isMax st
            (recPure (PlacePiece (h.obj board) x y) (!isMax) st.alpha st.beta)) _ ht hboard'
          rw [hfr.2 board hboard] at i1
          exact ⟨i1, Frame_trans hfr i2⟩
      · simp only [hl, if_false, Bool.false_eq_true]
        exact ih st h ht hboard
    · simp only [he, if_false, decide_False, Bool.false_and, Bool.false_eq_true]
      exact ih st h ht hboard

theorem hMinimaxRows_spec {rec : Heap → Nat → Bool → Int → Int → Int × Heap}
    {recPure : Board → Bool → Int → Int → Int}
    (hrec : ∀ (h : Heap) (a : Nat) (flag : Bool) (al be : Int), a < h.next →
      (rec h a flag al be).1 = recPure (h.obj a) flag al be ∧ Frame h (rec h a flag al be).2)
    (board : Nat) (isMax : Bool) :
    ∀ (ys : List Nat) (st : SearchState) (h : Heap), (∀ y ∈ ys, y < 8) → board < h.next →
      (ys.foldl (fun (s : SearchState × Heap) (y : Nat) =>
          hMinimaxRow rec board isMax y (List.range 8) s) (st, h)).1
        = ys.foldl (fun (st : SearchState) (y : Nat) =>
            minimaxRow recPure (h.obj board) isMax y (List.range 8) st) st ∧
      Frame h (ys.foldl (fun (s : SearchState × Heap) (y : Nat) =>
          hMinimaxRow rec board isMax y (List.range 8) s) (st, h)).2 := by
  intro ys
  induction ys with
  | nil => intro st h _ _; exact ⟨rfl, Frame_refl h⟩
  | cons y t ih =>
    intro st h hy hboard
    obtain ⟨q1, q2⟩ := hMinimaxRow_spec hrec board isMax (hy y (by simp)) (List.range 8) st h
      (fun x hx => List.mem_range.1 hx) hboard
    rw [List.foldl_cons, List.foldl_cons]
    have e : hMinimaxRow rec board isMax y (List.range 8) (st, h)
        = ((hMinimaxRow rec board isMax y (List.range 8) (st, h)).1,
           (hMinimaxRow rec board isMax y (List.range 8) (st, h)).2) := rfl
    rw [e]
    obtain ⟨i1, i2⟩ := ih (hMinimaxRow rec board isMax y (List.range 8) (st, h)).1
      (hMinimaxRow rec board isMax y (List.range 8) (st, h)).2
      (fun y' hy' => hy y' (List.mem_cons_of_mem _ hy')) (lt_of_lt_of_le hboard q2.1)
    rw [q2.2 board hboard] at i1
    rw [← q1]
    exact ⟨i1, Frame_trans q2 i2⟩

/-- Over memory, `Minimax` computes the score of the pure search on the board
it is given and touches no object that existed before the call. -/
theorem HMinimax_spec :
    ∀ (d : Nat) (h : Heap) (board : Nat) (isMax : Bool) (al be : Int), board < h.next →
      (HMinimax d h board isMax al be).1 = Minimax d (h.obj board) isMax al be ∧
      Frame h (HMinimax d h board isMax al be).2 := by
  intro d
  induction d with
  | zero => intro h board isMax al be _; exact ⟨rfl, Frame_refl h⟩
  | succ n ih =>
    intro h board isMax al be hboard
    obtain ⟨q1, q2⟩ := hMinimaxRows_spec ih board isMax (List.range 8)
      { bestScore := if isMax then INT_MIN else INT_MAX, moveFound := false,
        alpha := al, beta := be } h (fun y hy => List.mem_range.1 hy) hboard
    have hobj := q2.2 board hboard
    rw [HMinimax, Minimax]
    generalize (List.range 8).foldl (fun (s : SearchState × Heap) (y : Nat) =>
        hMinimaxRow (HMinimax n) board isMax y (List.range 8) s)
      ({ bestScore := if isMax then INT_MIN else INT_MAX, moveFound := false,
         alpha := al, beta := be }, h) = s at q1 q2 hobj ⊢
    generalize (List.range 8).foldl (fun (st : SearchState) (y : Nat) =>
        minimaxRow (Minimax n) (h.obj board) isMax y (List.range 8) st)
      { bestScore := if isMax then INT_MIN else INT_MAX, moveFound := false,
        alpha := al, beta := be } = st' at q1 ⊢
    subst q1
    cases hf : s.1.moveFound with
    | true => exact ⟨rfl, q2⟩
    | false => exact ⟨by rw [hobj]; rfl, q2⟩

theorem hMakeMoveStep_spec (board : Nat) {x y : Nat} (hx : x < 8) (hy : y < 8)
    (st : MoveState) (h : Heap) (hboard : board < h.next) :
    (hMakeMoveStep board y (st, h) x).1 = makeMoveStep (h.obj board) y st x ∧
    Frame h (hMakeMoveStep board y (st, h) x).2 := by
  have hin : Is_Within_Boundaries (x : Int) (y : Int) = true := by
    rw [inb_iff]; omega
  rw [hMakeMoveStep, makeMoveStep, isLegal_eq]
  simp only [HCanPlace_query h board hin]
  by_cases he : cellAt (h.obj board) x y = EMPTY
  · simp only [he, if_true, decide_True, Bool.true_and]
    by_cases hl : (CanPlace (h.obj board) x y false).1 = true
    · simp only [hl, if_true]
      obtain ⟨p1, p2, p3⟩ := clone_then_place h hboard x y
      obtain ⟨r1, r2⟩ := HMinimax_spec 3 _ _ false INT_MIN INT_MAX p1
      rw [p2] at r1
      rw [Clone_eq]
      generalize Minimax 3 (PlacePiece (h.obj board) x y) false INT_MIN INT_MAX = sc at r1 ⊢
      generalize HMinimax 3 (HPlacePiece (HClone h board).1 (HClone h board).2 x y)
        (HClone h board).2 false INT_MIN INT_MAX = R at r1 r2 ⊢
      have hfr := Frame_trans p3 r2
      subst r1
      by_cases hs : R.1 > st.bestScore
      · simp only [hs, if_true]
        exact ⟨trivial, hfr⟩
      · simp only [hs, if_false]
        exact ⟨trivial, hfr⟩
    · simp only [hl, if_false, Bool.false_eq_true]
      exact ⟨trivial, Frame_refl h⟩
  · simp only [he, if_false, decide_False, Bool.false_and, Bool.false_eq_true]
    exact ⟨trivial, Frame_refl h⟩

/-- Over memory, the scoring loops of `MakeMove` compute what the pure loops
compute on the board they are given and touch no object that existed before. -/
theorem hMakeMoveScan_spec (h : Heap) {board : Nat} (hboard : board < h.next) :
    (hMakeMoveScan h board).1 = makeMoveScan (h.obj board) ∧
    Frame h (hMakeMoveScan h board).2 := by
  have hrow : ∀ (y : Nat), y < 8 → ∀ (xs : List Nat) (st : MoveState) (h' : Heap),
      (∀ x ∈ xs, x < 8) → board < h'.next →
      (xs.foldl (hMakeMoveStep board y) (st, h')).1
        = xs.foldl (makeMoveStep (h'.obj board) y) st ∧
      Frame h' (xs.foldl (hMakeMoveStep board y) (st, h')).2 := by
    intro y hy xs
    induction xs with
    | nil => intro st h' _ _; exact ⟨rfl, Frame_refl h'⟩
    | cons x t ih =>
      intro st h' hx hb
      obtain ⟨q1, q2⟩ := hMakeMoveStep_spec board (hx x (by simp)) hy st h' hb
      rw [List.foldl_cons, List.foldl_cons]
      have e : hMakeMoveStep board y (st, h') x
          = ((hMakeMoveStep board y (st, h') x).1, (hMakeMoveStep board y (st, h') x).2) := rfl
      rw [e]
      obtain ⟨i1, i2⟩ := ih (hMakeMoveStep board y (st, h') x).1
        (hMakeMoveStep board y (st, h') x).2
        (fun x' hx' => hx x' (List.mem_cons_of_mem _ hx')) (lt_of_lt_of_le hb q2.1)
      rw [q2.2 board hb] at i1
      rw [← q1]
      exact ⟨i1, Frame_trans q2 i2⟩
  have hrows : ∀ (ys : List Nat) (st : MoveState) (h' : Heap),
      (∀ y ∈ ys, y < 8) → board < h'.next →
      (ys.foldl (fun (s : MoveState × Heap) (y : Nat) =>
          (List.range 8).foldl (hMakeMoveStep board y) s) (st, h')).1
        = ys.foldl (fun (st : MoveState) (y : Nat) =>
            (List.range 8).foldl (makeMoveStep (h'.obj board) y) st) st ∧
      Frame h' (ys.foldl (fun (s : MoveState × Heap) (y : Nat) =>
          (List.range 8).foldl (hMakeMoveStep board y) s) (st, h')).2 := by
    intro ys
    induction ys with
    | nil => intro st h' _ _; exact ⟨rfl, Frame_refl h'⟩
    | cons y t ih =>
      intro st h' hy hb
      obtain ⟨q1, q2⟩ := hrow y (hy y (by simp)) (List.range 8) st h'
        (fun x hx => List.mem_range.1 hx) hb
      rw [List.foldl_cons, List.foldl_cons]
      have e : (List.range 8).foldl (hMakeMoveStep board y) (st, h')
          = (((List.range 8).foldl (hMakeMoveStep board y) (st, h')).1,
             ((List.range 8).foldl (hMakeMoveStep board y) (st, h')).2) := rfl
      rw [e]
      obtain ⟨i1, i2⟩ := ih ((List.range 8).foldl (hMakeMoveStep board y) (st, h')).1
        ((List.range 8).foldl (hMakeMoveStep board y) (st, h')).2
        (fun y' hy' => hy y' (List.mem_cons_of_mem _ hy')) (lt_of_lt_of_le hb q2.1)
      rw [q2.2 board hb] at i1
      rw [← q1]
      exact ⟨i1, Frame_trans q2 i2⟩
  exact hrows (List.range 8) _ h (fun y hy => List.mem_range.1 hy) hboard

/-- C14. Clone fidelity and independence, over a memory of `Board` objects: for
a board object at address `board`, `board.Clone()` yields a new object, at
another address, with the same 64 cells and the same `currentPlayer`;
`PlacePiece` applied to that copy, for any cell, leaves the original's grid
and `currentPlayer` (and every other object that existed before) unchanged
while the copy receives the move; consequently `AIPlayer::Minimax` (any depth,
flag and window) and the scoring loops of `AIPlayer::MakeMove`, which pass the
copies' addresses down the recursion, never modify the board they are given. -/
theorem Clone_heap_independent (h : Heap) (board : Nat) (hboard : board < h.next) :
    ((HClone h board).2 ≠ board ∧
      (∀ r c : Fin 8,
        ((HClone h board).1.obj (HClone h board).2).board r c = (h.obj board).board r c) ∧
      ((HClone h board).1.obj (HClone h board).2).currentPlayer = (h.obj board).currentPlayer ∧
      (HClone h board).1.obj board = h.obj board) ∧
    (∀ x y : Int,
      (HPlacePiece (HClone h board).1 (HClone h board).2 x y).obj board = h.obj board ∧
      (HPlacePiece (HClone h board).1 (HClone h board).2 x y).obj (HClone h board).2
        = PlacePiece (h.obj board) x y ∧
      ∀ i : Nat, i < h.next →
        (HPlacePiece (HClone h board).1 (HClone h board).2 x y).obj i = h.obj i) ∧
    (∀ (d : Nat) (isMax : Bool) (al be : Int),
      (HMinimax d h board isMax al be).2.obj board = h.obj board ∧
      (∀ i : Nat, i < h.next → (HMinimax d h board isMax al be).2.obj i = h.obj i) ∧
      (HMinimax d h board isMax al be).1 = Minimax d (h.obj board) isMax al be) ∧
    ((hMakeMoveScan h board).2.obj board = h.obj board ∧
      (∀ i : Nat, i < h.next → (hMakeMoveScan h board).2.obj i = h.obj i) ∧
      (hMakeMoveScan h board).1 = makeMoveScan (h.obj board)) := by
  obtain ⟨c1, _, c3, c4⟩ := HClone_spec h hboard
  refine ⟨⟨?_, fun r c => by rw [c3], by rw [c3], c4.2 board hboard⟩, fun x y => ?_,
    fun d isMax al be => ?_, ?_⟩
  · rw [c1]; exact (Nat.ne_of_lt hboard).symm
  · obtain ⟨_, p2, p3⟩ := clone_then_place h hboard x y
    exact ⟨p3.2 board hboard, p2, p3.2⟩
  · obtain ⟨q1, q2⟩ := HMinimax_spec d h board isMax al be hboard
    exact ⟨q2.2 board hboard, q2.2, q1⟩
  · obtain ⟨q1, q2⟩ := hMakeMoveScan_spec h hboard
    exact ⟨q2.2 board hboard, q2.2, q1⟩

/-- C14, instance: a memory holding the opening board at address 0.  The clone
is the object at address 1; after `PlacePiece(2, 3)` on it the clone has
changed and the original has not. -/
theorem Clone_heap_independent_witness :
    (0 < (Heap.single Board.new).next ∧ (HClone (Heap.single Board.new) 0).2 = 1) ∧
    ((HPlacePiece (HClone (Heap.single Board.new) 0).1 (HClone (Heap.single Board.new) 0).2
        2 3).obj 0 = (Heap.single Board.new).obj 0 ∧
      (HPlacePiece (HClone (Heap.single Board.new) 0).1 (HClone (Heap.single Board.new) 0).2
        2 3).obj (HClone (Heap.single Board.new) 0).2
        = PlacePiece ((Heap.single Board.new).obj 0) 2 3) ∧
    PlacePiece ((Heap.single Board.new).obj 0) 2 3 ≠ (Heap.single Board.new).obj 0 ∧
    (HMinimax 3 (Heap.single Board.new) 0 true INT_MIN INT_MAX).2.obj 0
      = (Heap.single Board.new).obj 0 :=
  ⟨⟨by decide, by decide⟩,
    ⟨((Clone_heap_independent (Heap.single Board.new) 0 (by decide)).2.1 2 3).1,
      ((Clone_heap_independent (Heap.single Board.new) 0 (by decide)).2.1 2 3).2.1⟩,
    by decide,
    ((Clone_heap_independent (Heap.single Board.new) 0 (by decide)).2.2.1 3 true INT_MIN
      INT_MAX).1⟩

end Othello
